import Mathlib

/-!
# Coefficient store and composition curve of the `curves` library

A shallow embedding of `LocalSupport2CoefficientManager` (file
`LocalSupport2CoefficientManager-inl.hpp`) and of `SE3CompositionCurve` (file
`SE3CompositionCurve-inl.hpp`), and the properties of their operations.

Modelling conventions.

* `Time` is an integer and `Key` a natural number.  The store never does
  arithmetic on either, it only compares them.
* `timeToCoefficient_` is a `std::map<Time, KeyCoefficient>`: a list of nodes
  in ascending time order.  A `CoefficientIter` used locally by an operation is
  a position in that list; `begin()` is position `0` and `end()` is the length.
* `keyToCoefficient_` is an unordered map from `Key` to a `CoefficientIter`
  that designates a node of `timeToCoefficient_`.  Nodes of a `std::map` are
  never moved by insertions, and the removal of a sample erases the node
  together with its key entry, so a stored iterator is represented by the time
  of the node it designates.
* A failed `CHECK` aborts the process; operations that contain one return
  `Except Error _`.  Undefined behaviour on iterators (dereferencing `end()`,
  decrementing `begin()`, reading an iterator that was never written) is
  reported as `Error.InvalidIterator`.
* The composition curve is a template over the classes of its two curves.  A
  curve class is the parameter `CurveClass`, which carries `evaluate`; the other
  operations of a single-segment curve act on its coefficient store.
  `ValueType` is a type with a product, an inverse and an identity.
* Operations of the composition curve that can stop at a failed `CHECK` after
  they have written to the curve return the state at exit next to the outcome.
  Other calls have a counterpart named `...Exit` for that purpose; `result`
  gives back what the call returns.
-/

namespace curves

abbrev Time := Int

abbrev Key := Nat

/-- The failures an operation of the store can end in. -/
inductive Error where
  | UnknownKey
  | ArityMismatch
  | Inconsistent
  | InvalidIterator
  | UnknownTime
  | UnsupportedBatchSize
  | OutOfRange
  | RangeMismatch
  deriving DecidableEq, Repr

/-- Payload of one node of the time index: `KeyCoefficient(key, coefficient)`. -/
structure KeyCoefficient (C : Type) where
  key : Key
  coefficient : C
  deriving DecidableEq, Repr

/-- Modelled from the spec: `KeyGenerator.hpp` is not among the sources.  The
spec describes a process-wide monotonic counter, initialised once, incremented
on every new coefficient insertion and never reset; `key` is the last key that
was issued. -/
structure KeyGenerator where
  key : Key
  deriving DecidableEq, Repr

/-- Modelled from the spec: `KeyGenerator::getNextKey()`, the counter is
incremented and its new value is the key that is issued. -/
def KeyGenerator.getNextKey (g : KeyGenerator) : Key × KeyGenerator :=
  (g.key + 1, ⟨g.key + 1⟩)

/-! ## `std::map<Time, KeyCoefficient>` -/

namespace map

/-- `find(time)`: position of the node with this time, `end()` when absent. -/
def find {C : Type} : List (Time × KeyCoefficient C) → Time → Nat
  | [], _ => 0
  | (t, _) :: rest, time => if t = time then 0 else find rest time + 1

/-- `upper_bound(time)`: position of the first node whose time is greater than
`time`, `end()` when there is none. -/
def upper_bound {C : Type} : List (Time × KeyCoefficient C) → Time → Nat
  | [], _ => 0
  | (t, _) :: rest, time => if time < t then 0 else upper_bound rest time + 1

/-- `insert(pair)`: the node is linked in at its place in the time order; a map
that already has a node with this time is left as it is. -/
def insert {C : Type} :
    List (Time × KeyCoefficient C) → Time × KeyCoefficient C → List (Time × KeyCoefficient C)
  | [], p => [p]
  | (t, kc) :: rest, p =>
    if p.1 < t then p :: (t, kc) :: rest
    else if p.1 = t then (t, kc) :: rest
    else (t, kc) :: insert rest p

/-- `it->second.coefficient = coefficient` for the iterator at position `it`. -/
def setCoefficient {C : Type} :
    List (Time × KeyCoefficient C) → Nat → C → List (Time × KeyCoefficient C)
  | [], _, _ => []
  | (t, kc) :: rest, 0, c => (t, ⟨kc.key, c⟩) :: rest
  | e :: rest, it + 1, c => e :: setCoefficient rest it c

/-- Dereference of the iterator at position `it`. -/
def deref {C : Type} (l : List (Time × KeyCoefficient C)) (it : Nat) :
    Except Error (Time × KeyCoefficient C) :=
  match l[it]? with
  | some e => .ok e
  | none => .error .InvalidIterator

end map

/-! ## `boost::unordered_map<Key, V>` -/

namespace unordered_map

/-- `find(key)`: the mapped value, `none` for `end()`. -/
def find {V : Type} : List (Key × V) → Key → Option V
  | [], _ => none
  | (k, v) :: rest, key => if k = key then some v else find rest key

/-- `m[key] = v`: overwrites the mapped value of `key`, or adds the entry. -/
def assign {V : Type} : List (Key × V) → Key → V → List (Key × V)
  | [], key, v => [(key, v)]
  | (k, w) :: rest, key, v =>
    if k = key then (k, v) :: rest else (k, w) :: assign rest key v

end unordered_map

/-- The coefficient store: the key index and the time index. -/
structure LocalSupport2CoefficientManager (C : Type) where
  keyToCoefficient_ : List (Key × Time)
  timeToCoefficient_ : List (Time × KeyCoefficient C)
  deriving DecidableEq, Repr

/-- `CoefficientMap`: key/coefficient pairs handed to and from callers. -/
abbrev CoefficientMap (C : Type) := List (Key × C)

namespace LocalSupport2CoefficientManager

variable {C : Type}

/-- The constructor: both indices empty. -/
def new : LocalSupport2CoefficientManager C := ⟨[], []⟩

/-- `appendKeys`: the keys in time order, pushed to `outKeys`. -/
def appendKeys (m : LocalSupport2CoefficientManager C) (outKeys : List Key) : List Key :=
  outKeys ++ m.timeToCoefficient_.map (fun e => e.2.key)

/-- `getKeys`: `outKeys` is cleared, then the keys are appended. -/
def getKeys (m : LocalSupport2CoefficientManager C) : List Key :=
  m.appendKeys []

/-- `getTimes`: the stored times in time order. -/
def getTimes (m : LocalSupport2CoefficientManager C) : List Time :=
  m.timeToCoefficient_.map (fun e => e.1)

/-- `hasCoefficientAtTime(time, &it)`: the iterator found and whether it is not
`end()`. -/
def hasCoefficientAtTimeIt (m : LocalSupport2CoefficientManager C) (time : Time) : Bool × Nat :=
  let it := map.find m.timeToCoefficient_ time
  (it != m.timeToCoefficient_.length, it)

/-- `hasCoefficientAtTime(time)`. -/
def hasCoefficientAtTime (m : LocalSupport2CoefficientManager C) (time : Time) : Bool :=
  map.find m.timeToCoefficient_ time != m.timeToCoefficient_.length

/-- `hasCoefficientWithKey(key)`. -/
def hasCoefficientWithKey (m : LocalSupport2CoefficientManager C) (key : Key) : Bool :=
  (unordered_map.find m.keyToCoefficient_ key).isSome

/-- `setCoefficientByKey(key, coefficient)`. -/
def setCoefficientByKey (m : LocalSupport2CoefficientManager C) (key : Key) (coefficient : C) :
    Except Error (LocalSupport2CoefficientManager C) :=
  match unordered_map.find m.keyToCoefficient_ key with
  | none => .error .UnknownKey
  | some node =>
    let keyToCoefficient := unordered_map.assign m.keyToCoefficient_ key node
    let ci := map.find m.timeToCoefficient_ node
    if ci = m.timeToCoefficient_.length then .error .InvalidIterator
    else .ok ⟨keyToCoefficient, map.setCoefficient m.timeToCoefficient_ ci coefficient⟩

/-- `getCoefficientByKey(key)`. -/
def getCoefficientByKey (m : LocalSupport2CoefficientManager C) (key : Key) : Except Error C :=
  match unordered_map.find m.keyToCoefficient_ key with
  | none => .error .UnknownKey
  | some node =>
    match map.deref m.timeToCoefficient_ (map.find m.timeToCoefficient_ node) with
    | .ok e => .ok e.2.coefficient
    | .error err => .error err

/-- `insertCoefficient(time, coefficient)`: the key, the store and the key
generator after the call. -/
def insertCoefficient (m : LocalSupport2CoefficientManager C) (time : Time) (coefficient : C)
    (g : KeyGenerator) : Except Error (Key × LocalSupport2CoefficientManager C × KeyGenerator) :=
  let found := m.hasCoefficientAtTimeIt time
  if found.1 then
    match map.deref m.timeToCoefficient_ found.2 with
    | .error err => .error err
    | .ok e =>
      match m.setCoefficientByKey e.2.key coefficient with
      | .error err => .error err
      | .ok m1 =>
        match map.deref m1.timeToCoefficient_ found.2 with
        | .error err => .error err
        | .ok e1 => .ok (e1.2.key, m1, g)
  else
    let next := g.getNextKey
    let key := next.1
    let timeToCoefficient := map.insert m.timeToCoefficient_ (time, ⟨key, coefficient⟩)
    .ok (key, ⟨unordered_map.assign m.keyToCoefficient_ key time, timeToCoefficient⟩, next.2)

/-- The loop of `insertCoefficients` over the paired inputs. -/
def insertLoop : LocalSupport2CoefficientManager C → KeyGenerator → List (Time × C) →
    Option (List Key) → Except Error (LocalSupport2CoefficientManager C × KeyGenerator × Option (List Key))
  | m, g, [], outKeys => .ok (m, g, outKeys)
  | m, g, (t, v) :: rest, outKeys =>
    match m.insertCoefficient t v g with
    | .error err => .error err
    | .ok (key, m1, g1) => insertLoop m1 g1 rest (outKeys.map (fun ks => ks ++ [key]))

/-- `insertCoefficients(times, values, outKeys)`; `outKeys` is `none` for a
null pointer. -/
def insertCoefficients (m : LocalSupport2CoefficientManager C) (times : List Time)
    (values : List C) (outKeys : Option (List Key)) (g : KeyGenerator) :
    Except Error (LocalSupport2CoefficientManager C × KeyGenerator × Option (List Key)) :=
  if times.length = values.length then insertLoop m g (times.zip values) outKeys
  else .error .ArityMismatch

/-- `getMinTime()`. -/
def getMinTime (m : LocalSupport2CoefficientManager C) : Time :=
  match m.timeToCoefficient_ with
  | [] => 0
  | (t, _) :: _ => t

/-- `getMaxTime()`. -/
def getMaxTime (m : LocalSupport2CoefficientManager C) : Time :=
  match m.timeToCoefficient_.getLast? with
  | none => 0
  | some (t, _) => t

/-- `getCoefficientsAt(time, &it0, &it1)`: `none` when the function returns
`false`, otherwise the two iterators written to the out parameters. -/
def getCoefficientsAt (m : LocalSupport2CoefficientManager C) (time : Time) : Option (Nat × Nat) :=
  if m.timeToCoefficient_.isEmpty then none
  else
    let it :=
      if time = m.getMaxTime then m.timeToCoefficient_.length - 1
      else map.upper_bound m.timeToCoefficient_ time
    if it = 0 ∨ it = m.timeToCoefficient_.length then none
    else
      let it := it - 1
      some (it, it + 1)

/-- The scan of `getCoefficientsInRange` from the iterator onwards: the `for`
loop and the `if` that follows it. -/
def rangeLoop : List (Time × KeyCoefficient C) → Time → CoefficientMap C → CoefficientMap C
  | [], _, out => out
  | (t, kc) :: rest, endTime, out =>
    if t < endTime then rangeLoop rest endTime (unordered_map.assign out kc.key kc.coefficient)
    else unordered_map.assign out kc.key kc.coefficient

/-- `getCoefficientsInRange(startTime, endTime, outCoefficients)`.  The source
writes `it->second->key` and `it->second->coefficient` here; they are read as the
key and the coefficient of the node, as in every other function of the file. -/
def getCoefficientsInRange (m : LocalSupport2CoefficientManager C) (startTime endTime : Time)
    (outCoefficients : CoefficientMap C) : Except Error (CoefficientMap C) :=
  if startTime ≤ endTime ∧ startTime ≤ m.getMaxTime ∧ endTime ≥ m.getMinTime then
    let startTime := if startTime < m.getMinTime then m.getMinTime else startTime
    let endTime := if endTime > m.getMaxTime then m.getMaxTime else endTime
    let it := map.upper_bound m.timeToCoefficient_ startTime
    if it = 0 then .error .InvalidIterator
    else .ok (rangeLoop (m.timeToCoefficient_.drop (it - 1)) endTime outCoefficients)
  else .ok outCoefficients

/-- `getCoefficients(outCoefficients)`. -/
def getCoefficients (m : LocalSupport2CoefficientManager C) (outCoefficients : CoefficientMap C) :
    CoefficientMap C :=
  m.timeToCoefficient_.foldl (fun out e => unordered_map.assign out e.2.key e.2.coefficient)
    outCoefficients

/-- `setCoefficients(coefficients)`: `setCoefficientByKey` for every pair, in
the iteration order of the mapping. -/
def setCoefficients : LocalSupport2CoefficientManager C → CoefficientMap C →
    Except Error (LocalSupport2CoefficientManager C)
  | m, [] => .ok m
  | m, (key, coefficient) :: rest =>
    match m.setCoefficientByKey key coefficient with
    | .error err => .error err
    | .ok m1 => setCoefficients m1 rest

/-- `size()`. -/
def size (m : LocalSupport2CoefficientManager C) : Nat :=
  m.keyToCoefficient_.length

/-- `clear()`. -/
def clear (_m : LocalSupport2CoefficientManager C) : LocalSupport2CoefficientManager C :=
  ⟨[], []⟩

/-- The checks `checkInternalConsistency` makes for the node `e` of the time
index. -/
def checkNode [DecidableEq C] (m : LocalSupport2CoefficientManager C)
    (e : Time × KeyCoefficient C) : Except Error Unit :=
  match unordered_map.find m.keyToCoefficient_ e.2.key with
  | none => .error .InvalidIterator
  | some node =>
    match map.deref m.timeToCoefficient_ (map.find m.timeToCoefficient_ node) with
    | .error err => .error err
    | .ok target =>
      if e.2.key ≠ target.2.key then .error .Inconsistent
      else if target.2.coefficient ≠ e.2.coefficient then .error .Inconsistent
      else .ok ()

/-- The loop of `checkInternalConsistency` over the time index. -/
def checkNodes [DecidableEq C] (m : LocalSupport2CoefficientManager C) :
    List (Time × KeyCoefficient C) → Except Error Unit
  | [] => .ok ()
  | e :: rest =>
    match m.checkNode e with
    | .error err => .error err
    | .ok _ => checkNodes m rest

/-- `checkInternalConsistency(doExit)`: `.ok doExit` when every check passes
(the process then exits when `doExit` is set). -/
def checkInternalConsistency [DecidableEq C] (m : LocalSupport2CoefficientManager C)
    (doExit : Bool) : Except Error Bool :=
  if m.keyToCoefficient_.length ≠ m.timeToCoefficient_.length then .error .Inconsistent
  else
    match m.checkNodes m.timeToCoefficient_ with
    | .error err => .error err
    | .ok _ => .ok doExit

/-! ## Invariants of the two indices -/

/-- The time index is in strictly ascending time order (what `std::map`
maintains). -/
def TimesAscending (m : LocalSupport2CoefficientManager C) : Prop :=
  m.timeToCoefficient_.Pairwise (fun a b => a.1 < b.1)

/-- No key occurs twice in the key index (what `unordered_map` maintains). -/
def KeysUnique (m : LocalSupport2CoefficientManager C) : Prop :=
  (m.keyToCoefficient_.map (fun e => e.1)).Nodup

/-- Invariant I1: the two indices have equal cardinality, every key of the key
index resolves to a node of the time index whose stored key is that key, and
the key of every node of the time index is in the key index (and resolves to
that node). -/
def I1 (m : LocalSupport2CoefficientManager C) : Prop :=
  m.keyToCoefficient_.length = m.timeToCoefficient_.length ∧
  (∀ key node, (key, node) ∈ m.keyToCoefficient_ →
    ∃ c, (node, (⟨key, c⟩ : KeyCoefficient C)) ∈ m.timeToCoefficient_) ∧
  (∀ e, e ∈ m.timeToCoefficient_ → (e.2.key, e.1) ∈ m.keyToCoefficient_)

/-- Well-formed stores: the container invariants and I1. -/
structure WellFormed (m : LocalSupport2CoefficientManager C) : Prop where
  ascending : m.TimesAscending
  unique : m.KeysUnique
  i1 : m.I1

/-- Every key of the store has been issued by the generator already. -/
def Issued (m : LocalSupport2CoefficientManager C) (g : KeyGenerator) : Prop :=
  ∀ key node, (key, node) ∈ m.keyToCoefficient_ → key ≤ g.key

/-- The states a store can be in, together with the state of the key generator
it draws from: a store starts empty and changes through its mutators only,
while the generator may also issue keys to other stores. -/
inductive Reachable : LocalSupport2CoefficientManager C → KeyGenerator → Prop where
  | new (g : KeyGenerator) : Reachable new g
  | otherKey {m g} : Reachable m g → Reachable m g.getNextKey.2
  | insertCoefficient {m g time coefficient key m1 g1} :
      Reachable m g → m.insertCoefficient time coefficient g = .ok (key, m1, g1) →
      Reachable m1 g1
  | insertCoefficients {m g times values outKeys m1 g1 keys} :
      Reachable m g → m.insertCoefficients times values outKeys g = .ok (m1, g1, keys) →
      Reachable m1 g1
  | setCoefficientByKey {m g key coefficient m1} :
      Reachable m g → m.setCoefficientByKey key coefficient = .ok m1 → Reachable m1 g
  | setCoefficients {m g coefficients m1} :
      Reachable m g → m.setCoefficients coefficients = .ok m1 → Reachable m1 g
  | clear {m g} : Reachable m g → Reachable m.clear g

/-- The store of the bracket examples: times 1, 3 and 5, inserted in the order
3, 1, 5 with a generator that has issued no key yet. -/
def store135 : LocalSupport2CoefficientManager Nat :=
  ⟨[(1, 3), (2, 1), (3, 5)], [(1, ⟨2, 10⟩), (3, ⟨1, 30⟩), (5, ⟨3, 50⟩)]⟩

/-- The store of the range-query examples: times 0, 10, 20 and 30, inserted in
this order with a generator that has issued no key yet. -/
def store0to30 : LocalSupport2CoefficientManager Nat :=
  ⟨[(1, 0), (2, 10), (3, 20), (4, 30)],
    [(0, ⟨1, 100⟩), (10, ⟨2, 110⟩), (20, ⟨3, 120⟩), (30, ⟨4, 130⟩)]⟩

end LocalSupport2CoefficientManager

/-! ## Sequences of calls -/

/-- A mutating call on one store. -/
inductive StoreCall (C : Type) where
  | insertCoefficient (time : Time) (coefficient : C)
  | setCoefficientByKey (key : Key) (coefficient : C)

/-- A sequence of calls on one store, each applied to the state the previous one
left.  The log records, in call order, what was written: for
`insertCoefficient` the key it returned with the coefficient passed, for
`setCoefficientByKey` the key and the coefficient passed. -/
def runCalls {C : Type} : LocalSupport2CoefficientManager C → KeyGenerator → List (StoreCall C) →
    Except Error (LocalSupport2CoefficientManager C × KeyGenerator × List (Key × C))
  | m, g, [] => .ok (m, g, [])
  | m, g, StoreCall.insertCoefficient time coefficient :: rest =>
    match m.insertCoefficient time coefficient g with
    | .error err => .error err
    | .ok (key, m1, g1) =>
      match runCalls m1 g1 rest with
      | .error err => .error err
      | .ok (m2, g2, log) => .ok (m2, g2, (key, coefficient) :: log)
  | m, g, StoreCall.setCoefficientByKey key coefficient :: rest =>
    match m.setCoefficientByKey key coefficient with
    | .error err => .error err
    | .ok m1 =>
      match runCalls m1 g rest with
      | .error err => .error err
      | .ok (m2, g2, log) => .ok (m2, g2, (key, coefficient) :: log)

/-- The coefficient most recently written to the slot of `key` according to a
log in call order, `none` when the log has no write to that key. -/
def lastWritten {C : Type} : List (Key × C) → Key → Option C
  | [], _ => none
  | (k, c) :: rest, key =>
    match lastWritten rest key with
    | some later => some later
    | none => if k = key then some c else none

/-- A process: the key generator and the stores, addressed by a number, that
draw their keys from it. -/
structure Process (C : Type) where
  generator : KeyGenerator
  stores : Nat → LocalSupport2CoefficientManager C

/-- A call on one of the stores of a process. -/
inductive ProcessCall (C : Type) where
  | insertCoefficient (store : Nat) (time : Time) (coefficient : C)
  | setCoefficientByKey (store : Nat) (key : Key) (coefficient : C)
  | clear (store : Nat)

/-- Record of one `insertCoefficient` call: the store, the time, the key that
was returned, and whether the call created a new entry (the time was not in
the store before the call). -/
structure Returned where
  store : Nat
  time : Time
  key : Key
  created : Bool
  deriving DecidableEq, Repr

namespace Process

variable {C : Type}

/-- A process whose stores are all empty. -/
def start (g : KeyGenerator) : Process C := ⟨g, fun _ => LocalSupport2CoefficientManager.new⟩

/-- One call: the process after it and the record of what an insert returned. -/
def step (p : Process C) : ProcessCall C → Except Error (Process C × List Returned)
  | ProcessCall.insertCoefficient i time coefficient =>
    match (p.stores i).insertCoefficient time coefficient p.generator with
    | .error err => .error err
    | .ok (key, m1, g1) =>
      .ok (⟨g1, Function.update p.stores i m1⟩,
        [⟨i, time, key, !(p.stores i).hasCoefficientAtTime time⟩])
  | ProcessCall.setCoefficientByKey i key coefficient =>
    match (p.stores i).setCoefficientByKey key coefficient with
    | .error err => .error err
    | .ok m1 => .ok (⟨p.generator, Function.update p.stores i m1⟩, [])
  | ProcessCall.clear i => .ok (⟨p.generator, Function.update p.stores i (p.stores i).clear⟩, [])

/-- A sequence of calls; the records of the inserts are in call order. -/
def run : Process C → List (ProcessCall C) → Except Error (Process C × List Returned)
  | p, [] => .ok (p, [])
  | p, call :: rest =>
    match p.step call with
    | .error err => .error err
    | .ok (p1, returned) =>
      match run p1 rest with
      | .error err => .error err
      | .ok (p2, log) => .ok (p2, returned ++ log)

end Process

/-! ## Removal from the store -/

namespace map

/-- `erase` of the node with this time: the node is unlinked, the other nodes
stay as they are. -/
def erase {C : Type} : List (Time × KeyCoefficient C) → Time → List (Time × KeyCoefficient C)
  | [], _ => []
  | (t, kc) :: rest, time => if t = time then rest else (t, kc) :: erase rest time

end map

namespace unordered_map

/-- `erase(key)`. -/
def erase {V : Type} : List (Key × V) → Key → List (Key × V)
  | [], _ => []
  | (k, v) :: rest, key => if k = key then rest else (k, v) :: erase rest key

end unordered_map

/-- Modelled from the spec: `removeCoefficientAtTime(time)` of the store is
called by the composition curve, but its body is not in the source file.  The
spec has `removeAtTime(time)`: fails with `UnknownTime` if absent; removes from
both indices. -/
def LocalSupport2CoefficientManager.removeCoefficientAtTime {C : Type}
    (m : LocalSupport2CoefficientManager C) (time : Time) :
    Except Error (LocalSupport2CoefficientManager C) :=
  match m.timeToCoefficient_[map.find m.timeToCoefficient_ time]? with
  | none => .error .UnknownTime
  | some e =>
    .ok ⟨unordered_map.erase m.keyToCoefficient_ e.2.key, map.erase m.timeToCoefficient_ time⟩

/-! ## Single-segment curves -/

/-- Modelled from the spec: the curve classes `C1` and `C2` are template
parameters of `SE3CompositionCurve`, and no curve class is among the sources.
What a class adds to its coefficient store is `evaluate(time)`; it is taken as
a parameter. -/
structure CurveClass (V : Type) where
  evaluate : LocalSupport2CoefficientManager V → Time → Except Error V

/-- Modelled from the spec: a single-segment curve owns exactly one coefficient
store, `manager_`, and no other state of consequence. -/
structure Curve (V : Type) where
  manager_ : LocalSupport2CoefficientManager V

namespace Curve

variable {V : Type}

/-- Modelled from the spec: `extend(times[], values[])` = `insertBatch`. -/
def extend (cv : Curve V) (times : List Time) (values : List V) (outKeys : Option (List Key))
    (g : KeyGenerator) : Except Error (Curve V × KeyGenerator × Option (List Key)) :=
  match cv.manager_.insertCoefficients times values outKeys g with
  | .error err => .error err
  | .ok (m, g1, keys) => .ok (⟨m⟩, g1, keys)

/-- Modelled from the spec: `clear` by delegation to the store. -/
def clear (cv : Curve V) : Curve V := ⟨cv.manager_.clear⟩

/-- Modelled from the spec: `size` by delegation to the store. -/
def size (cv : Curve V) : Nat := cv.manager_.size

/-- Modelled from the spec: `isEmpty` by delegation to the store, which offers
`size()`. -/
def isEmpty (cv : Curve V) : Bool := cv.manager_.size == 0

/-- Modelled from the spec: `getMinTime` by delegation to the store. -/
def getMinTime (cv : Curve V) : Time := cv.manager_.getMinTime

/-- Modelled from the spec: `getMaxTime` by delegation to the store. -/
def getMaxTime (cv : Curve V) : Time := cv.manager_.getMaxTime

end Curve

/-- An example of a curve class: at a sample time `evaluate` returns the
coefficient stored there, between two samples the coefficient of the earlier
one, and outside the stored range (or on an empty store) it fails with
`OutOfRange`. -/
def holdCurve (V : Type) : CurveClass V where
  evaluate m time :=
    if m.hasCoefficientAtTime time then
      match map.deref m.timeToCoefficient_ (map.find m.timeToCoefficient_ time) with
      | .error err => .error err
      | .ok e => .ok e.2.coefficient
    else
      match m.getCoefficientsAt time with
      | none => .error .OutOfRange
      | some (it0, _) =>
        match map.deref m.timeToCoefficient_ it0 with
        | .error err => .error err
        | .ok e => .ok e.2.coefficient

/-! ## The composition curve (`SE3CompositionCurve-inl.hpp`)

`ValueType` is a type `V` with the composition `*`, `inverted()` written `⁻¹`
and the identity `ValueType(Position(0,0,0), Rotation(1,0,0,0))` written `1`.
`C1` is the class of the correction curve and `C2` the class of the base
curve. -/

/-- The composition curve: base curve and correction curve. -/
structure SE3CompositionCurve (V : Type) where
  baseCurve_ : Curve V
  correctionCurve_ : Curve V

/-- The local variables of `extend` while the correction curve is brought to
the new time range: `correctionTimes`, `correctionValues`, the correction curve
and the key generator. -/
structure CorrectionPadding (V : Type) where
  correctionTimes : List Time
  correctionValues : List V
  correctionCurve_ : Curve V
  generator : KeyGenerator

namespace SE3CompositionCurve

variable {V : Type}

/-- The constructor: both curves empty. -/
def new : SE3CompositionCurve V :=
  ⟨⟨LocalSupport2CoefficientManager.new⟩, ⟨LocalSupport2CoefficientManager.new⟩⟩

/-- `getMinTime()`. -/
def getMinTime (c : SE3CompositionCurve V) : Time := c.baseCurve_.getMinTime

/-- `getMaxTime()`. -/
def getMaxTime (c : SE3CompositionCurve V) : Time := c.baseCurve_.getMaxTime

/-- `isEmpty()`. -/
def isEmpty (c : SE3CompositionCurve V) : Bool := c.baseCurve_.isEmpty

/-- `size()`. -/
def size (c : SE3CompositionCurve V) : Nat := c.correctionCurve_.size

/-- `correctionSize()`. -/
def correctionSize (c : SE3CompositionCurve V) : Nat := c.correctionCurve_.size

/-- `clear()`. -/
def clear (c : SE3CompositionCurve V) : SE3CompositionCurve V :=
  ⟨c.baseCurve_.clear, c.correctionCurve_.clear⟩

/-- The new limit times of `extend`, as the pair `(newMaxTime, newMinTime)`:
both start at 0 on an empty base curve, otherwise at the limits of the base
curve, and the loop over `times` widens them. -/
def newLimits (c : SE3CompositionCurve V) (times : List Time) : Time × Time :=
  times.foldl
    (fun limits t => (if limits.1 < t then t else limits.1, if limits.2 > t then t else limits.2))
    (if c.baseCurve_.isEmpty then (0, 0) else (c.baseCurve_.getMaxTime, c.baseCurve_.getMinTime))

/-- First step on the correction curve in `extend`: an empty correction curve
gets the identity at `newMinTime`. -/
def seedCorrection [One V] (p : CorrectionPadding V) (newMinTime : Time) :
    Except Error (CorrectionPadding V) :=
  if p.correctionCurve_.isEmpty then
    let correctionTimes := p.correctionTimes ++ [newMinTime]
    let correctionValues := p.correctionValues ++ [1]
    match p.correctionCurve_.extend correctionTimes correctionValues none p.generator with
    | .error err => .error err
    | .ok (cv, g1, _) => .ok ⟨correctionTimes, correctionValues, cv, g1⟩
  else .ok p

/-- Second step: a correction curve that ends before `newMaxTime` gets, at
`newMaxTime`, its value at its maximum time. -/
def padMax (C1 : CurveClass V) (p : CorrectionPadding V) (newMaxTime : Time) :
    Except Error (CorrectionPadding V) :=
  if p.correctionCurve_.getMaxTime < newMaxTime then
    match C1.evaluate p.correctionCurve_.manager_ p.correctionCurve_.getMaxTime with
    | .error err => .error err
    | .ok value =>
      let correctionTimes := p.correctionTimes ++ [newMaxTime]
      let correctionValues := p.correctionValues ++ [value]
      match p.correctionCurve_.extend correctionTimes correctionValues none p.generator with
      | .error err => .error err
      | .ok (cv, g1, _) => .ok ⟨correctionTimes, correctionValues, cv, g1⟩
  else .ok p

/-- Third step: a correction curve that starts after `newMinTime` gets, at
`newMinTime`, its value at its minimum time. -/
def padMin (C1 : CurveClass V) (p : CorrectionPadding V) (newMinTime : Time) :
    Except Error (CorrectionPadding V) :=
  if p.correctionCurve_.getMinTime > newMinTime then
    match C1.evaluate p.correctionCurve_.manager_ p.correctionCurve_.getMinTime with
    | .error err => .error err
    | .ok value =>
      let correctionTimes := p.correctionTimes ++ [newMinTime]
      let correctionValues := p.correctionValues ++ [value]
      match p.correctionCurve_.extend correctionTimes correctionValues none p.generator with
      | .error err => .error err
      | .ok (cv, g1, _) => .ok ⟨correctionTimes, correctionValues, cv, g1⟩
  else .ok p

/-- The loop of `extend` that computes `newValues`: for every time the
inverted correction at that time, composed with the value at the same
position. -/
def baseUpdates [Mul V] [Inv V] (C1 : CurveClass V) (correctionCurve : Curve V) :
    List Time → List V → Except Error (List V)
  | [], _ => .ok []
  | _ :: _, [] => .error .InvalidIterator
  | t :: times, v :: values =>
    match C1.evaluate correctionCurve.manager_ t with
    | .error err => .error err
    | .ok correction =>
      match baseUpdates C1 correctionCurve times values with
      | .error err => .error err
      | .ok newValues => .ok (correction⁻¹ * v :: newValues)

/-- `extend(times, values, outKeys)`. -/
def extend [Mul V] [Inv V] [One V] (C1 : CurveClass V) (c : SE3CompositionCurve V)
    (times : List Time) (values : List V) (outKeys : Option (List Key)) (g : KeyGenerator) :
    Except Error (SE3CompositionCurve V × KeyGenerator × Option (List Key)) :=
  if times.length ≠ 1 then .error .UnsupportedBatchSize
  else if values.length ≠ 1 then .error .UnsupportedBatchSize
  else
    let limits := c.newLimits times
    match seedCorrection ⟨[], [], c.correctionCurve_, g⟩ limits.2 with
    | .error err => .error err
    | .ok p1 =>
      match padMax C1 p1 limits.1 with
      | .error err => .error err
      | .ok p2 =>
        match padMin C1 p2 limits.2 with
        | .error err => .error err
        | .ok p3 =>
          match baseUpdates C1 p3.correctionCurve_ times values with
          | .error err => .error err
          | .ok newValues =>
            match c.baseCurve_.extend times newValues outKeys p3.generator with
            | .error err => .error err
            | .ok (baseCurve, g1, keys) => .ok (⟨baseCurve, p3.correctionCurve_⟩, g1, keys)

/-- `fitCurve(times, values, outKeys)`. -/
def fitCurve [Mul V] [Inv V] [One V] (C1 : CurveClass V) (c : SE3CompositionCurve V)
    (times : List Time) (values : List V) (outKeys : Option (List Key)) (g : KeyGenerator) :
    Except Error (SE3CompositionCurve V × KeyGenerator × Option (List Key)) :=
  c.extend C1 times values outKeys g

/-- `evaluate(time)` with `COMPOSITION_STRATEGY == 1`, the strategy the file
selects: `corr(t) * base(t)`. -/
def evaluate [Mul V] (C1 C2 : CurveClass V) (c : SE3CompositionCurve V) (time : Time) :
    Except Error V :=
  match C1.evaluate c.correctionCurve_.manager_ time with
  | .error err => .error err
  | .ok correction =>
    match C2.evaluate c.baseCurve_.manager_ time with
    | .error err => .error err
    | .ok base => .ok (correction * base)

/-- `evaluate(time)` with `COMPOSITION_STRATEGY == 2`.  The iterators `it1` and
`it2` are declared without a value and `getCoefficientsAt` writes them only
when it returns `true`; its return value is not looked at, so after `false`
the dereference `it1->first` is one of an iterator that designates nothing.
`interpolate TWA TWB time tA tB` stands for the floating-point computation
`T_W_A * exp(alpha * log(inv(T_W_A) * T_W_B))` with
`alpha = double(time - tA) / double(tB - tA)`. -/
def evaluateStrategy2 [Mul V] (C1 C2 : CurveClass V)
    (interpolate : V → V → Time → Time → Time → V)
    (c : SE3CompositionCurve V) (time : Time) : Except Error V :=
  if time = 0 then c.evaluate C1 C2 time
  else
    match c.baseCurve_.manager_.getCoefficientsAt time with
    | none => .error .InvalidIterator
    | some (it1, it2) =>
      match map.deref c.baseCurve_.manager_.timeToCoefficient_ it1 with
      | .error err => .error err
      | .ok e1 =>
        match map.deref c.baseCurve_.manager_.timeToCoefficient_ it2 with
        | .error err => .error err
        | .ok e2 =>
          if e1.1 = time ∨ e2.1 = time then c.evaluate C1 C2 time
          else
            let tA := if e1.1 < e2.1 then e1.1 else e2.1
            let tB := if e1.1 < e2.1 then e2.1 else e1.1
            match C2.evaluate c.baseCurve_.manager_ tA with
            | .error err => .error err
            | .ok A =>
              match C2.evaluate c.baseCurve_.manager_ tB with
              | .error err => .error err
              | .ok B =>
                match C1.evaluate c.correctionCurve_.manager_ tA with
                | .error err => .error err
                | .ok dA =>
                  match C1.evaluate c.correctionCurve_.manager_ tB with
                  | .error err => .error err
                  | .ok dB => .ok (interpolate (dA * A) (dB * B) time tA tB)

/-- A loop that pushes `f t` for every `t` of `times`, in order. -/
def evaluateAll (f : Time → Except Error V) : List Time → Except Error (List V)
  | [] => .ok []
  | t :: times =>
    match f t with
    | .error err => .error err
    | .ok value =>
      match evaluateAll f times with
      | .error err => .error err
      | .ok values => .ok (value :: values)

/-- `foldInCorrections()`: the new base values are `evaluate` at the times of
the base curve, which is cleared and extended with them; then the correction
curve is cleared and extended with the identity at each of its times. -/
def foldInCorrections [Mul V] [One V] (C1 C2 : CurveClass V) (c : SE3CompositionCurve V)
    (g : KeyGenerator) : Except Error (SE3CompositionCurve V × KeyGenerator) :=
  match evaluateAll (c.evaluate C1 C2) c.baseCurve_.manager_.getTimes with
  | .error err => .error err
  | .ok newValues =>
    match c.baseCurve_.clear.extend c.baseCurve_.manager_.getTimes newValues none g with
    | .error err => .error err
    | .ok (baseCurve, g1, _) =>
      match c.correctionCurve_.clear.extend c.correctionCurve_.manager_.getTimes
          (c.correctionCurve_.manager_.getTimes.map (fun _ => (1 : V))) none g1 with
      | .error err => .error err
      | .ok (correctionCurve, g2, _) => .ok (⟨baseCurve, correctionCurve⟩, g2)

/-- `setCorrectionTimes(times)`.  The two `CHECK_EQ` come after the correction
curve was cleared and rebuilt, and a failed `CHECK` ends the call where it
stands: the result is the curve and the generator as the call leaves them,
and how the call ended. -/
def setCorrectionTimes (C1 : CurveClass V) (c : SE3CompositionCurve V) (times : List Time)
    (g : KeyGenerator) : SE3CompositionCurve V × KeyGenerator × Except Error Unit :=
  match evaluateAll (C1.evaluate c.correctionCurve_.manager_) times with
  | .error err => (c, g, .error err)
  | .ok values =>
    match c.correctionCurve_.clear.extend times values none g with
    | .error err => (⟨c.baseCurve_, c.correctionCurve_.clear⟩, g, .error err)
    | .ok (correctionCurve, g1, _) =>
      if correctionCurve.getMinTime ≠ c.baseCurve_.getMinTime then
        (⟨c.baseCurve_, correctionCurve⟩, g1, .error .RangeMismatch)
      else if correctionCurve.getMaxTime ≠ c.baseCurve_.getMaxTime then
        (⟨c.baseCurve_, correctionCurve⟩, g1, .error .RangeMismatch)
      else (⟨c.baseCurve_, correctionCurve⟩, g1, .ok ())

/-- `removeCorrectionCoefficientAtTime(time)`. -/
def removeCorrectionCoefficientAtTime (c : SE3CompositionCurve V) (time : Time) :
    Except Error (SE3CompositionCurve V) :=
  if c.correctionCurve_.manager_.hasCoefficientAtTime time then
    match c.correctionCurve_.manager_.removeCoefficientAtTime time with
    | .error err => .error err
    | .ok m => .ok ⟨c.baseCurve_, ⟨m⟩⟩
  else .error .UnknownTime

/-- `setCorrectionCoefficientAtTime(time, value)`. -/
def setCorrectionCoefficientAtTime (c : SE3CompositionCurve V) (time : Time) (value : V)
    (g : KeyGenerator) : Except Error (SE3CompositionCurve V × KeyGenerator) :=
  if c.correctionCurve_.manager_.hasCoefficientAtTime time then
    match c.correctionCurve_.manager_.insertCoefficient time value g with
    | .error err => .error err
    | .ok (_, m, g1) => .ok (⟨c.baseCurve_, ⟨m⟩⟩, g1)
  else .error .UnknownTime

/-! ### Assumptions on the curve classes and invariants of the composition curve -/

/-- A curve of the class, evaluated at one of its own sample times, returns the
coefficient stored there. -/
def SampleExact (cls : CurveClass V) : Prop :=
  ∀ m : LocalSupport2CoefficientManager V, m.WellFormed →
    ∀ t k c, (t, (⟨k, c⟩ : KeyCoefficient V)) ∈ m.timeToCoefficient_ → cls.evaluate m t = .ok c

/-- A curve of the class whose samples are all the identity evaluates to the
identity inside its range. -/
def IdentityInside [One V] (cls : CurveClass V) : Prop :=
  ∀ m : LocalSupport2CoefficientManager V, m.WellFormed →
    (∀ e ∈ m.timeToCoefficient_, e.2.coefficient = 1) → m.timeToCoefficient_ ≠ [] →
    ∀ t, m.getMinTime ≤ t → t ≤ m.getMaxTime → cls.evaluate m t = .ok 1

/-- The correction range covers the base range: the correction curve is not
empty, starts no later and ends no earlier than the base curve. -/
def Covers (c : SE3CompositionCurve V) : Prop :=
  c.correctionCurve_.isEmpty = false ∧
  c.correctionCurve_.getMinTime ≤ c.baseCurve_.getMinTime ∧
  c.baseCurve_.getMaxTime ≤ c.correctionCurve_.getMaxTime

/-- Both stores are well-formed and hold keys the generator has issued. -/
structure Valid (c : SE3CompositionCurve V) (g : KeyGenerator) : Prop where
  base : c.baseCurve_.manager_.WellFormed
  baseIssued : c.baseCurve_.manager_.Issued g
  correction : c.correctionCurve_.manager_.WellFormed
  correctionIssued : c.correctionCurve_.manager_.Issued g

/-- The states a composition curve over the curve classes `C1`, `C2` can be in,
with the state of the key generator: it starts empty and changes through its
mutators, while the generator may also issue keys to other curves. -/
inductive Reachable [Mul V] [Inv V] [One V] (C1 C2 : CurveClass V) :
    SE3CompositionCurve V → KeyGenerator → Prop where
  | new (g : KeyGenerator) : Reachable C1 C2 new g
  | otherKey {c g} : Reachable C1 C2 c g → Reachable C1 C2 c g.getNextKey.2
  | extend {c g times values outKeys c1 g1 keys} :
      Reachable C1 C2 c g → c.extend C1 times values outKeys g = .ok (c1, g1, keys) →
      Reachable C1 C2 c1 g1
  | foldInCorrections {c g c1 g1} :
      Reachable C1 C2 c g → c.foldInCorrections C1 C2 g = .ok (c1, g1) → Reachable C1 C2 c1 g1
  | setCorrectionTimes {c g times c1 g1} :
      Reachable C1 C2 c g → c.setCorrectionTimes C1 times g = (c1, g1, .ok ()) →
      Reachable C1 C2 c1 g1
  | setCorrectionCoefficientAtTime {c g time value c1 g1} :
      Reachable C1 C2 c g → c.setCorrectionCoefficientAtTime time value g = .ok (c1, g1) →
      Reachable C1 C2 c1 g1
  | removeCorrectionCoefficientAtTime {c g time c1} :
      Reachable C1 C2 c g → c.removeCorrectionCoefficientAtTime time = .ok c1 →
      Reachable C1 C2 c1 g
  | clear {c g} : Reachable C1 C2 c g → Reachable C1 C2 c.clear g

/-- The curve of the examples, over the integers under addition with
`holdCurve` for both classes: the empty curve after `extend([5], [7])`, with a
generator that had issued no key before. -/
def curveAt5 : SE3CompositionCurve (Multiplicative ℤ) :=
  ⟨⟨⟨[(3, 5)], [(5, ⟨3, Multiplicative.ofAdd 7⟩)]⟩⟩,
    ⟨⟨[(1, 0), (2, 5)], [(0, ⟨1, 1⟩), (5, ⟨2, 1⟩)]⟩⟩⟩

/-- The curve `curveAt5` after `setCorrectionCoefficientAtTime(5, 2)`. -/
def curveAt5Corrected : SE3CompositionCurve (Multiplicative ℤ) :=
  ⟨⟨⟨[(3, 5)], [(5, ⟨3, Multiplicative.ofAdd 7⟩)]⟩⟩,
    ⟨⟨[(1, 0), (2, 5)], [(0, ⟨1, 1⟩), (5, ⟨2, Multiplicative.ofAdd 2⟩)]⟩⟩⟩

/-- The curve `curveAt5` after `removeCorrectionCoefficientAtTime(5)`. -/
def curveAt5Removed : SE3CompositionCurve (Multiplicative ℤ) :=
  ⟨⟨⟨[(3, 5)], [(5, ⟨3, Multiplicative.ofAdd 7⟩)]⟩⟩, ⟨⟨[(1, 0)], [(0, ⟨1, 1⟩)]⟩⟩⟩

end SE3CompositionCurve

/-! ## Calls together with the state they leave

A failed `CHECK` ends a call where it stands.  For the calls below the result
is the state at that point (at the end of the call when it returns) next to how
the call ended. -/

/-- What a call returns when it returns, from the state it left and how it
ended. -/
def result {S : Type} (r : S × Except Error Unit) : Except Error S :=
  match r.2 with
  | .ok _ => .ok r.1
  | .error err => .error err

namespace LocalSupport2CoefficientManager

variable {C : Type}

/-- The loop of `insertCoefficients` with the store, the key generator and
`outKeys` as the loop leaves them.  An `insertCoefficient` that fails has
written nothing. -/
def insertLoopExit : LocalSupport2CoefficientManager C → KeyGenerator → List (Time × C) →
    Option (List Key) →
    (LocalSupport2CoefficientManager C × KeyGenerator × Option (List Key)) × Except Error Unit
  | m, g, [], outKeys => ((m, g, outKeys), .ok ())
  | m, g, (t, v) :: rest, outKeys =>
    match m.insertCoefficient t v g with
    | .error err => ((m, g, outKeys), .error err)
    | .ok (key, m1, g1) => insertLoopExit m1 g1 rest (outKeys.map (fun ks => ks ++ [key]))

/-- `insertCoefficients(times, values, outKeys)` with the state the call
leaves; `CHECK_EQ(times.size(), values.size())` is its first statement. -/
def insertCoefficientsExit (m : LocalSupport2CoefficientManager C) (times : List Time)
    (values : List C) (outKeys : Option (List Key)) (g : KeyGenerator) :
    (LocalSupport2CoefficientManager C × KeyGenerator × Option (List Key)) × Except Error Unit :=
  if times.length = values.length then insertLoopExit m g (times.zip values) outKeys
  else ((m, g, outKeys), .error .ArityMismatch)

/-- `setCoefficients(coefficients)` with the store the call leaves: the pairs
are written one by one, and a `setCoefficientByKey` whose `CHECK` fails ends
the call after the writes made so far. -/
def setCoefficientsExit : LocalSupport2CoefficientManager C → CoefficientMap C →
    LocalSupport2CoefficientManager C × Except Error Unit
  | m, [] => (m, .ok ())
  | m, (key, coefficient) :: rest =>
    match m.setCoefficientByKey key coefficient with
    | .error err => (m, .error err)
    | .ok m1 => setCoefficientsExit m1 rest

/-- The batch insert as the spec words it: `insertCoefficient(times[i], values[i])`
is called for `i = 0, 1, ...` in order, each call on the store and the key
generator the call before it left.  The result is the last store and generator
and the keys the calls returned, in call order. -/
def insertEach : LocalSupport2CoefficientManager C → KeyGenerator → List Time → List C →
    Except Error (LocalSupport2CoefficientManager C × KeyGenerator × List Key)
  | m, g, t :: times, v :: values =>
    match m.insertCoefficient t v g with
    | .error err => .error err
    | .ok (key, m1, g1) =>
      match insertEach m1 g1 times values with
      | .error err => .error err
      | .ok (m2, g2, keys) => .ok (m2, g2, key :: keys)
  | m, g, _, _ => .ok (m, g, [])

end LocalSupport2CoefficientManager

namespace Curve

variable {V : Type}

/-- Modelled from the spec: `extend(times[], values[])` = `insertBatch`, with
the state the call leaves. -/
def extendExit (cv : Curve V) (times : List Time) (values : List V) (outKeys : Option (List Key))
    (g : KeyGenerator) : (Curve V × KeyGenerator × Option (List Key)) × Except Error Unit :=
  match cv.manager_.insertCoefficientsExit times values outKeys g with
  | ((m, g1, keys), r) => ((⟨m⟩, g1, keys), r)

end Curve

namespace SE3CompositionCurve

variable {V : Type}

/-- First step of `extend`, with the state it leaves. -/
def seedCorrectionExit [One V] (p : CorrectionPadding V) (newMinTime : Time) :
    CorrectionPadding V × Except Error Unit :=
  if p.correctionCurve_.isEmpty then
    match p.correctionCurve_.extendExit (p.correctionTimes ++ [newMinTime])
        (p.correctionValues ++ [1]) none p.generator with
    | ((cv, g1, _), r) => (⟨p.correctionTimes ++ [newMinTime], p.correctionValues ++ [1], cv, g1⟩, r)
  else (p, .ok ())

/-- Second step of `extend`, with the state it leaves. -/
def padMaxExit (C1 : CurveClass V) (p : CorrectionPadding V) (newMaxTime : Time) :
    CorrectionPadding V × Except Error Unit :=
  if p.correctionCurve_.getMaxTime < newMaxTime then
    match C1.evaluate p.correctionCurve_.manager_ p.correctionCurve_.getMaxTime with
    | .error err => (p, .error err)
    | .ok value =>
      match p.correctionCurve_.extendExit (p.correctionTimes ++ [newMaxTime])
          (p.correctionValues ++ [value]) none p.generator with
      | ((cv, g1, _), r) =>
        (⟨p.correctionTimes ++ [newMaxTime], p.correctionValues ++ [value], cv, g1⟩, r)
  else (p, .ok ())

/-- Third step of `extend`, with the state it leaves. -/
def padMinExit (C1 : CurveClass V) (p : CorrectionPadding V) (newMinTime : Time) :
    CorrectionPadding V × Except Error Unit :=
  if p.correctionCurve_.getMinTime > newMinTime then
    match C1.evaluate p.correctionCurve_.manager_ p.correctionCurve_.getMinTime with
    | .error err => (p, .error err)
    | .ok value =>
      match p.correctionCurve_.extendExit (p.correctionTimes ++ [newMinTime])
          (p.correctionValues ++ [value]) none p.generator with
      | ((cv, g1, _), r) =>
        (⟨p.correctionTimes ++ [newMinTime], p.correctionValues ++ [value], cv, g1⟩, r)
  else (p, .ok ())

/-- `extend(times, values, outKeys)` with the state the call leaves: the
composition curve, the key generator and `outKeys`.  The two `CHECK_EQ` on the
sizes are the first statements of the function. -/
def extendExit [Mul V] [Inv V] [One V] (C1 : CurveClass V) (c : SE3CompositionCurve V)
    (times : List Time) (values : List V) (outKeys : Option (List Key)) (g : KeyGenerator) :
    (SE3CompositionCurve V × KeyGenerator × Option (List Key)) × Except Error Unit :=
  if times.length ≠ 1 then ((c, g, outKeys), .error .UnsupportedBatchSize)
  else if values.length ≠ 1 then ((c, g, outKeys), .error .UnsupportedBatchSize)
  else
    match seedCorrectionExit ⟨[], [], c.correctionCurve_, g⟩ (c.newLimits times).2 with
    | (p1, .error err) => ((⟨c.baseCurve_, p1.correctionCurve_⟩, p1.generator, outKeys), .error err)
    | (p1, .ok _) =>
      match padMaxExit C1 p1 (c.newLimits times).1 with
      | (p2, .error err) =>
        ((⟨c.baseCurve_, p2.correctionCurve_⟩, p2.generator, outKeys), .error err)
      | (p2, .ok _) =>
        match padMinExit C1 p2 (c.newLimits times).2 with
        | (p3, .error err) =>
          ((⟨c.baseCurve_, p3.correctionCurve_⟩, p3.generator, outKeys), .error err)
        | (p3, .ok _) =>
          match baseUpdates C1 p3.correctionCurve_ times values with
          | .error err =>
            ((⟨c.baseCurve_, p3.correctionCurve_⟩, p3.generator, outKeys), .error err)
          | .ok newValues =>
            match c.baseCurve_.extendExit times newValues outKeys p3.generator with
            | ((baseCurve, g1, keys), r) => ((⟨baseCurve, p3.correctionCurve_⟩, g1, keys), r)

end SE3CompositionCurve

/-! ## Lemmas on the containers -/

namespace map

variable {C : Type}

theorem find_le_length (l : List (Time × KeyCoefficient C)) (t : Time) : find l t ≤ l.length := by
  induction l with
  | nil => simp [find]
  | cons e rest ih =>
    obtain ⟨t0, kc0⟩ := e
    simp only [find, List.length_cons]
    split <;> omega

theorem find_eq_length_iff (l : List (Time × KeyCoefficient C)) (t : Time) :
    find l t = l.length ↔ ∀ e ∈ l, e.1 ≠ t := by
  induction l with
  | nil => simp [find]
  | cons e rest ih =>
    obtain ⟨t0, kc0⟩ := e
    simp only [find, List.length_cons, List.mem_cons, forall_eq_or_imp]
    by_cases h : t0 = t
    · simp [h]
    · simp [h, ih]

theorem getElem?_find (l : List (Time × KeyCoefficient C)) (t : Time)
    (h : find l t ≠ l.length) : ∃ kc, l[find l t]? = some (t, kc) := by
  induction l with
  | nil => simp [find] at h
  | cons e rest ih =>
    obtain ⟨t0, kc0⟩ := e
    simp only [find, List.length_cons] at h ⊢
    by_cases h0 : t0 = t
    · simp [h0]
    · simp only [h0, if_false] at h ⊢
      simpa using ih (by omega)

theorem getElem?_find_of_mem (l : List (Time × KeyCoefficient C))
    (hs : l.Pairwise (fun a b => a.1 < b.1))
    (t : Time) (kc : KeyCoefficient C) (h : (t, kc) ∈ l) : l[find l t]? = some (t, kc) := by
  induction l with
  | nil => simp at h
  | cons e rest ih =>
    obtain ⟨t0, kc0⟩ := e
    have hs1 := List.pairwise_cons.mp hs
    simp only [find]
    by_cases h0 : t0 = t
    · subst h0
      rcases List.mem_cons.mp h with h1 | h1
      · simp [h1]
      · have := hs1.1 _ h1
        simp at this
    · rcases List.mem_cons.mp h with h1 | h1
      · simp only [Prod.mk.injEq] at h1
        exact absurd h1.1.symm h0
      · simp only [h0, if_false]
        simpa using ih hs1.2 h1

theorem length_setCoefficient (l : List (Time × KeyCoefficient C)) (it : Nat) (c : C) :
    (setCoefficient l it c).length = l.length := by
  induction l generalizing it with
  | nil => simp [setCoefficient]
  | cons e rest ih =>
    cases it with
    | zero => simp [setCoefficient]
    | succ n => simp [setCoefficient, ih]

theorem getElem?_setCoefficient (l : List (Time × KeyCoefficient C)) (it : Nat) (c : C) (j : Nat) :
    (setCoefficient l it c)[j]? =
      if j = it then (l[j]?).map (fun e => (e.1, (⟨e.2.key, c⟩ : KeyCoefficient C))) else l[j]? := by
  induction l generalizing it j with
  | nil => simp [setCoefficient]
  | cons e rest ih =>
    cases it with
    | zero =>
      cases j with
      | zero => simp [setCoefficient]
      | succ j => simp [setCoefficient]
    | succ n =>
      cases j with
      | zero => simp [setCoefficient]
      | succ j => simp [setCoefficient, ih]

theorem skeleton_setCoefficient (l : List (Time × KeyCoefficient C)) (it : Nat) (c : C) :
    (setCoefficient l it c).map (fun e => (e.1, e.2.key)) = l.map (fun e => (e.1, e.2.key)) := by
  induction l generalizing it with
  | nil => simp [setCoefficient]
  | cons e rest ih =>
    cases it with
    | zero => simp [setCoefficient]
    | succ n => simp [setCoefficient, ih]

theorem times_setCoefficient (l : List (Time × KeyCoefficient C)) (it : Nat) (c : C) :
    (setCoefficient l it c).map (fun e => e.1) = l.map (fun e => e.1) := by
  have h := congrArg (List.map Prod.fst) (skeleton_setCoefficient l it c)
  simpa [List.map_map, Function.comp_def] using h

theorem find_congr_times (l1 l2 : List (Time × KeyCoefficient C))
    (h : l1.map (fun e => e.1) = l2.map (fun e => e.1)) (t : Time) : find l1 t = find l2 t := by
  induction l1 generalizing l2 with
  | nil =>
    cases l2 with
    | nil => rfl
    | cons e2 r2 => simp at h
  | cons e1 r1 ih =>
    cases l2 with
    | nil => simp at h
    | cons e2 r2 =>
      obtain ⟨t1, kc1⟩ := e1
      obtain ⟨t2, kc2⟩ := e2
      simp only [List.map_cons, List.cons.injEq] at h
      obtain ⟨h1, h2⟩ := h
      subst h1
      simp only [find, ih r2 h2]

theorem find_setCoefficient (l : List (Time × KeyCoefficient C)) (it : Nat) (c : C) (t : Time) :
    find (setCoefficient l it c) t = find l t :=
  find_congr_times _ _ (times_setCoefficient l it c) t

theorem pairwise_iff_times (l : List (Time × KeyCoefficient C)) :
    l.Pairwise (fun a b => a.1 < b.1) ↔ (l.map (fun e => e.1)).Pairwise (fun a b => a < b) := by
  rw [List.pairwise_map]

theorem mem_skeleton_iff (l : List (Time × KeyCoefficient C)) (t : Time) (k : Key) :
    (t, k) ∈ l.map (fun e => (e.1, e.2.key)) ↔ ∃ c, (t, (⟨k, c⟩ : KeyCoefficient C)) ∈ l := by
  simp only [List.mem_map, Prod.mk.injEq]
  constructor
  · rintro ⟨⟨t1, ⟨k1, c1⟩⟩, hmem, h1, h2⟩
    simp only at h1 h2
    subst h1 h2
    exact ⟨c1, hmem⟩
  · rintro ⟨c, hmem⟩
    exact ⟨_, hmem, rfl, rfl⟩

theorem mem_insert (l : List (Time × KeyCoefficient C)) (p : Time × KeyCoefficient C)
    (habs : ∀ e ∈ l, e.1 ≠ p.1) (x : Time × KeyCoefficient C) :
    x ∈ insert l p ↔ x = p ∨ x ∈ l := by
  induction l with
  | nil => simp [insert]
  | cons e rest ih =>
    obtain ⟨t, kc⟩ := e
    simp only [List.mem_cons, forall_eq_or_imp] at habs
    simp only [insert]
    by_cases h1 : p.1 < t
    · simp [h1]
    · have h2 : ¬ p.1 = t := fun h => habs.1 h.symm
      simp only [h1, h2, if_false, List.mem_cons, ih habs.2]
      tauto

theorem length_insert (l : List (Time × KeyCoefficient C)) (p : Time × KeyCoefficient C)
    (habs : ∀ e ∈ l, e.1 ≠ p.1) : (insert l p).length = l.length + 1 := by
  induction l with
  | nil => simp [insert]
  | cons e rest ih =>
    obtain ⟨t, kc⟩ := e
    simp only [List.mem_cons, forall_eq_or_imp] at habs
    simp only [insert]
    by_cases h1 : p.1 < t
    · simp [h1]
    · have h2 : ¬ p.1 = t := fun h => habs.1 h.symm
      simp [h1, h2, ih habs.2]

theorem pairwise_insert (l : List (Time × KeyCoefficient C)) (p : Time × KeyCoefficient C)
    (habs : ∀ e ∈ l, e.1 ≠ p.1) (hs : l.Pairwise (fun a b => a.1 < b.1)) :
    (insert l p).Pairwise (fun a b => a.1 < b.1) := by
  induction l with
  | nil => simp [insert]
  | cons e rest ih =>
    obtain ⟨t, kc⟩ := e
    have hab := habs
    simp only [List.mem_cons, forall_eq_or_imp] at habs
    have hs1 := List.pairwise_cons.mp hs
    simp only [insert]
    by_cases h1 : p.1 < t
    · simp only [h1, if_true]
      refine List.pairwise_cons.mpr ⟨?_, hs⟩
      intro x hx
      rcases List.mem_cons.mp hx with hx | hx
      · subst hx; exact h1
      · exact lt_trans h1 (hs1.1 x hx)
    · have h2 : ¬ p.1 = t := fun h => habs.1 h.symm
      simp only [h1, h2, if_false]
      refine List.pairwise_cons.mpr ⟨?_, ih habs.2 hs1.2⟩
      intro x hx
      rcases (mem_insert rest p habs.2 x).mp hx with hx | hx
      · subst hx
        exact lt_of_le_of_ne (not_lt.mp h1) (fun h => h2 h.symm)
      · exact hs1.1 x hx

theorem upper_bound_le_length (l : List (Time × KeyCoefficient C)) (t : Time) :
    upper_bound l t ≤ l.length := by
  induction l with
  | nil => simp [upper_bound]
  | cons e rest ih =>
    obtain ⟨t0, kc0⟩ := e
    simp only [upper_bound, List.length_cons]
    split <;> omega

theorem lt_upper_bound_iff (l : List (Time × KeyCoefficient C))
    (hs : l.Pairwise (fun a b => a.1 < b.1)) (t : Time) (i : Nat) (e : Time × KeyCoefficient C)
    (hi : l[i]? = some e) : i < upper_bound l t ↔ e.1 ≤ t := by
  induction l generalizing i with
  | nil => simp at hi
  | cons e0 rest ih =>
    obtain ⟨t0, kc0⟩ := e0
    have hs1 := List.pairwise_cons.mp hs
    simp only [upper_bound]
    by_cases h1 : t < t0
    · simp only [h1, if_true, Nat.not_lt_zero, false_iff, not_le]
      cases i with
      | zero =>
        simp at hi
        subst hi
        exact h1
      | succ j =>
        simp at hi
        have := hs1.1 e (List.getElem?_mem hi)
        simp only at this
        exact lt_trans h1 this
    · simp only [h1, if_false]
      cases i with
      | zero =>
        simp at hi
        subst hi
        simpa using not_lt.mp h1
      | succ j =>
        simp at hi
        simp [ih hs1.2 j hi]

end map

namespace unordered_map
variable {V : Type}

theorem um_find_eq_none_iff (l : List (Key × V)) (k : Key) :
    find l k = none ↔ ∀ e ∈ l, e.1 ≠ k := by
  induction l with
  | nil => simp [find]
  | cons e rest ih =>
    obtain ⟨k0, v0⟩ := e
    simp only [find, List.mem_cons, forall_eq_or_imp]
    by_cases h : k0 = k
    · simp [h]
    · simp [h, ih]

theorem um_mem_of_find (l : List (Key × V)) (k : Key) (v : V) (h : find l k = some v) :
    (k, v) ∈ l := by
  induction l with
  | nil => simp [find] at h
  | cons e rest ih =>
    obtain ⟨k0, v0⟩ := e
    simp only [find] at h
    by_cases h0 : k0 = k
    · simp only [h0, if_true, Option.some.injEq] at h
      simp [h0, h]
    · simp only [h0, if_false] at h
      exact List.mem_cons_of_mem _ (ih h)

theorem um_find_of_mem (l : List (Key × V)) (hn : (l.map (fun e => e.1)).Nodup)
    (k : Key) (v : V) (h : (k, v) ∈ l) : find l k = some v := by
  induction l with
  | nil => simp at h
  | cons e rest ih =>
    obtain ⟨k0, v0⟩ := e
    simp only [List.map_cons, List.nodup_cons] at hn
    simp only [find]
    rcases List.mem_cons.mp h with h1 | h1
    · simp only [Prod.mk.injEq] at h1
      simp [h1.1, h1.2]
    · have hne : k0 ≠ k := by
        intro h0
        apply hn.1
        subst h0
        exact List.mem_map.mpr ⟨(k0, v), h1, rfl⟩
      simp only [hne, if_false]
      exact ih hn.2 h1

theorem assign_of_find (l : List (Key × V)) (k : Key) (v : V) (h : find l k = some v) :
    assign l k v = l := by
  induction l with
  | nil => simp [find] at h
  | cons e rest ih =>
    obtain ⟨k0, v0⟩ := e
    simp only [find] at h
    simp only [assign]
    by_cases h0 : k0 = k
    · simp only [h0, if_true, Option.some.injEq] at h
      simp [h0, h]
    · simp only [h0, if_false] at h
      simp [h0, ih h]

theorem assign_of_find_none (l : List (Key × V)) (k : Key) (v : V) (h : find l k = none) :
    assign l k v = l ++ [(k, v)] := by
  induction l with
  | nil => simp [assign]
  | cons e rest ih =>
    obtain ⟨k0, v0⟩ := e
    simp only [find] at h
    simp only [assign]
    by_cases h0 : k0 = k
    · simp [h0] at h
    · simp only [h0, if_false] at h
      simp [h0, ih h]

theorem find_assign (l : List (Key × V)) (k : Key) (v : V) (k1 : Key) :
    find (assign l k v) k1 = if k = k1 then some v else find l k1 := by
  induction l with
  | nil => simp [assign, find]
  | cons e rest ih =>
    obtain ⟨k0, v0⟩ := e
    simp only [assign]
    by_cases h0 : k0 = k
    · subst h0
      simp only [if_true, find]
      split <;> rfl
    · simp only [h0, if_false, find, ih]
      by_cases h1 : k0 = k1
      · subst h1
        simp [Ne.symm h0]
      · simp [h1]

end unordered_map

namespace LocalSupport2CoefficientManager
variable {C : Type}

theorem find_ne_length_of_mem (m : LocalSupport2CoefficientManager C) (t : Time)
    (kc : KeyCoefficient C) (h : (t, kc) ∈ m.timeToCoefficient_) :
    map.find m.timeToCoefficient_ t ≠ m.timeToCoefficient_.length := by
  intro hfind
  exact (map.find_eq_length_iff _ _).mp hfind _ h rfl

theorem setCoefficientByKey_eq (m : LocalSupport2CoefficientManager C) (hwf : m.WellFormed)
    (key : Key) (node : Time) (c : C) (h : (key, node) ∈ m.keyToCoefficient_) :
    m.setCoefficientByKey key c = .ok ⟨m.keyToCoefficient_,
      map.setCoefficient m.timeToCoefficient_ (map.find m.timeToCoefficient_ node) c⟩ := by
  have hfind := unordered_map.um_find_of_mem _ hwf.unique key node h
  obtain ⟨c0, hc0⟩ := hwf.i1.2.1 key node h
  have hne := find_ne_length_of_mem m node _ hc0
  simp only [setCoefficientByKey, hfind, hne, if_false,
    unordered_map.assign_of_find _ _ _ hfind]

theorem setCoefficientByKey_unknown (m : LocalSupport2CoefficientManager C)
    (key : Key) (c : C) (h : unordered_map.find m.keyToCoefficient_ key = none) :
    m.setCoefficientByKey key c = .error .UnknownKey := by
  simp only [setCoefficientByKey, h]

theorem wellFormed_setCoefficient (m : LocalSupport2CoefficientManager C) (hwf : m.WellFormed)
    (it : Nat) (c : C) :
    WellFormed (⟨m.keyToCoefficient_, map.setCoefficient m.timeToCoefficient_ it c⟩ :
      LocalSupport2CoefficientManager C) := by
  refine ⟨?_, hwf.unique, ?_, ?_, ?_⟩
  · have h := hwf.ascending
    unfold TimesAscending at h ⊢
    rw [map.pairwise_iff_times] at h ⊢
    simpa only [map.times_setCoefficient] using h
  · simpa only [map.length_setCoefficient] using hwf.i1.1
  · intro key node hmem
    have h := hwf.i1.2.1 key node hmem
    rw [← map.mem_skeleton_iff] at h ⊢
    simpa only [map.skeleton_setCoefficient] using h
  · intro e he
    have h1 : (e.1, e.2.key) ∈ (map.setCoefficient m.timeToCoefficient_ it c).map
        (fun e => (e.1, e.2.key)) := List.mem_map.mpr ⟨e, he, rfl⟩
    rw [map.skeleton_setCoefficient, map.mem_skeleton_iff] at h1
    obtain ⟨c0, hc0⟩ := h1
    exact hwf.i1.2.2 (e.1, ⟨e.2.key, c0⟩) hc0

theorem wellFormed_setCoefficientByKey (m m1 : LocalSupport2CoefficientManager C)
    (hwf : m.WellFormed) (key : Key) (c : C) (h : m.setCoefficientByKey key c = .ok m1) :
    m1.WellFormed ∧ m1.keyToCoefficient_ = m.keyToCoefficient_ := by
  cases hfind : unordered_map.find m.keyToCoefficient_ key with
  | none => simp [setCoefficientByKey_unknown m key c hfind] at h
  | some node =>
    have hmem := unordered_map.um_mem_of_find _ _ _ hfind
    rw [setCoefficientByKey_eq m hwf key node c hmem] at h
    simp only [Except.ok.injEq] at h
    subst h
    exact ⟨wellFormed_setCoefficient m hwf _ c, rfl⟩

theorem insertCoefficient_present (m : LocalSupport2CoefficientManager C) (hwf : m.WellFormed)
    (t : Time) (kc : KeyCoefficient C) (c : C) (g : KeyGenerator)
    (h : (t, kc) ∈ m.timeToCoefficient_) :
    m.insertCoefficient t c g = .ok (kc.key, ⟨m.keyToCoefficient_,
      map.setCoefficient m.timeToCoefficient_ (map.find m.timeToCoefficient_ t) c⟩, g) := by
  have hne := find_ne_length_of_mem m t kc h
  have hget := map.getElem?_find_of_mem _ hwf.ascending t kc h
  have hkey := hwf.i1.2.2 _ h
  have hset := setCoefficientByKey_eq m hwf kc.key t c hkey
  simp only [insertCoefficient, hasCoefficientAtTimeIt, bne_iff_ne, ne_eq, hne, not_false_eq_true,
    if_true, map.deref, hget, hset, map.getElem?_setCoefficient, Option.map_some']

theorem insertCoefficient_absent (m : LocalSupport2CoefficientManager C)
    (t : Time) (c : C) (g : KeyGenerator) (h : ∀ e ∈ m.timeToCoefficient_, e.1 ≠ t) :
    m.insertCoefficient t c g = .ok (g.key + 1,
      ⟨unordered_map.assign m.keyToCoefficient_ (g.key + 1) t,
        map.insert m.timeToCoefficient_ (t, ⟨g.key + 1, c⟩)⟩, ⟨g.key + 1⟩) := by
  have hfind := (map.find_eq_length_iff _ _).mpr h
  simp [insertCoefficient, hasCoefficientAtTimeIt, hfind, KeyGenerator.getNextKey]

theorem find_none_of_issued (m : LocalSupport2CoefficientManager C) (g : KeyGenerator)
    (hi : m.Issued g) : unordered_map.find m.keyToCoefficient_ (g.key + 1) = none := by
  rw [unordered_map.um_find_eq_none_iff]
  intro e he heq
  have hle : e.1 ≤ g.key := hi e.1 e.2 he
  rw [heq] at hle
  exact Nat.not_succ_le_self _ hle

theorem wellFormed_insert_absent (m : LocalSupport2CoefficientManager C) (hwf : m.WellFormed)
    (g : KeyGenerator) (hi : m.Issued g) (t : Time) (c : C)
    (h : ∀ e ∈ m.timeToCoefficient_, e.1 ≠ t) :
    WellFormed (⟨unordered_map.assign m.keyToCoefficient_ (g.key + 1) t,
      map.insert m.timeToCoefficient_ (t, ⟨g.key + 1, c⟩)⟩ : LocalSupport2CoefficientManager C) ∧
    Issued (⟨unordered_map.assign m.keyToCoefficient_ (g.key + 1) t,
      map.insert m.timeToCoefficient_ (t, ⟨g.key + 1, c⟩)⟩ : LocalSupport2CoefficientManager C)
      ⟨g.key + 1⟩ := by
  have hnone := find_none_of_issued m g hi
  rw [unordered_map.assign_of_find_none _ _ _ hnone]
  have habs : ∀ e ∈ m.timeToCoefficient_,
      e.1 ≠ ((t, ⟨g.key + 1, c⟩) : Time × KeyCoefficient C).1 := h
  refine ⟨⟨?_, ?_, ?_, ?_, ?_⟩, ?_⟩
  · exact map.pairwise_insert _ _ habs hwf.ascending
  · unfold KeysUnique
    simp only [List.map_append, List.map_cons, List.map_nil]
    rw [List.nodup_append]
    refine ⟨hwf.unique, by simp, ?_⟩
    intro a ha hb
    simp only [List.mem_singleton] at hb
    subst hb
    obtain ⟨e, he, heq⟩ := List.mem_map.mp ha
    exact (unordered_map.um_find_eq_none_iff _ _).mp hnone e he heq
  · simp only [List.length_append, List.length_cons, List.length_nil,
      map.length_insert _ _ habs, hwf.i1.1]
  · intro key node hmem
    simp only [List.mem_append, List.mem_singleton, Prod.mk.injEq] at hmem
    rcases hmem with hmem | ⟨h1, h2⟩
    · obtain ⟨c0, hc0⟩ := hwf.i1.2.1 key node hmem
      exact ⟨c0, (map.mem_insert _ _ habs _).mpr (Or.inr hc0)⟩
    · subst h1 h2
      exact ⟨c, (map.mem_insert _ _ habs _).mpr (Or.inl rfl)⟩
  · intro e he
    simp only [List.mem_append, List.mem_singleton]
    rcases (map.mem_insert _ _ habs _).mp he with he | he
    · subst he
      exact Or.inr rfl
    · exact Or.inl (hwf.i1.2.2 e he)
  · intro key node hmem
    simp only [List.mem_append, List.mem_singleton, Prod.mk.injEq] at hmem
    rcases hmem with hmem | ⟨h1, _⟩
    · exact Nat.le_succ_of_le (hi key node hmem)
    · subst h1
      exact Nat.le_refl _

theorem mem_or_absent (m : LocalSupport2CoefficientManager C) (t : Time) :
    (∃ kc, (t, kc) ∈ m.timeToCoefficient_) ∨ ∀ e ∈ m.timeToCoefficient_, e.1 ≠ t := by
  by_cases h : ∃ kc, (t, kc) ∈ m.timeToCoefficient_
  · exact Or.inl h
  · refine Or.inr ?_
    intro e he heq
    exact h ⟨e.2, by rw [← heq]; exact he⟩

/-- On a well-formed store whose keys were all issued, `insertCoefficient` returns, and
the store stays well-formed; the generator does not go back. -/
theorem insertCoefficient_wellFormed (m : LocalSupport2CoefficientManager C) (hwf : m.WellFormed)
    (g : KeyGenerator) (hi : m.Issued g) (t : Time) (c : C) :
    ∃ key m1 g1, m.insertCoefficient t c g = .ok (key, m1, g1) ∧ m1.WellFormed ∧ m1.Issued g1 ∧
      g.key ≤ g1.key ∧ key ≤ g1.key := by
  rcases mem_or_absent m t with ⟨kc, hkc⟩ | habs
  · refine ⟨_, _, _, insertCoefficient_present m hwf t kc c g hkc,
      wellFormed_setCoefficient m hwf _ c, hi, Nat.le_refl _, ?_⟩
    exact hi _ _ (hwf.i1.2.2 _ hkc)
  · have h := wellFormed_insert_absent m hwf g hi t c habs
    exact ⟨_, _, _, insertCoefficient_absent m t c g habs, h.1, h.2, Nat.le_succ _, Nat.le_refl _⟩

theorem insertLoop_wellFormed (calls : List (Time × C)) (m : LocalSupport2CoefficientManager C)
    (hwf : m.WellFormed) (g : KeyGenerator) (hi : m.Issued g) (outKeys : Option (List Key)) :
    ∃ m1 g1 keys, insertLoop m g calls outKeys = .ok (m1, g1, keys) ∧ m1.WellFormed ∧
      m1.Issued g1 ∧ g.key ≤ g1.key := by
  induction calls generalizing m g outKeys with
  | nil => exact ⟨m, g, outKeys, rfl, hwf, hi, Nat.le_refl _⟩
  | cons call rest ih =>
    obtain ⟨t, v⟩ := call
    obtain ⟨key, m1, g1, h1, hwf1, hi1, hle, _⟩ := insertCoefficient_wellFormed m hwf g hi t v
    obtain ⟨m2, g2, keys, h2, hwf2, hi2, hle2⟩ := ih m1 hwf1 g1 hi1 (outKeys.map (fun ks => ks ++ [key]))
    refine ⟨m2, g2, keys, ?_, hwf2, hi2, Nat.le_trans hle hle2⟩
    simp only [insertLoop, h1, h2]

theorem setCoefficients_wellFormed (coefficients : CoefficientMap C)
    (m m1 : LocalSupport2CoefficientManager C) (hwf : m.WellFormed)
    (h : m.setCoefficients coefficients = .ok m1) :
    m1.WellFormed ∧ m1.keyToCoefficient_ = m.keyToCoefficient_ := by
  induction coefficients generalizing m with
  | nil =>
    simp only [setCoefficients, Except.ok.injEq] at h
    subst h
    exact ⟨hwf, rfl⟩
  | cons p rest ih =>
    obtain ⟨key, c⟩ := p
    simp only [setCoefficients] at h
    cases hset : m.setCoefficientByKey key c with
    | error err => simp [hset] at h
    | ok m2 =>
      simp only [hset] at h
      have h2 := wellFormed_setCoefficientByKey m m2 hwf key c hset
      have h3 := ih m2 h2.1 h
      exact ⟨h3.1, h3.2.trans h2.2⟩

theorem wellFormed_new : (new : LocalSupport2CoefficientManager C).WellFormed := by
  refine ⟨?_, ?_, ?_, ?_, ?_⟩ <;> simp [new, TimesAscending, KeysUnique]

/-- Every reachable store is well-formed and holds issued keys only. -/
theorem reachable_wellFormed (m : LocalSupport2CoefficientManager C) (g : KeyGenerator)
    (h : Reachable m g) : m.WellFormed ∧ m.Issued g := by
  induction h with
  | new g => exact ⟨wellFormed_new, by intro k n hmem; simp [new] at hmem⟩
  | otherKey _ ih =>
    refine ⟨ih.1, ?_⟩
    intro k n hmem
    exact Nat.le_succ_of_le (ih.2 k n hmem)
  | @insertCoefficient m g time coefficient key m1 g1 _ hcall ih =>
    obtain ⟨key2, m2, g2, h2, hwf2, hi2, _⟩ :=
      insertCoefficient_wellFormed m ih.1 g ih.2 time coefficient
    rw [hcall] at h2
    simp only [Except.ok.injEq, Prod.mk.injEq] at h2
    obtain ⟨_, hm, hg⟩ := h2
    subst hm hg
    exact ⟨hwf2, hi2⟩
  | @insertCoefficients m g times values outKeys m1 g1 keys _ hcall ih =>
    unfold insertCoefficients at hcall
    split at hcall
    · obtain ⟨m2, g2, keys2, h2, hwf2, hi2, _⟩ :=
        insertLoop_wellFormed (times.zip values) m ih.1 g ih.2 outKeys
      rw [hcall] at h2
      simp only [Except.ok.injEq, Prod.mk.injEq] at h2
      obtain ⟨hm, hg, _⟩ := h2
      subst hm hg
      exact ⟨hwf2, hi2⟩
    · simp at hcall
  | @setCoefficientByKey m g key coefficient m1 _ hcall ih =>
    have h2 := wellFormed_setCoefficientByKey m m1 ih.1 key coefficient hcall
    refine ⟨h2.1, ?_⟩
    intro k n hmem
    rw [h2.2] at hmem
    exact ih.2 k n hmem
  | @setCoefficients m g coefficients m1 _ hcall ih =>
    have h2 := setCoefficients_wellFormed coefficients m m1 ih.1 hcall
    refine ⟨h2.1, ?_⟩
    intro k n hmem
    rw [h2.2] at hmem
    exact ih.2 k n hmem
  | clear _ _ =>
    exact ⟨wellFormed_new, by intro k n hmem; simp [clear] at hmem⟩

theorem getCoefficientByKey_setCoefficient (m : LocalSupport2CoefficientManager C)
    (hwf : m.WellFormed) (t : Time) (kc : KeyCoefficient C) (c : C)
    (h : (t, kc) ∈ m.timeToCoefficient_) :
    getCoefficientByKey (⟨m.keyToCoefficient_,
      map.setCoefficient m.timeToCoefficient_ (map.find m.timeToCoefficient_ t) c⟩ :
      LocalSupport2CoefficientManager C) kc.key = .ok c := by
  have hfind := unordered_map.um_find_of_mem _ hwf.unique kc.key t (hwf.i1.2.2 _ h)
  have hget := map.getElem?_find_of_mem _ hwf.ascending t kc h
  simp only [getCoefficientByKey, hfind, map.deref, map.find_setCoefficient,
    map.getElem?_setCoefficient, if_true, hget, Option.map_some']

/-- C1: on a store that holds an entry at time `t` with key `k`,
`insertCoefficient(t, B)` returns `k` and issues no new key, leaves `size()` and the
stored times unchanged, and afterwards `getCoefficientByKey(k)` is `B`.  In particular
`insert(3, A)` then `insert(3, B)` on an empty store gives the same key twice, size 1
and `getCoefficientByKey(key) = B`. -/
theorem insertCoefficient_overwrite (m : LocalSupport2CoefficientManager C) (g : KeyGenerator)
    (hr : Reachable m g) (t : Time) (k : Key) (a B : C)
    (hmem : (t, (⟨k, a⟩ : KeyCoefficient C)) ∈ m.timeToCoefficient_) :
    (∃ m1, m.insertCoefficient t B g = .ok (k, m1, g) ∧ m1.size = m.size ∧
      m1.getTimes = m.getTimes ∧ m1.getCoefficientByKey k = .ok B) ∧
    (∀ (g0 : KeyGenerator) (A : C), ∃ key m1 g1 m2,
      (new : LocalSupport2CoefficientManager C).insertCoefficient 3 A g0 = .ok (key, m1, g1) ∧
      m1.insertCoefficient 3 B g1 = .ok (key, m2, g1) ∧ m2.size = 1 ∧
      m2.getCoefficientByKey key = .ok B) := by
  have hwf := (reachable_wellFormed m g hr).1
  refine ⟨⟨_, insertCoefficient_present m hwf t ⟨k, a⟩ B g hmem, rfl, ?_, ?_⟩, ?_⟩
  · simp only [getTimes, map.times_setCoefficient]
  · exact getCoefficientByKey_setCoefficient m hwf t ⟨k, a⟩ B hmem
  · intro g0 A
    have h1 : (new : LocalSupport2CoefficientManager C).insertCoefficient 3 A g0 =
        .ok (g0.key + 1, ⟨[(g0.key + 1, 3)], [(3, ⟨g0.key + 1, A⟩)]⟩, ⟨g0.key + 1⟩) :=
      insertCoefficient_absent new 3 A g0 (by simp [new])
    have hr1 : Reachable (⟨[(g0.key + 1, 3)], [(3, ⟨g0.key + 1, A⟩)]⟩ :
        LocalSupport2CoefficientManager C) ⟨g0.key + 1⟩ := Reachable.insertCoefficient (Reachable.new g0) h1
    have hwf1 := (reachable_wellFormed _ _ hr1).1
    have hmem1 : ((3 : Time), (⟨g0.key + 1, A⟩ : KeyCoefficient C)) ∈
        (⟨[(g0.key + 1, 3)], [(3, ⟨g0.key + 1, A⟩)]⟩ :
          LocalSupport2CoefficientManager C).timeToCoefficient_ := by simp
    exact ⟨_, _, _, _, h1, insertCoefficient_present _ hwf1 3 ⟨g0.key + 1, A⟩ B _ hmem1, rfl,
      getCoefficientByKey_setCoefficient _ hwf1 3 ⟨g0.key + 1, A⟩ B hmem1⟩

theorem insertCoefficient_overwrite_witness :
    Reachable (⟨[(1, 3)], [(3, ⟨1, 10⟩)]⟩ : LocalSupport2CoefficientManager Nat) ⟨1⟩ ∧
    (∃ m1, (⟨[(1, 3)], [(3, ⟨1, 10⟩)]⟩ : LocalSupport2CoefficientManager Nat).insertCoefficient
        3 20 ⟨1⟩ = .ok (1, m1, ⟨1⟩) ∧
      m1.size = 1 ∧ m1.getTimes = [3] ∧ m1.getCoefficientByKey 1 = .ok 20) :=
  ⟨Reachable.insertCoefficient (Reachable.new ⟨0⟩) rfl,
    (insertCoefficient_overwrite ⟨[(1, 3)], [(3, ⟨1, 10⟩)]⟩ ⟨1⟩
      (Reachable.insertCoefficient (Reachable.new ⟨0⟩) rfl) 3 1 10 20 (by simp)).1⟩

end LocalSupport2CoefficientManager

namespace map
variable {C : Type}

theorem ascending_getElem? (l : List (Time × KeyCoefficient C))
    (hs : l.Pairwise (fun a b => a.1 < b.1)) (i j : Nat) (a b : Time × KeyCoefficient C)
    (hi : l[i]? = some a) (hj : l[j]? = some b) (hij : i < j) : a.1 < b.1 := by
  obtain ⟨hi1, hi2⟩ := List.getElem?_eq_some.mp hi
  obtain ⟨hj1, hj2⟩ := List.getElem?_eq_some.mp hj
  have := (List.pairwise_iff_getElem.mp hs) i j hi1 hj1 hij
  rw [hi2, hj2] at this
  exact this

theorem ascending_index_le (l : List (Time × KeyCoefficient C))
    (hs : l.Pairwise (fun a b => a.1 < b.1)) (i j : Nat) (a b : Time × KeyCoefficient C)
    (hi : l[i]? = some a) (hj : l[j]? = some b) (hab : a.1 ≤ b.1) : i ≤ j := by
  by_contra hlt
  have := ascending_getElem? l hs j i b a hj hi (Nat.lt_of_not_le hlt)
  exact absurd hab (not_le.mpr this)

end map

namespace LocalSupport2CoefficientManager
variable {C : Type}

theorem getMinTime_eq (m : LocalSupport2CoefficientManager C) (e : Time × KeyCoefficient C)
    (h : m.timeToCoefficient_[0]? = some e) : m.getMinTime = e.1 := by
  unfold getMinTime
  cases hT : m.timeToCoefficient_ with
  | nil => simp [hT] at h
  | cons e0 rest =>
    simp only [hT, List.getElem?_cons_zero, Option.some.injEq] at h
    subst h
    rfl

theorem getMaxTime_eq (m : LocalSupport2CoefficientManager C) (e : Time × KeyCoefficient C)
    (h : m.timeToCoefficient_[m.timeToCoefficient_.length - 1]? = some e) :
    m.getMaxTime = e.1 := by
  unfold getMaxTime
  rw [List.getLast?_eq_getElem?, h]

theorem getMinTime_le (m : LocalSupport2CoefficientManager C) (hs : m.TimesAscending)
    (e : Time × KeyCoefficient C) (he : e ∈ m.timeToCoefficient_) : m.getMinTime ≤ e.1 := by
  obtain ⟨j, hj⟩ := List.mem_iff_getElem?.mp he
  have hlen : j < m.timeToCoefficient_.length := (List.getElem?_eq_some.mp hj).1
  obtain ⟨e0, he0⟩ : ∃ e0, m.timeToCoefficient_[0]? = some e0 :=
    ⟨_, List.getElem?_eq_getElem (by omega)⟩
  rw [getMinTime_eq m e0 he0]
  rcases Nat.eq_zero_or_pos j with h0 | h0
  · subst h0
    rw [he0] at hj
    simp only [Option.some.injEq] at hj
    subst hj
    exact le_refl _
  · exact le_of_lt (map.ascending_getElem? _ hs 0 j e0 e he0 hj h0)

theorem le_getMaxTime (m : LocalSupport2CoefficientManager C) (hs : m.TimesAscending)
    (e : Time × KeyCoefficient C) (he : e ∈ m.timeToCoefficient_) : e.1 ≤ m.getMaxTime := by
  obtain ⟨j, hj⟩ := List.mem_iff_getElem?.mp he
  have hlen : j < m.timeToCoefficient_.length := (List.getElem?_eq_some.mp hj).1
  obtain ⟨e1, he1⟩ : ∃ e1, m.timeToCoefficient_[m.timeToCoefficient_.length - 1]? = some e1 :=
    ⟨_, List.getElem?_eq_getElem (by omega)⟩
  rw [getMaxTime_eq m e1 he1]
  rcases Nat.lt_or_ge j (m.timeToCoefficient_.length - 1) with h0 | h0
  · exact le_of_lt (map.ascending_getElem? _ hs j _ e e1 hj he1 h0)
  · have hj1 : j = m.timeToCoefficient_.length - 1 := by omega
    subst hj1
    rw [he1] at hj
    simp only [Option.some.injEq] at hj
    subst hj
    exact le_refl _

/-- The bracket of a time in the interior: the iterator pair and what it designates. -/
theorem getCoefficientsAt_interior (m : LocalSupport2CoefficientManager C) (hs : m.TimesAscending)
    (time : Time) (hmin : m.getMinTime ≤ time) (hmax : time < m.getMaxTime) :
    ∃ i lower upper, m.getCoefficientsAt time = some (i, i + 1) ∧
      m.timeToCoefficient_[i]? = some lower ∧ m.timeToCoefficient_[i + 1]? = some upper ∧
      lower.1 ≤ time ∧ time < upper.1 := by
  have hne : m.timeToCoefficient_ ≠ [] := by
    intro h
    simp only [getMinTime, getMaxTime, h, List.getLast?_nil] at hmin hmax
    exact absurd hmin (not_le.mpr hmax)
  have hlen : 0 < m.timeToCoefficient_.length := List.length_pos.mpr hne
  obtain ⟨e0, he0⟩ : ∃ e0, m.timeToCoefficient_[0]? = some e0 :=
    ⟨_, List.getElem?_eq_getElem hlen⟩
  obtain ⟨e1, he1⟩ : ∃ e1, m.timeToCoefficient_[m.timeToCoefficient_.length - 1]? = some e1 :=
    ⟨_, List.getElem?_eq_getElem (by omega)⟩
  rw [getMinTime_eq m e0 he0] at hmin
  have hmax1 := hmax
  rw [getMaxTime_eq m e1 he1] at hmax1
  have hub0 : 0 < map.upper_bound m.timeToCoefficient_ time :=
    (map.lt_upper_bound_iff _ hs time 0 e0 he0).mpr hmin
  have hub1 : ¬ m.timeToCoefficient_.length - 1 < map.upper_bound m.timeToCoefficient_ time := by
    rw [map.lt_upper_bound_iff _ hs time _ e1 he1]
    exact not_le.mpr hmax1
  have hub2 : map.upper_bound m.timeToCoefficient_ time < m.timeToCoefficient_.length := by omega
  obtain ⟨lower, hlower⟩ : ∃ e, m.timeToCoefficient_[map.upper_bound m.timeToCoefficient_ time - 1]?
      = some e := ⟨_, List.getElem?_eq_getElem (by omega)⟩
  obtain ⟨upper, hupper⟩ : ∃ e, m.timeToCoefficient_[map.upper_bound m.timeToCoefficient_ time]?
      = some e := ⟨_, List.getElem?_eq_getElem hub2⟩
  have hsucc : map.upper_bound m.timeToCoefficient_ time - 1 + 1 =
      map.upper_bound m.timeToCoefficient_ time := by omega
  refine ⟨map.upper_bound m.timeToCoefficient_ time - 1, lower, upper, ?_, hlower, ?_, ?_, ?_⟩
  · have h1 : ¬ (map.upper_bound m.timeToCoefficient_ time = 0 ∨
        map.upper_bound m.timeToCoefficient_ time = m.timeToCoefficient_.length) := by omega
    simp only [getCoefficientsAt, List.isEmpty_eq_false.mpr hne, Bool.false_eq_true, if_false,
      ne_of_lt hmax, h1]
  · rw [hsucc]; exact hupper
  · exact (map.lt_upper_bound_iff _ hs time _ lower hlower).mp (by omega)
  · have := (map.lt_upper_bound_iff _ hs time _ upper hupper).not.mp (by omega)
    exact not_le.mp this

/-- The bracket of the maximum time: the last two positions. -/
theorem getCoefficientsAt_max (m : LocalSupport2CoefficientManager C) (hs : m.TimesAscending)
    (h2 : 2 ≤ m.timeToCoefficient_.length) :
    ∃ lower upper, m.getCoefficientsAt m.getMaxTime =
        some (m.timeToCoefficient_.length - 2, m.timeToCoefficient_.length - 1) ∧
      m.timeToCoefficient_[m.timeToCoefficient_.length - 2]? = some lower ∧
      m.timeToCoefficient_[m.timeToCoefficient_.length - 1]? = some upper ∧
      lower.1 < m.getMaxTime ∧ upper.1 = m.getMaxTime := by
  have hne : m.timeToCoefficient_ ≠ [] := by
    intro h
    rw [h] at h2
    simp at h2
  obtain ⟨lower, hlower⟩ : ∃ e, m.timeToCoefficient_[m.timeToCoefficient_.length - 2]? = some e :=
    ⟨_, List.getElem?_eq_getElem (by omega)⟩
  obtain ⟨upper, hupper⟩ : ∃ e, m.timeToCoefficient_[m.timeToCoefficient_.length - 1]? = some e :=
    ⟨_, List.getElem?_eq_getElem (by omega)⟩
  refine ⟨lower, upper, ?_, hlower, hupper, ?_, (getMaxTime_eq m upper hupper).symm⟩
  · have h1 : ¬ (m.timeToCoefficient_.length - 1 = 0 ∨
        m.timeToCoefficient_.length - 1 = m.timeToCoefficient_.length) := by omega
    have h3 : m.timeToCoefficient_.length - 1 - 1 = m.timeToCoefficient_.length - 2 := by omega
    have h4 : m.timeToCoefficient_.length - 2 + 1 = m.timeToCoefficient_.length - 1 := by omega
    simp only [getCoefficientsAt, List.isEmpty_eq_false.mpr hne, Bool.false_eq_true, if_false,
      if_true, h1, h3, h4]
  · rw [getMaxTime_eq m upper hupper]
    exact map.ascending_getElem? _ hs _ _ lower upper hlower hupper (by omega)

theorem getCoefficientsAt_short (m : LocalSupport2CoefficientManager C) (time : Time)
    (h : m.timeToCoefficient_.length < 2) : m.getCoefficientsAt time = none := by
  unfold getCoefficientsAt
  split
  · rfl
  · have hub := map.upper_bound_le_length m.timeToCoefficient_ time
    have h1 : (if time = m.getMaxTime then m.timeToCoefficient_.length - 1
        else map.upper_bound m.timeToCoefficient_ time) = 0 ∨
        (if time = m.getMaxTime then m.timeToCoefficient_.length - 1
        else map.upper_bound m.timeToCoefficient_ time) = m.timeToCoefficient_.length := by
      split <;> omega
    simp only [h1, if_true]

theorem getCoefficientsAt_before (m : LocalSupport2CoefficientManager C) (hs : m.TimesAscending)
    (time : Time) (h : time < m.getMinTime) : m.getCoefficientsAt time = none := by
  unfold getCoefficientsAt
  split
  · rfl
  · rename_i hne
    have hne1 : m.timeToCoefficient_ ≠ [] := by simpa using hne
    have hlen : 0 < m.timeToCoefficient_.length := List.length_pos.mpr hne1
    obtain ⟨e0, he0⟩ : ∃ e0, m.timeToCoefficient_[0]? = some e0 :=
      ⟨_, List.getElem?_eq_getElem hlen⟩
    have hmm : m.getMinTime ≤ m.getMaxTime := by
      have := le_getMaxTime m hs e0 (List.getElem?_mem he0)
      rw [getMinTime_eq m e0 he0]
      exact this
    have hnemax : time ≠ m.getMaxTime := ne_of_lt (lt_of_lt_of_le h hmm)
    have hub : ¬ 0 < map.upper_bound m.timeToCoefficient_ time := by
      rw [map.lt_upper_bound_iff _ hs time 0 e0 he0, ← getMinTime_eq m e0 he0]
      exact not_le.mpr h
    have h0 : map.upper_bound m.timeToCoefficient_ time = 0 := by omega
    simp only [hnemax, if_false, h0, true_or, if_true]

theorem getCoefficientsAt_after (m : LocalSupport2CoefficientManager C) (hs : m.TimesAscending)
    (time : Time) (h : m.getMaxTime < time) : m.getCoefficientsAt time = none := by
  unfold getCoefficientsAt
  split
  · rfl
  · rename_i hne
    have hne1 : m.timeToCoefficient_ ≠ [] := by simpa using hne
    have hlen : 0 < m.timeToCoefficient_.length := List.length_pos.mpr hne1
    obtain ⟨e1, he1⟩ : ∃ e1, m.timeToCoefficient_[m.timeToCoefficient_.length - 1]? = some e1 :=
      ⟨_, List.getElem?_eq_getElem (by omega)⟩
    have hnemax : time ≠ m.getMaxTime := (ne_of_lt h).symm
    have hub : m.timeToCoefficient_.length - 1 < map.upper_bound m.timeToCoefficient_ time := by
      rw [map.lt_upper_bound_iff _ hs time _ e1 he1, ← getMaxTime_eq m e1 he1]
      exact le_of_lt h
    have hle := map.upper_bound_le_length m.timeToCoefficient_ time
    have h0 : map.upper_bound m.timeToCoefficient_ time = m.timeToCoefficient_.length := by omega
    simp only [hnemax, if_false, h0, or_true, if_true]

theorem reachable_store135 : Reachable store135 ⟨3⟩ :=
  Reachable.insertCoefficients (Reachable.new ⟨0⟩)
    (show (new : LocalSupport2CoefficientManager Nat).insertCoefficients [3, 1, 5] [30, 10, 50]
      none ⟨0⟩ = .ok (store135, ⟨3⟩, none) from rfl)

theorem reachable_store0to30 : Reachable store0to30 ⟨4⟩ :=
  Reachable.insertCoefficients (Reachable.new ⟨0⟩)
    (show (new : LocalSupport2CoefficientManager Nat).insertCoefficients [0, 10, 20, 30]
      [100, 110, 120, 130] none ⟨0⟩ = .ok (store0to30, ⟨4⟩, none) from rfl)

/-- C2: for a query time with `getMinTime() <= time < getMaxTime()`,
`getCoefficientsAt(time)` succeeds and returns two iterators at consecutive positions
of the time order, designating entries `lower` and `upper` with
`lower.time <= time < upper.time` and no stored time strictly between them. -/
theorem getCoefficientsAt_bracket_interior (m : LocalSupport2CoefficientManager C)
    (g : KeyGenerator) (hr : Reachable m g) (time : Time)
    (hmin : m.getMinTime ≤ time) (hmax : time < m.getMaxTime) :
    ∃ i lower upper, m.getCoefficientsAt time = some (i, i + 1) ∧
      m.timeToCoefficient_[i]? = some lower ∧ m.timeToCoefficient_[i + 1]? = some upper ∧
      lower.1 ≤ time ∧ time < upper.1 ∧
      ∀ e ∈ m.timeToCoefficient_, ¬ (lower.1 < e.1 ∧ e.1 < upper.1) := by
  have hs := (reachable_wellFormed m g hr).1.ascending
  obtain ⟨i, lower, upper, h1, h2, h3, h4, h5⟩ := getCoefficientsAt_interior m hs time hmin hmax
  refine ⟨i, lower, upper, h1, h2, h3, h4, h5, ?_⟩
  rintro e he ⟨hlo, hup⟩
  obtain ⟨j, hj⟩ := List.mem_iff_getElem?.mp he
  have hij : ¬ j ≤ i := fun hle =>
    absurd hlo (not_lt.mpr (by
      rcases Nat.lt_or_ge j i with hlt | hge
      · exact le_of_lt (map.ascending_getElem? _ hs j i e lower hj h2 hlt)
      · have hji : j = i := by omega
        subst hji
        rw [h2] at hj
        simp only [Option.some.injEq] at hj
        subst hj
        exact le_refl _))
  have hle := map.ascending_index_le _ hs (i + 1) j upper e h3 hj
  rcases Nat.lt_or_ge (i + 1) j with hlt | hge
  · exact absurd hup (not_lt.mpr (le_of_lt (map.ascending_getElem? _ hs _ _ upper e h3 hj hlt)))
  · have hji : j = i + 1 := by omega
    subst hji
    rw [h3] at hj
    simp only [Option.some.injEq] at hj
    subst hj
    exact absurd hup (lt_irrefl _)

theorem getCoefficientsAt_bracket_interior_witness :
    Reachable store135 ⟨3⟩ ∧ store135.getMinTime ≤ 4 ∧ 4 < store135.getMaxTime ∧
    store135.getCoefficientsAt 4 = some (1, 2) ∧
    (store135.timeToCoefficient_[1]?).map (fun e => e.1) = some 3 ∧
    (store135.timeToCoefficient_[2]?).map (fun e => e.1) = some 5 ∧
    ∃ i lower upper, store135.getCoefficientsAt 4 = some (i, i + 1) ∧
      store135.timeToCoefficient_[i]? = some lower ∧
      store135.timeToCoefficient_[i + 1]? = some upper ∧
      lower.1 ≤ 4 ∧ 4 < upper.1 ∧
      ∀ e ∈ store135.timeToCoefficient_, ¬ (lower.1 < e.1 ∧ e.1 < upper.1) :=
  ⟨reachable_store135, by decide, by decide, by decide, by decide, by decide,
    getCoefficientsAt_bracket_interior store135 ⟨3⟩ reachable_store135 4 (by decide) (by decide)⟩

theorem size_eq_length (m : LocalSupport2CoefficientManager C) (hwf : m.WellFormed) :
    m.size = m.timeToCoefficient_.length := hwf.i1.1

/-- C3: on a store with at least two entries `getCoefficientsAt(getMaxTime())` succeeds
and returns the last two positions of the time order; they hold the second-largest and
the largest stored time, so `lower.time < time == upper.time`. -/
theorem getCoefficientsAt_bracket_max (m : LocalSupport2CoefficientManager C)
    (g : KeyGenerator) (hr : Reachable m g) (h2 : 2 ≤ m.size) :
    ∃ lower upper, m.getCoefficientsAt m.getMaxTime =
        some (m.timeToCoefficient_.length - 2, m.timeToCoefficient_.length - 1) ∧
      m.timeToCoefficient_[m.timeToCoefficient_.length - 2]? = some lower ∧
      m.timeToCoefficient_[m.timeToCoefficient_.length - 1]? = some upper ∧
      lower.1 < m.getMaxTime ∧ upper.1 = m.getMaxTime ∧
      (∀ e ∈ m.timeToCoefficient_, e.1 ≤ upper.1) ∧
      (∀ e ∈ m.timeToCoefficient_, e.1 < upper.1 → e.1 ≤ lower.1) := by
  have hwf := (reachable_wellFormed m g hr).1
  have hs := hwf.ascending
  rw [size_eq_length m hwf] at h2
  obtain ⟨lower, upper, h1, hl, hu, hlt, heq⟩ := getCoefficientsAt_max m hs h2
  refine ⟨lower, upper, h1, hl, hu, hlt, heq, ?_, ?_⟩
  · intro e he
    rw [heq]
    exact le_getMaxTime m hs e he
  · intro e he hlt1
    obtain ⟨j, hj⟩ := List.mem_iff_getElem?.mp he
    have hjlen : j < m.timeToCoefficient_.length := (List.getElem?_eq_some.mp hj).1
    have hne : j ≠ m.timeToCoefficient_.length - 1 := by
      intro h
      subst h
      rw [hu] at hj
      simp only [Option.some.injEq] at hj
      subst hj
      exact absurd hlt1 (lt_irrefl _)
    rcases Nat.lt_or_ge j (m.timeToCoefficient_.length - 2) with h3 | h3
    · exact le_of_lt (map.ascending_getElem? _ hs j _ e lower hj hl h3)
    · have hj2 : j = m.timeToCoefficient_.length - 2 := by omega
      subst hj2
      rw [hl] at hj
      simp only [Option.some.injEq] at hj
      subst hj
      exact le_refl _

theorem getCoefficientsAt_bracket_max_witness :
    Reachable store135 ⟨3⟩ ∧ 2 ≤ store135.size ∧ store135.getMaxTime = 5 ∧
    store135.getCoefficientsAt 5 = some (1, 2) ∧
    (store135.timeToCoefficient_[1]?).map (fun e => e.1) = some 3 ∧
    (store135.timeToCoefficient_[2]?).map (fun e => e.1) = some 5 ∧
    ∃ lower upper, store135.getCoefficientsAt store135.getMaxTime =
        some (store135.timeToCoefficient_.length - 2, store135.timeToCoefficient_.length - 1) ∧
      store135.timeToCoefficient_[store135.timeToCoefficient_.length - 2]? = some lower ∧
      store135.timeToCoefficient_[store135.timeToCoefficient_.length - 1]? = some upper ∧
      lower.1 < store135.getMaxTime ∧ upper.1 = store135.getMaxTime ∧
      (∀ e ∈ store135.timeToCoefficient_, e.1 ≤ upper.1) ∧
      (∀ e ∈ store135.timeToCoefficient_, e.1 < upper.1 → e.1 ≤ lower.1) :=
  ⟨reachable_store135, by decide, by decide, by decide, by decide, by decide,
    getCoefficientsAt_bracket_max store135 ⟨3⟩ reachable_store135 (by decide)⟩

/-- C4: `getCoefficientsAt(time)` returns `false` exactly when the store is empty, or has
fewer than two entries, or `time < getMinTime()`, or `time > getMaxTime()`; it succeeds
exactly when `size() >= 2` and `getMinTime() <= time <= getMaxTime()`, and the two
entries it then returns enclose `time` (no extrapolation). -/
theorem getCoefficientsAt_fails_iff (m : LocalSupport2CoefficientManager C)
    (g : KeyGenerator) (hr : Reachable m g) (time : Time) :
    (m.getCoefficientsAt time = none ↔
      (m.size = 0 ∨ m.size < 2 ∨ time < m.getMinTime ∨ m.getMaxTime < time)) ∧
    ((m.getCoefficientsAt time).isSome = true ↔
      (2 ≤ m.size ∧ m.getMinTime ≤ time ∧ time ≤ m.getMaxTime)) ∧
    (∀ i j, m.getCoefficientsAt time = some (i, j) →
      ∃ lower upper, m.timeToCoefficient_[i]? = some lower ∧
        m.timeToCoefficient_[j]? = some upper ∧ lower.1 ≤ time ∧ time ≤ upper.1) := by
  have hwf := (reachable_wellFormed m g hr).1
  have hs := hwf.ascending
  rw [size_eq_length m hwf]
  by_cases hshort : m.timeToCoefficient_.length < 2
  · have hnone := getCoefficientsAt_short m time hshort
    refine ⟨⟨fun _ => Or.inr (Or.inl hshort), fun _ => hnone⟩, ?_, ?_⟩
    · rw [hnone]
      simp only [Option.isSome_none, Bool.false_eq_true, false_iff, not_and]
      intro h
      omega
    · intro i j h
      rw [hnone] at h
      simp at h
  · have h2 : 2 ≤ m.timeToCoefficient_.length := by omega
    by_cases hlo : time < m.getMinTime
    · have hnone := getCoefficientsAt_before m hs time hlo
      refine ⟨⟨fun _ => Or.inr (Or.inr (Or.inl hlo)), fun _ => hnone⟩, ?_, ?_⟩
      · rw [hnone]
        simp only [Option.isSome_none, Bool.false_eq_true, false_iff, not_and]
        intro _ h
        exact absurd h (not_le.mpr hlo)
      · intro i j h
        rw [hnone] at h
        simp at h
    · by_cases hhi : m.getMaxTime < time
      · have hnone := getCoefficientsAt_after m hs time hhi
        refine ⟨⟨fun _ => Or.inr (Or.inr (Or.inr hhi)), fun _ => hnone⟩, ?_, ?_⟩
        · rw [hnone]
          simp only [Option.isSome_none, Bool.false_eq_true, false_iff, not_and]
          intro _ _ h
          exact absurd h (not_le.mpr hhi)
        · intro i j h
          rw [hnone] at h
          simp at h
      · have hlo1 : m.getMinTime ≤ time := not_lt.mp hlo
        have hhi1 : time ≤ m.getMaxTime := not_lt.mp hhi
        have hsome : ∃ i j lower upper, m.getCoefficientsAt time = some (i, j) ∧
            m.timeToCoefficient_[i]? = some lower ∧
            m.timeToCoefficient_[j]? = some upper ∧ lower.1 ≤ time ∧ time ≤ upper.1 := by
          rcases lt_or_eq_of_le hhi1 with hlt | heq
          · obtain ⟨i, lower, upper, h1, h3, h4, h5, h6⟩ :=
              getCoefficientsAt_interior m hs time hlo1 hlt
            exact ⟨i, i + 1, lower, upper, h1, h3, h4, h5, le_of_lt h6⟩
          · obtain ⟨lower, upper, h1, h3, h4, h5, h6⟩ := getCoefficientsAt_max m hs h2
            rw [← heq] at h1 h5 h6
            exact ⟨_, _, lower, upper, h1, h3, h4, le_of_lt h5, le_of_eq h6.symm⟩
        obtain ⟨i, j, lower, upper, h1, h3, h4, h5, h6⟩ := hsome
        refine ⟨⟨fun h => ?_, fun h => ?_⟩, ?_, ?_⟩
        · rw [h1] at h
          simp at h
        · rcases h with h | h | h | h
          · omega
          · omega
          · exact absurd h hlo
          · exact absurd h hhi
        · rw [h1]
          simp only [Option.isSome_some, true_iff]
          exact ⟨h2, hlo1, hhi1⟩
        · intro i1 j1 h
          rw [h1] at h
          simp only [Option.some.injEq, Prod.mk.injEq] at h
          obtain ⟨hi, hj⟩ := h
          subst hi hj
          exact ⟨lower, upper, h3, h4, h5, h6⟩

theorem getCoefficientsAt_fails_iff_witness :
    Reachable store135 ⟨3⟩ ∧ store135.getCoefficientsAt 0 = none ∧
    store135.getCoefficientsAt 6 = none ∧
    (store135.getCoefficientsAt 0 = none ↔
      (store135.size = 0 ∨ store135.size < 2 ∨ 0 < store135.getMinTime ∨
        store135.getMaxTime < 0)) ∧
    (store135.getCoefficientsAt 6 = none ↔
      (store135.size = 0 ∨ store135.size < 2 ∨ 6 < store135.getMinTime ∨
        store135.getMaxTime < 6)) :=
  ⟨reachable_store135, by decide, by decide,
    (getCoefficientsAt_fails_iff store135 ⟨3⟩ reachable_store135 0).1,
    (getCoefficientsAt_fails_iff store135 ⟨3⟩ reachable_store135 6).1⟩

theorem checkNode_ok [DecidableEq C] (m : LocalSupport2CoefficientManager C) (hwf : m.WellFormed)
    (e : Time × KeyCoefficient C) (he : e ∈ m.timeToCoefficient_) : m.checkNode e = .ok () := by
  have hfind := unordered_map.um_find_of_mem _ hwf.unique e.2.key e.1 (hwf.i1.2.2 e he)
  have hget := map.getElem?_find_of_mem _ hwf.ascending e.1 e.2 he
  simp only [checkNode, hfind, map.deref, hget, ne_eq, not_true_eq_false, if_false]

theorem checkNodes_ok [DecidableEq C] (m : LocalSupport2CoefficientManager C) (hwf : m.WellFormed)
    (l : List (Time × KeyCoefficient C)) (hl : ∀ e ∈ l, e ∈ m.timeToCoefficient_) :
    m.checkNodes l = .ok () := by
  induction l with
  | nil => rfl
  | cons e rest ih =>
    simp only [checkNodes, checkNode_ok m hwf e (hl e (List.mem_cons_self _ _))]
    exact ih (fun x hx => hl x (List.mem_cons_of_mem _ hx))

theorem checkInternalConsistency_ok [DecidableEq C] (m : LocalSupport2CoefficientManager C)
    (hwf : m.WellFormed) (doExit : Bool) : m.checkInternalConsistency doExit = .ok doExit := by
  simp only [checkInternalConsistency, hwf.i1.1, ne_eq, not_true_eq_false, if_false,
    checkNodes_ok m hwf _ (fun _ h => h)]

/-- C5: invariant I1 holds in every state a store reaches from the empty store through
`insertCoefficient`, `insertCoefficients`, `setCoefficientByKey`, `setCoefficients` and
`clear`: the two indices have equal cardinality, every key of the key index resolves to
a node of the time index whose stored key is that key, the key of every node of the time
index is in the key index, and `checkInternalConsistency` passes all its checks. -/
theorem i1_preserved [DecidableEq C] (m : LocalSupport2CoefficientManager C)
    (g : KeyGenerator) (hr : Reachable m g) (doExit : Bool) :
    m.I1 ∧
    m.keyToCoefficient_.length = m.timeToCoefficient_.length ∧
    (∀ key, m.hasCoefficientWithKey key = true →
      ∃ node c, unordered_map.find m.keyToCoefficient_ key = some node ∧
        map.deref m.timeToCoefficient_ (map.find m.timeToCoefficient_ node) =
          .ok (node, ⟨key, c⟩)) ∧
    (∀ e ∈ m.timeToCoefficient_, m.hasCoefficientWithKey e.2.key = true) ∧
    m.checkInternalConsistency doExit = .ok doExit := by
  have hwf := (reachable_wellFormed m g hr).1
  refine ⟨hwf.i1, hwf.i1.1, ?_, ?_, checkInternalConsistency_ok m hwf doExit⟩
  · intro key hkey
    unfold hasCoefficientWithKey at hkey
    obtain ⟨node, hnode⟩ := Option.isSome_iff_exists.mp hkey
    obtain ⟨c, hc⟩ := hwf.i1.2.1 key node (unordered_map.um_mem_of_find _ _ _ hnode)
    refine ⟨node, c, hnode, ?_⟩
    simp only [map.deref, map.getElem?_find_of_mem _ hwf.ascending node ⟨key, c⟩ hc]
  · intro e he
    unfold hasCoefficientWithKey
    rw [unordered_map.um_find_of_mem _ hwf.unique e.2.key e.1 (hwf.i1.2.2 e he)]
    rfl

theorem i1_preserved_witness :
    Reachable store135 ⟨3⟩ ∧ store135.checkInternalConsistency false = .ok false ∧
    store135.I1 :=
  ⟨reachable_store135, (i1_preserved store135 ⟨3⟩ reachable_store135 false).2.2.2.2,
    (i1_preserved store135 ⟨3⟩ reachable_store135 false).1⟩

theorem hasCoefficientAtTime_iff (m : LocalSupport2CoefficientManager C) (t : Time) :
    m.hasCoefficientAtTime t = true ↔ t ∈ m.getTimes := by
  simp only [hasCoefficientAtTime, bne_iff_ne, ne_eq, map.find_eq_length_iff, getTimes,
    List.mem_map]
  constructor
  · intro h
    by_contra hno
    exact h (fun e he heq => hno ⟨e, he, heq⟩)
  · rintro ⟨e, he, heq⟩ h
    exact h e he heq

theorem insertCoefficient_times (m : LocalSupport2CoefficientManager C) (hwf : m.WellFormed)
    (g : KeyGenerator) (hi : m.Issued g) (t : Time) (c : C) :
    ∃ key m1 g1, m.insertCoefficient t c g = .ok (key, m1, g1) ∧ m1.WellFormed ∧ m1.Issued g1 ∧
      ∀ t1, t1 ∈ m1.getTimes ↔ t1 = t ∨ t1 ∈ m.getTimes := by
  rcases mem_or_absent m t with ⟨kc, hkc⟩ | habs
  · refine ⟨_, _, _, insertCoefficient_present m hwf t kc c g hkc,
      wellFormed_setCoefficient m hwf _ c, hi, ?_⟩
    intro t1
    simp only [getTimes, map.times_setCoefficient]
    constructor
    · exact Or.inr
    · rintro (h | h)
      · subst h
        exact List.mem_map.mpr ⟨_, hkc, rfl⟩
      · exact h
  · have h := wellFormed_insert_absent m hwf g hi t c habs
    refine ⟨_, _, _, insertCoefficient_absent m t c g habs, h.1, h.2, ?_⟩
    intro t1
    have habs1 : ∀ e ∈ m.timeToCoefficient_,
        e.1 ≠ ((t, ⟨g.key + 1, c⟩) : Time × KeyCoefficient C).1 := habs
    simp only [getTimes, List.mem_map, map.mem_insert _ _ habs1]
    constructor
    · rintro ⟨e, he | he, heq⟩
      · subst he
        exact Or.inl heq.symm
      · exact Or.inr ⟨e, he, heq⟩
    · rintro (h1 | ⟨e, he, heq⟩)
      · exact ⟨_, Or.inl rfl, h1.symm⟩
      · exact ⟨e, Or.inr he, heq⟩

theorem insertLoop_times (calls : List (Time × C)) (m : LocalSupport2CoefficientManager C)
    (hwf : m.WellFormed) (g : KeyGenerator) (hi : m.Issued g) (outKeys : Option (List Key)) :
    ∃ m1 g1 keys, insertLoop m g calls outKeys = .ok (m1, g1, keys) ∧ m1.WellFormed ∧
      ∀ t1, t1 ∈ m1.getTimes ↔ t1 ∈ calls.map (fun p => p.1) ∨ t1 ∈ m.getTimes := by
  induction calls generalizing m g outKeys with
  | nil => exact ⟨m, g, outKeys, rfl, hwf, by simp⟩
  | cons call rest ih =>
    obtain ⟨t, v⟩ := call
    obtain ⟨key, m1, g1, h1, hwf1, hi1, ht1⟩ := insertCoefficient_times m hwf g hi t v
    obtain ⟨m2, g2, keys, h2, hwf2, ht2⟩ :=
      ih m1 hwf1 g1 hi1 (outKeys.map (fun ks => ks ++ [key]))
    refine ⟨m2, g2, keys, ?_, hwf2, ?_⟩
    · simp only [insertLoop, h1, h2]
    · intro t1
      rw [ht2 t1, ht1 t1]
      simp only [List.map_cons, List.mem_cons]
      tauto

theorem getTimes_nodup (m : LocalSupport2CoefficientManager C) (hs : m.TimesAscending) :
    m.getTimes.Nodup := by
  unfold TimesAscending at hs
  rw [map.pairwise_iff_times] at hs
  exact hs.imp (fun h => ne_of_lt h)

/-- C6: after any finite sequence of `insertCoefficient` calls on an empty store, every
call returns, `size()` is the number of distinct times that were inserted, and
`hasCoefficientAtTime(t)` holds exactly for the inserted times. -/
theorem size_counts_distinct_times (calls : List (Time × C)) (g : KeyGenerator) :
    ∃ m g1, insertLoop (new : LocalSupport2CoefficientManager C) g calls none = .ok (m, g1, none) ∧
      m.size = (calls.map (fun p => p.1)).toFinset.card ∧
      ∀ t, m.hasCoefficientAtTime t = true ↔ t ∈ calls.map (fun p => p.1) := by
  obtain ⟨m, g1, keys, h1, hwf, ht⟩ := insertLoop_times calls new wellFormed_new g
    (by intro k n hmem; simp [new] at hmem) none
  have hkeys : keys = none := by
    clear ht hwf
    generalize (new : LocalSupport2CoefficientManager C) = m0 at h1
    induction calls generalizing m0 g with
    | nil =>
      simp only [insertLoop, Except.ok.injEq, Prod.mk.injEq] at h1
      exact h1.2.2.symm
    | cons call rest ih =>
      obtain ⟨t, v⟩ := call
      simp only [insertLoop] at h1
      cases hins : m0.insertCoefficient t v g with
      | error err => simp [hins] at h1
      | ok r =>
        obtain ⟨key, m1, g1⟩ := r
        simp only [hins, Option.map_none'] at h1
        exact ih g1 m1 h1
  subst hkeys
  have hmem : ∀ t, t ∈ m.getTimes ↔ t ∈ calls.map (fun p => p.1) := by
    intro t
    rw [ht t]
    simp [getTimes, new]
  refine ⟨m, g1, h1, ?_, ?_⟩
  · rw [size_eq_length m hwf]
    have hlen : m.timeToCoefficient_.length = m.getTimes.length := by simp [getTimes]
    rw [hlen, ← List.toFinset_card_of_nodup (getTimes_nodup m hwf.ascending)]
    congr 1
    ext t
    simp only [List.mem_toFinset]
    exact hmem t
  · intro t
    rw [hasCoefficientAtTime_iff]
    exact hmem t

end LocalSupport2CoefficientManager

namespace map
variable {C : Type}

theorem mem_setCoefficient_find (l : List (Time × KeyCoefficient C))
    (hs : l.Pairwise (fun a b => a.1 < b.1)) (t : Time) (kc : KeyCoefficient C) (c : C)
    (h : (t, kc) ∈ l) (e : Time × KeyCoefficient C) :
    e ∈ setCoefficient l (find l t) c ↔ e = (t, ⟨kc.key, c⟩) ∨ (e ∈ l ∧ e.1 ≠ t) := by
  induction l with
  | nil => simp at h
  | cons e0 rest ih =>
    obtain ⟨t0, kc0⟩ := e0
    have hs1 := List.pairwise_cons.mp hs
    by_cases h0 : t0 = t
    · subst h0
      have hkc : kc = kc0 := by
        rcases List.mem_cons.mp h with h1 | h1
        · simp only [Prod.mk.injEq] at h1
          exact h1.2
        · exact absurd (hs1.1 _ h1) (lt_irrefl _)
      subst hkc
      simp only [find, if_true, setCoefficient, List.mem_cons]
      constructor
      · rintro (h1 | h1)
        · exact Or.inl h1
        · exact Or.inr ⟨Or.inr h1, ne_of_gt (hs1.1 _ h1)⟩
      · rintro (h1 | ⟨h1 | h1, h2⟩)
        · exact Or.inl h1
        · subst h1
          exact absurd rfl h2
        · exact Or.inr h1
    · have hrest : (t, kc) ∈ rest := by
        rcases List.mem_cons.mp h with h1 | h1
        · simp only [Prod.mk.injEq] at h1
          exact absurd h1.1.symm h0
        · exact h1
      simp only [find, h0, if_false, setCoefficient, List.mem_cons, ih hs1.2 hrest]
      constructor
      · rintro (h1 | h1 | ⟨h1, h2⟩)
        · subst h1
          exact Or.inr ⟨Or.inl rfl, h0⟩
        · exact Or.inl h1
        · exact Or.inr ⟨Or.inr h1, h2⟩
      · rintro (h1 | ⟨h1 | h1, h2⟩)
        · exact Or.inr (Or.inl h1)
        · exact Or.inl h1
        · exact Or.inr (Or.inr ⟨h1, h2⟩)

theorem entry_unique (l : List (Time × KeyCoefficient C))
    (hs : l.Pairwise (fun a b => a.1 < b.1)) (t : Time) (a b : KeyCoefficient C)
    (ha : (t, a) ∈ l) (hb : (t, b) ∈ l) : a = b := by
  have h1 := getElem?_find_of_mem l hs t a ha
  rw [getElem?_find_of_mem l hs t b hb] at h1
  simp only [Option.some.injEq, Prod.mk.injEq, true_and] at h1
  exact h1.symm

end map

namespace LocalSupport2CoefficientManager
variable {C : Type}

theorem getCoefficientByKey_of_mem (m : LocalSupport2CoefficientManager C) (hwf : m.WellFormed)
    (t : Time) (k : Key) (c : C) (h : (t, (⟨k, c⟩ : KeyCoefficient C)) ∈ m.timeToCoefficient_) :
    m.getCoefficientByKey k = .ok c := by
  have hfind := unordered_map.um_find_of_mem _ hwf.unique k t (hwf.i1.2.2 _ h)
  have hget := map.getElem?_find_of_mem _ hwf.ascending t _ h
  simp only [getCoefficientByKey, hfind, map.deref, hget]

theorem getCoefficientByKey_of_find_none (m : LocalSupport2CoefficientManager C) (k : Key)
    (h : unordered_map.find m.keyToCoefficient_ k = none) :
    m.getCoefficientByKey k = .error .UnknownKey := by
  simp only [getCoefficientByKey, h]

theorem hasCoefficientWithKey_of_get (m : LocalSupport2CoefficientManager C) (k : Key) (c : C)
    (h : m.getCoefficientByKey k = .ok c) : m.hasCoefficientWithKey k = true := by
  unfold hasCoefficientWithKey
  cases hfind : unordered_map.find m.keyToCoefficient_ k with
  | none => simp [getCoefficientByKey_of_find_none m k hfind] at h
  | some node => rfl

/-- Overwriting the coefficient of the entry at time `t`: reads by key afterwards. -/
theorem getCoefficientByKey_overwrite (m : LocalSupport2CoefficientManager C) (hwf : m.WellFormed)
    (t : Time) (kc : KeyCoefficient C) (c : C) (h : (t, kc) ∈ m.timeToCoefficient_) (k : Key) :
    getCoefficientByKey (⟨m.keyToCoefficient_,
      map.setCoefficient m.timeToCoefficient_ (map.find m.timeToCoefficient_ t) c⟩ :
      LocalSupport2CoefficientManager C) k =
      if kc.key = k then .ok c else m.getCoefficientByKey k := by
  by_cases hk : kc.key = k
  · subst hk
    simp only [if_true]
    exact getCoefficientByKey_setCoefficient m hwf t kc c h
  · simp only [hk, if_false]
    cases hfind : unordered_map.find m.keyToCoefficient_ k with
    | none =>
      rw [getCoefficientByKey_of_find_none m k hfind]
      exact getCoefficientByKey_of_find_none _ k hfind
    | some node =>
      obtain ⟨c0, hc0⟩ := hwf.i1.2.1 k node (unordered_map.um_mem_of_find _ _ _ hfind)
      have hnode : node ≠ t := by
        intro heq
        subst heq
        have := map.entry_unique _ hwf.ascending node _ _ h hc0
        exact hk (by rw [this])
      rw [getCoefficientByKey_of_mem m hwf node k c0 hc0]
      refine getCoefficientByKey_of_mem _ (wellFormed_setCoefficient m hwf _ c) node k c0 ?_
      exact (map.mem_setCoefficient_find _ hwf.ascending t kc c h _).mpr (Or.inr ⟨hc0, hnode⟩)

/-- What `insertCoefficient` does to reads by key and to the entries at other times. -/
theorem insertCoefficient_reads (m : LocalSupport2CoefficientManager C) (hwf : m.WellFormed)
    (g : KeyGenerator) (hi : m.Issued g) (t : Time) (c : C) :
    ∃ key m1 g1, m.insertCoefficient t c g = .ok (key, m1, g1) ∧ m1.WellFormed ∧ m1.Issued g1 ∧
      (∀ k, m1.getCoefficientByKey k = if key = k then .ok c else m.getCoefficientByKey k) ∧
      (∀ e : Time × KeyCoefficient C, e.1 ≠ t →
        (e ∈ m1.timeToCoefficient_ ↔ e ∈ m.timeToCoefficient_)) := by
  rcases mem_or_absent m t with ⟨kc, hkc⟩ | habs
  · refine ⟨_, _, _, insertCoefficient_present m hwf t kc c g hkc,
      wellFormed_setCoefficient m hwf _ c, hi, ?_, ?_⟩
    · exact getCoefficientByKey_overwrite m hwf t kc c hkc
    · intro e he
      rw [map.mem_setCoefficient_find _ hwf.ascending t kc c hkc e]
      constructor
      · rintro (h1 | h1)
        · subst h1
          exact absurd rfl he
        · exact h1.1
      · exact fun h1 => Or.inr ⟨h1, he⟩
  · have h := wellFormed_insert_absent m hwf g hi t c habs
    have habs1 : ∀ e ∈ m.timeToCoefficient_,
        e.1 ≠ ((t, ⟨g.key + 1, c⟩) : Time × KeyCoefficient C).1 := habs
    refine ⟨_, _, _, insertCoefficient_absent m t c g habs, h.1, h.2, ?_, ?_⟩
    · intro k
      by_cases hk : g.key + 1 = k
      · subst hk
        simp only [if_true]
        exact getCoefficientByKey_of_mem _ h.1 t _ c ((map.mem_insert _ _ habs1 _).mpr (Or.inl rfl))
      · simp only [hk, if_false]
        cases hfind : unordered_map.find m.keyToCoefficient_ k with
        | none =>
          rw [getCoefficientByKey_of_find_none m k hfind]
          apply getCoefficientByKey_of_find_none
          simp only [unordered_map.find_assign, hk, if_false, hfind]
        | some node =>
          obtain ⟨c0, hc0⟩ := hwf.i1.2.1 k node (unordered_map.um_mem_of_find _ _ _ hfind)
          rw [getCoefficientByKey_of_mem m hwf node k c0 hc0]
          exact getCoefficientByKey_of_mem _ h.1 node k c0
            ((map.mem_insert _ _ habs1 _).mpr (Or.inr hc0))
    · intro e he
      rw [map.mem_insert _ _ habs1 e]
      constructor
      · rintro (h1 | h1)
        · subst h1
          exact absurd rfl he
        · exact h1
      · exact Or.inr

theorem setCoefficientByKey_reads (m m1 : LocalSupport2CoefficientManager C) (hwf : m.WellFormed)
    (key : Key) (c : C) (h : m.setCoefficientByKey key c = .ok m1) :
    ∀ k, m1.getCoefficientByKey k = if key = k then .ok c else m.getCoefficientByKey k := by
  cases hfind : unordered_map.find m.keyToCoefficient_ key with
  | none => simp [setCoefficientByKey_unknown m key c hfind] at h
  | some node =>
    have hmem := unordered_map.um_mem_of_find _ _ _ hfind
    rw [setCoefficientByKey_eq m hwf key node c hmem] at h
    simp only [Except.ok.injEq] at h
    subst h
    obtain ⟨c0, hc0⟩ := hwf.i1.2.1 key node hmem
    exact getCoefficientByKey_overwrite m hwf node ⟨key, c0⟩ c hc0

theorem lastWritten_of_mem (log : List (Key × C)) (w : Key × C) (h : w ∈ log) :
    ∃ c, lastWritten log w.1 = some c := by
  induction log with
  | nil => simp at h
  | cons w0 rest ih =>
    obtain ⟨k0, c0⟩ := w0
    simp only [lastWritten]
    cases hrest : lastWritten rest w.1 with
    | some later => exact ⟨later, rfl⟩
    | none =>
      rcases List.mem_cons.mp h with h1 | h1
      · subst h1
        exact ⟨c0, by simp⟩
      · obtain ⟨c, hc⟩ := ih h1
        rw [hrest] at hc
        simp at hc

theorem getCoefficientByKey_of_has (m : LocalSupport2CoefficientManager C) (hwf : m.WellFormed)
    (k : Key) (h : m.hasCoefficientWithKey k = true) : ∃ c, m.getCoefficientByKey k = .ok c := by
  unfold hasCoefficientWithKey at h
  obtain ⟨node, hnode⟩ := Option.isSome_iff_exists.mp h
  obtain ⟨c, hc⟩ := hwf.i1.2.1 k node (unordered_map.um_mem_of_find _ _ _ hnode)
  exact ⟨c, getCoefficientByKey_of_mem m hwf node k c hc⟩

theorem runCalls_reads (calls : List (StoreCall C)) (m : LocalSupport2CoefficientManager C)
    (hwf : m.WellFormed) (g : KeyGenerator) (hi : m.Issued g)
    (m1 : LocalSupport2CoefficientManager C) (g1 : KeyGenerator) (log : List (Key × C))
    (h : runCalls m g calls = .ok (m1, g1, log)) :
    m1.WellFormed ∧ ∀ k, m1.getCoefficientByKey k =
      match lastWritten log k with
      | some c => .ok c
      | none => m.getCoefficientByKey k := by
  induction calls generalizing m g m1 g1 log with
  | nil =>
    simp only [runCalls, Except.ok.injEq, Prod.mk.injEq] at h
    obtain ⟨hm, _, hlog⟩ := h
    subst hm hlog
    exact ⟨hwf, fun k => rfl⟩
  | cons call rest ih =>
    cases call with
    | insertCoefficient t c =>
      obtain ⟨key, m2, g2, hins, hwf2, hi2, hread, _⟩ := insertCoefficient_reads m hwf g hi t c
      simp only [runCalls, hins] at h
      cases hrun : runCalls m2 g2 rest with
      | error err => simp [hrun] at h
      | ok r =>
        obtain ⟨m3, g3, log3⟩ := r
        simp only [hrun, Except.ok.injEq, Prod.mk.injEq] at h
        obtain ⟨hm, hg, hlog⟩ := h
        subst hm hg hlog
        have h3 := ih m2 hwf2 g2 hi2 m3 g3 log3 hrun
        refine ⟨h3.1, fun k => ?_⟩
        rw [h3.2 k, hread k]
        simp only [lastWritten]
        cases lastWritten log3 k <;> by_cases hk : key = k <;> simp [hk]
    | setCoefficientByKey key c =>
      simp only [runCalls] at h
      cases hset : m.setCoefficientByKey key c with
      | error err => simp [hset] at h
      | ok m2 =>
        have hwf2 := wellFormed_setCoefficientByKey m m2 hwf key c hset
        have hread := setCoefficientByKey_reads m m2 hwf key c hset
        have hi2 : m2.Issued g := by
          intro k n hmem
          rw [hwf2.2] at hmem
          exact hi k n hmem
        simp only [hset] at h
        cases hrun : runCalls m2 g rest with
        | error err => simp [hrun] at h
        | ok r =>
          obtain ⟨m3, g3, log3⟩ := r
          simp only [hrun, Except.ok.injEq, Prod.mk.injEq] at h
          obtain ⟨hm, hg, hlog⟩ := h
          subst hm hg hlog
          have h3 := ih m2 hwf2.1 g hi2 m3 g3 log3 hrun
          refine ⟨h3.1, fun k => ?_⟩
          rw [h3.2 k, hread k]
          simp only [lastWritten]
          cases lastWritten log3 k <;> by_cases hk : key = k <;> simp [hk]

/-- C7: after any sequence of `insertCoefficient` and `setCoefficientByKey` calls on a
store, every key a call of the sequence returned or wrote has
`hasCoefficientWithKey`, and `getCoefficientByKey` returns the coefficient most recently
written to its slot; a key the store held before and that the sequence did not write
keeps its coefficient; and `insertCoefficient` at one time leaves the entries at all
other times (time, key and coefficient) as they are. -/
theorem keys_stay_resolvable (m : LocalSupport2CoefficientManager C) (g : KeyGenerator)
    (hr : Reachable m g) (calls : List (StoreCall C))
    (m1 : LocalSupport2CoefficientManager C) (g1 : KeyGenerator) (log : List (Key × C))
    (h : runCalls m g calls = .ok (m1, g1, log)) :
    (∀ w ∈ log, m1.hasCoefficientWithKey w.1 = true ∧
      ∃ c, lastWritten log w.1 = some c ∧ m1.getCoefficientByKey w.1 = .ok c) ∧
    (∀ k, m.hasCoefficientWithKey k = true → lastWritten log k = none →
      m1.hasCoefficientWithKey k = true ∧ m1.getCoefficientByKey k = m.getCoefficientByKey k) ∧
    (∀ t c, ∃ key m2 g2, m.insertCoefficient t c g = .ok (key, m2, g2) ∧
      ∀ e : Time × KeyCoefficient C, e.1 ≠ t →
        (e ∈ m2.timeToCoefficient_ ↔ e ∈ m.timeToCoefficient_)) := by
  obtain ⟨hwf, hi⟩ := reachable_wellFormed m g hr
  have hreads := (runCalls_reads calls m hwf g hi m1 g1 log h).2
  refine ⟨?_, ?_, ?_⟩
  · intro w hw
    obtain ⟨c, hc⟩ := lastWritten_of_mem log w hw
    have hget : m1.getCoefficientByKey w.1 = .ok c := by
      rw [hreads w.1, hc]
    exact ⟨hasCoefficientWithKey_of_get m1 w.1 c hget, c, hc, hget⟩
  · intro k hk hnone
    have hget : m1.getCoefficientByKey k = m.getCoefficientByKey k := by
      rw [hreads k, hnone]
    obtain ⟨c, hc⟩ := getCoefficientByKey_of_has m hwf k hk
    exact ⟨hasCoefficientWithKey_of_get m1 k c (hget.trans hc), hget⟩
  · intro t c
    obtain ⟨key, m2, g2, hins, _, _, _, hframe⟩ := insertCoefficient_reads m hwf g hi t c
    exact ⟨key, m2, g2, hins, hframe⟩

theorem keys_stay_resolvable_witness :
    Reachable (new : LocalSupport2CoefficientManager Nat) ⟨0⟩ ∧
    runCalls (new : LocalSupport2CoefficientManager Nat) ⟨0⟩
      [StoreCall.insertCoefficient 3 10, StoreCall.insertCoefficient 5 20,
        StoreCall.setCoefficientByKey 1 11, StoreCall.insertCoefficient 3 12] =
      .ok (⟨[(1, 3), (2, 5)], [(3, ⟨1, 12⟩), (5, ⟨2, 20⟩)]⟩, ⟨2⟩,
        [(1, 10), (2, 20), (1, 11), (1, 12)]) ∧
    (∀ w ∈ [((1 : Key), (10 : Nat)), (2, 20), (1, 11), (1, 12)],
      (⟨[(1, 3), (2, 5)], [(3, ⟨1, 12⟩), (5, ⟨2, 20⟩)]⟩ :
        LocalSupport2CoefficientManager Nat).hasCoefficientWithKey w.1 = true ∧
      ∃ c, lastWritten [((1 : Key), (10 : Nat)), (2, 20), (1, 11), (1, 12)] w.1 = some c ∧
        (⟨[(1, 3), (2, 5)], [(3, ⟨1, 12⟩), (5, ⟨2, 20⟩)]⟩ :
          LocalSupport2CoefficientManager Nat).getCoefficientByKey w.1 = .ok c) ∧
    lastWritten [((1 : Key), (10 : Nat)), (2, 20), (1, 11), (1, 12)] 1 = some 12 :=
  ⟨Reachable.new _, rfl,
    (keys_stay_resolvable new ⟨0⟩ (Reachable.new _)
      [StoreCall.insertCoefficient 3 10, StoreCall.insertCoefficient 5 20,
        StoreCall.setCoefficientByKey 1 11, StoreCall.insertCoefficient 3 12]
      ⟨[(1, 3), (2, 5)], [(3, ⟨1, 12⟩), (5, ⟨2, 20⟩)]⟩ ⟨2⟩
      [(1, 10), (2, 20), (1, 11), (1, 12)] rfl).1, rfl⟩

theorem keys_distinct (m : LocalSupport2CoefficientManager C) (hwf : m.WellFormed)
    (e1 e2 : Time × KeyCoefficient C) (h1 : e1 ∈ m.timeToCoefficient_)
    (h2 : e2 ∈ m.timeToCoefficient_) (hne : e1.1 ≠ e2.1) : e1.2.key ≠ e2.2.key := by
  intro hkey
  have f1 := unordered_map.um_find_of_mem _ hwf.unique e1.2.key e1.1 (hwf.i1.2.2 e1 h1)
  have f2 := unordered_map.um_find_of_mem _ hwf.unique e2.2.key e2.1 (hwf.i1.2.2 e2 h2)
  rw [hkey, f2] at f1
  simp only [Option.some.injEq] at f1
  exact hne f1.symm

theorem hasCoefficientAtTime_of_mem (m : LocalSupport2CoefficientManager C) (t : Time)
    (kc : KeyCoefficient C) (h : (t, kc) ∈ m.timeToCoefficient_) :
    m.hasCoefficientAtTime t = true :=
  (hasCoefficientAtTime_iff m t).mpr (List.mem_map.mpr ⟨_, h, rfl⟩)

/-- The key `insertCoefficient` returns: an issued one, and one above every key issued
before when the time is new. -/
theorem insertCoefficient_key (m : LocalSupport2CoefficientManager C) (hwf : m.WellFormed)
    (g : KeyGenerator) (hi : m.Issued g) (t : Time) (c : C) :
    ∃ key m1 g1, m.insertCoefficient t c g = .ok (key, m1, g1) ∧ m1.WellFormed ∧ m1.Issued g1 ∧
      g.key ≤ g1.key ∧ key ≤ g1.key ∧ ((!m.hasCoefficientAtTime t) = true → g.key < key) := by
  rcases mem_or_absent m t with ⟨kc, hkc⟩ | habs
  · refine ⟨_, _, _, insertCoefficient_present m hwf t kc c g hkc,
      wellFormed_setCoefficient m hwf _ c, hi, Nat.le_refl _, hi _ _ (hwf.i1.2.2 _ hkc), ?_⟩
    intro h
    rw [hasCoefficientAtTime_of_mem m t kc hkc] at h
    simp at h
  · have h := wellFormed_insert_absent m hwf g hi t c habs
    exact ⟨_, _, _, insertCoefficient_absent m t c g habs, h.1, h.2, Nat.le_succ _, Nat.le_refl _,
      fun _ => Nat.lt_succ_self _⟩

end LocalSupport2CoefficientManager

namespace Process
variable {C : Type}

theorem step_invariant (p p1 : Process C) (call : ProcessCall C) (returned : List Returned)
    (hinv : ∀ i, (p.stores i).WellFormed ∧ (p.stores i).Issued p.generator)
    (h : p.step call = .ok (p1, returned)) :
    (∀ i, (p1.stores i).WellFormed ∧ (p1.stores i).Issued p1.generator) ∧
    p.generator.key ≤ p1.generator.key ∧
    (∀ r ∈ returned, r.key ≤ p1.generator.key ∧ (r.created = true → p.generator.key < r.key)) ∧
    returned.length ≤ 1 := by
  cases call with
  | insertCoefficient i t c =>
    obtain ⟨key, m1, g1, hins, hwf1, hi1, hle, hkey, hnew⟩ :=
      LocalSupport2CoefficientManager.insertCoefficient_key (p.stores i) (hinv i).1 p.generator
        (hinv i).2 t c
    simp only [step, hins, Except.ok.injEq, Prod.mk.injEq] at h
    obtain ⟨hp, hret⟩ := h
    subst hp hret
    refine ⟨?_, hle, ?_, by simp⟩
    · intro j
      by_cases hj : j = i
      · subst hj
        simp only [Function.update_same]
        exact ⟨hwf1, hi1⟩
      · simp only [Function.update_noteq hj]
        exact ⟨(hinv j).1, fun k n hmem => Nat.le_trans ((hinv j).2 k n hmem) hle⟩
    · intro r hr
      simp only [List.mem_singleton] at hr
      subst hr
      exact ⟨hkey, hnew⟩
  | setCoefficientByKey i key c =>
    simp only [step] at h
    cases hset : (p.stores i).setCoefficientByKey key c with
    | error err => simp [hset] at h
    | ok m1 =>
      simp only [hset, Except.ok.injEq, Prod.mk.injEq] at h
      obtain ⟨hp, hret⟩ := h
      subst hp hret
      have h2 := LocalSupport2CoefficientManager.wellFormed_setCoefficientByKey (p.stores i) m1
        (hinv i).1 key c hset
      refine ⟨?_, Nat.le_refl _, by simp, by simp⟩
      intro j
      by_cases hj : j = i
      · subst hj
        simp only [Function.update_same]
        refine ⟨h2.1, fun k n hmem => ?_⟩
        rw [h2.2] at hmem
        exact (hinv j).2 k n hmem
      · simp only [Function.update_noteq hj]
        exact hinv j
  | clear i =>
    simp only [step, Except.ok.injEq, Prod.mk.injEq] at h
    obtain ⟨hp, hret⟩ := h
    subst hp hret
    refine ⟨?_, Nat.le_refl _, by simp, by simp⟩
    intro j
    by_cases hj : j = i
    · subst hj
      simp only [Function.update_same]
      exact ⟨LocalSupport2CoefficientManager.wellFormed_new,
        by intro k n hmem; simp [LocalSupport2CoefficientManager.clear] at hmem⟩
    · simp only [Function.update_noteq hj]
      exact hinv j

theorem run_invariant (calls : List (ProcessCall C)) (p p1 : Process C) (log : List Returned)
    (hinv : ∀ i, (p.stores i).WellFormed ∧ (p.stores i).Issued p.generator)
    (h : p.run calls = .ok (p1, log)) :
    (∀ i, (p1.stores i).WellFormed ∧ (p1.stores i).Issued p1.generator) ∧
    p.generator.key ≤ p1.generator.key ∧
    (∀ r ∈ log, r.key ≤ p1.generator.key ∧ (r.created = true → p.generator.key < r.key)) ∧
    log.Pairwise (fun earlier later => later.created = true → earlier.key ≠ later.key) := by
  induction calls generalizing p p1 log with
  | nil =>
    simp only [run, Except.ok.injEq, Prod.mk.injEq] at h
    obtain ⟨hp, hlog⟩ := h
    subst hp hlog
    exact ⟨hinv, Nat.le_refl _, by simp, List.Pairwise.nil⟩
  | cons call rest ih =>
    simp only [run] at h
    cases hstep : p.step call with
    | error err => simp [hstep] at h
    | ok r1 =>
      obtain ⟨p2, returned⟩ := r1
      simp only [hstep] at h
      cases hrun : p2.run rest with
      | error err => simp [hrun] at h
      | ok r2 =>
        obtain ⟨p3, log3⟩ := r2
        simp only [hrun, Except.ok.injEq, Prod.mk.injEq] at h
        obtain ⟨hp, hlog⟩ := h
        subst hp hlog
        obtain ⟨hinv2, hle2, hret, hlen⟩ := step_invariant p p2 call returned hinv hstep
        obtain ⟨hinv3, hle3, hlog3, hpw3⟩ := ih p2 p3 log3 hinv2 hrun
        refine ⟨hinv3, Nat.le_trans hle2 hle3, ?_, ?_⟩
        · intro r hr
          rcases List.mem_append.mp hr with hr | hr
          · exact ⟨Nat.le_trans (hret r hr).1 hle3, (hret r hr).2⟩
          · exact ⟨(hlog3 r hr).1, fun hc => Nat.lt_of_le_of_lt hle2 ((hlog3 r hr).2 hc)⟩
        · rw [List.pairwise_append]
          refine ⟨?_, hpw3, ?_⟩
          · match returned, hlen with
            | [], _ => exact List.Pairwise.nil
            | [r], _ => exact List.pairwise_singleton _ _
          · intro a ha b hb hc heq
            have h1 := (hret a ha).1
            have h2 := (hlog3 b hb).2 hc
            rw [heq] at h1
            exact absurd h2 (Nat.not_lt.mpr h1)

end Process

/-- C8: with the key generator a monotonic counter shared by all stores of the process,
in every sequence of `insertCoefficient`, `setCoefficientByKey` and `clear` calls on any
of the stores, an `insertCoefficient` that creates an entry returns a key different from
the key returned by every earlier `insertCoefficient`, on any store and also after
`clear()`; and within one store entries at distinct times carry distinct keys. -/
theorem keys_never_reused {C : Type} (g0 : KeyGenerator) (calls : List (ProcessCall C))
    (p : Process C) (log : List Returned)
    (h : (Process.start g0 : Process C).run calls = .ok (p, log)) :
    log.Pairwise (fun earlier later => later.created = true → earlier.key ≠ later.key) ∧
    (∀ i e1 e2, e1 ∈ (p.stores i).timeToCoefficient_ → e2 ∈ (p.stores i).timeToCoefficient_ →
      e1.1 ≠ e2.1 → e1.2.key ≠ e2.2.key) := by
  have hinv : ∀ i, ((Process.start g0 : Process C).stores i).WellFormed ∧
      ((Process.start g0 : Process C).stores i).Issued (Process.start g0 : Process C).generator := by
    intro i
    exact ⟨LocalSupport2CoefficientManager.wellFormed_new,
      by intro k n hmem; simp [Process.start, LocalSupport2CoefficientManager.new] at hmem⟩
  obtain ⟨hinv1, _, _, hpw⟩ := Process.run_invariant calls _ p log hinv h
  exact ⟨hpw, fun i e1 e2 h1 h2 hne =>
    LocalSupport2CoefficientManager.keys_distinct _ (hinv1 i).1 e1 e2 h1 h2 hne⟩

theorem keys_never_reused_witness :
    ∃ p : Process Nat, (Process.start ⟨0⟩ : Process Nat).run
        [ProcessCall.insertCoefficient 0 3 10, ProcessCall.insertCoefficient 1 3 20,
          ProcessCall.insertCoefficient 0 3 11, ProcessCall.clear 0,
          ProcessCall.insertCoefficient 0 3 12] =
        .ok (p, [⟨0, 3, 1, true⟩, ⟨1, 3, 2, true⟩, ⟨0, 3, 1, false⟩, ⟨0, 3, 3, true⟩]) ∧
      List.Pairwise (fun earlier later : Returned => later.created = true → earlier.key ≠ later.key)
        [⟨0, 3, 1, true⟩, ⟨1, 3, 2, true⟩, ⟨0, 3, 1, false⟩, ⟨0, 3, 3, true⟩] :=
  ⟨_, rfl, (keys_never_reused ⟨0⟩
    [ProcessCall.insertCoefficient 0 3 10, ProcessCall.insertCoefficient 1 3 20,
      ProcessCall.insertCoefficient 0 3 11, ProcessCall.clear 0,
      ProcessCall.insertCoefficient 0 3 12] _ _ rfl).1⟩

namespace map
variable {C : Type}

theorem ascending_getElem?_le (l : List (Time × KeyCoefficient C))
    (hs : l.Pairwise (fun a b => a.1 < b.1)) (i j : Nat) (a b : Time × KeyCoefficient C)
    (hi : l[i]? = some a) (hj : l[j]? = some b) (hij : i ≤ j) : a.1 ≤ b.1 := by
  rcases Nat.lt_or_ge i j with hlt | hge
  · exact le_of_lt (ascending_getElem? l hs i j a b hi hj hlt)
  · have h : i = j := by omega
    subst h
    rw [hi] at hj
    simp only [Option.some.injEq] at hj
    subst hj
    exact le_refl _

theorem mem_drop_iff (l : List (Time × KeyCoefficient C))
    (hs : l.Pairwise (fun a b => a.1 < b.1)) (i : Nat) (ep : Time × KeyCoefficient C)
    (hi : l[i]? = some ep) (e : Time × KeyCoefficient C) :
    e ∈ l.drop i ↔ e ∈ l ∧ ep.1 ≤ e.1 := by
  constructor
  · intro h
    obtain ⟨j, hj⟩ := List.mem_iff_getElem?.mp h
    rw [List.getElem?_drop] at hj
    exact ⟨List.getElem?_mem hj, ascending_getElem?_le l hs i (i + j) ep e hi hj (by omega)⟩
  · rintro ⟨h, hle⟩
    obtain ⟨j, hj⟩ := List.mem_iff_getElem?.mp h
    have hij := ascending_index_le l hs i j ep e hi hj hle
    apply List.mem_iff_getElem?.mpr
    refine ⟨j - i, ?_⟩
    rw [List.getElem?_drop]
    have : i + (j - i) = j := by omega
    rw [this]
    exact hj

theorem exists_least_ge (l : List (Time × KeyCoefficient C))
    (hs : l.Pairwise (fun a b => a.1 < b.1)) (bound : Time)
    (h : ∃ e ∈ l, bound ≤ e.1) :
    ∃ q ∈ l, bound ≤ q.1 ∧ ∀ e ∈ l, bound ≤ e.1 → q.1 ≤ e.1 := by
  induction l with
  | nil => simp at h
  | cons a rest ih =>
    have hs1 := List.pairwise_cons.mp hs
    by_cases ha : bound ≤ a.1
    · refine ⟨a, List.mem_cons_self _ _, ha, ?_⟩
      intro e he _
      rcases List.mem_cons.mp he with h1 | h1
      · subst h1
        exact le_refl _
      · exact le_of_lt (hs1.1 e h1)
    · obtain ⟨e, he, hb⟩ := h
      have he1 : e ∈ rest := by
        rcases List.mem_cons.mp he with h1 | h1
        · subst h1
          exact absurd hb ha
        · exact h1
      obtain ⟨q, hq, hbq, hleast⟩ := ih hs1.2 ⟨e, he1, hb⟩
      refine ⟨q, List.mem_cons_of_mem _ hq, hbq, ?_⟩
      intro e2 he2 hb2
      rcases List.mem_cons.mp he2 with h1 | h1
      · subst h1
        exact absurd hb2 ha
      · exact hleast e2 h1 hb2

end map

namespace LocalSupport2CoefficientManager
variable {C : Type}

theorem mem_assign_of_absent (out : CoefficientMap C) (k : Key) (c : C)
    (h : ∀ x ∈ out, x.1 ≠ k) (y : Key × C) :
    y ∈ unordered_map.assign out k c ↔ y ∈ out ∨ y = (k, c) := by
  rw [unordered_map.assign_of_find_none out k c ((unordered_map.um_find_eq_none_iff out k).mpr h)]
  simp

/-- The pairs the scan of `getCoefficientsInRange` leaves in the output: those already
there and those of the entries up to the first one whose time is not below `endTime`. -/
theorem mem_rangeLoop (l : List (Time × KeyCoefficient C))
    (hs : l.Pairwise (fun a b => a.1 < b.1)) (hk : l.Pairwise (fun a b => a.2.key ≠ b.2.key))
    (endTime : Time) (out : CoefficientMap C)
    (hout : ∀ e ∈ l, ∀ x ∈ out, x.1 ≠ e.2.key) (k : Key) (c : C) :
    (k, c) ∈ rangeLoop l endTime out ↔
      (k, c) ∈ out ∨ ∃ t, (t, (⟨k, c⟩ : KeyCoefficient C)) ∈ l ∧
        ∀ e ∈ l, e.1 < t → e.1 < endTime := by
  induction l generalizing out with
  | nil => simp [rangeLoop]
  | cons e0 rest ih =>
    obtain ⟨t0, ⟨k0, c0⟩⟩ := e0
    have hs1 := List.pairwise_cons.mp hs
    have hk1 := List.pairwise_cons.mp hk
    have habs : ∀ x ∈ out, x.1 ≠ k0 := fun x hx => hout _ (List.mem_cons_self _ _) x hx
    simp only [rangeLoop]
    by_cases hlt : t0 < endTime
    · simp only [hlt, if_true]
      rw [ih hs1.2 hk1.2]
      · rw [mem_assign_of_absent out k0 c0 habs]
        constructor
        · rintro ((h1 | h1) | ⟨t, hmem, hcond⟩)
          · exact Or.inl h1
          · simp only [Prod.mk.injEq] at h1
            obtain ⟨h2, h3⟩ := h1
            subst h2 h3
            refine Or.inr ⟨t0, List.mem_cons_self _ _, ?_⟩
            intro e he hlt2
            rcases List.mem_cons.mp he with h4 | h4
            · subst h4
              exact absurd hlt2 (lt_irrefl _)
            · exact absurd hlt2 (not_lt.mpr (le_of_lt (hs1.1 e h4)))
          · refine Or.inr ⟨t, List.mem_cons_of_mem _ hmem, ?_⟩
            intro e he hlt2
            rcases List.mem_cons.mp he with h4 | h4
            · subst h4
              exact hlt
            · exact hcond e h4 hlt2
        · rintro (h1 | ⟨t, hmem, hcond⟩)
          · exact Or.inl (Or.inl h1)
          · rcases List.mem_cons.mp hmem with h4 | h4
            · simp only [Prod.mk.injEq, KeyCoefficient.mk.injEq] at h4
              obtain ⟨_, h5, h6⟩ := h4
              subst h5 h6
              exact Or.inl (Or.inr rfl)
            · exact Or.inr ⟨t, h4, fun e he => hcond e (List.mem_cons_of_mem _ he)⟩
      · intro e he x hx
        rcases (mem_assign_of_absent out k0 c0 habs x).mp hx with h1 | h1
        · exact hout e (List.mem_cons_of_mem _ he) x h1
        · subst h1
          exact hk1.1 e he
    · simp only [hlt, if_false]
      rw [mem_assign_of_absent out k0 c0 habs]
      constructor
      · rintro (h1 | h1)
        · exact Or.inl h1
        · simp only [Prod.mk.injEq] at h1
          obtain ⟨h2, h3⟩ := h1
          subst h2 h3
          refine Or.inr ⟨t0, List.mem_cons_self _ _, ?_⟩
          intro e he hlt2
          rcases List.mem_cons.mp he with h4 | h4
          · subst h4
            exact absurd hlt2 (lt_irrefl _)
          · exact absurd hlt2 (not_lt.mpr (le_of_lt (hs1.1 e h4)))
      · rintro (h1 | ⟨t, hmem, hcond⟩)
        · exact Or.inl h1
        · rcases List.mem_cons.mp hmem with h4 | h4
          · simp only [Prod.mk.injEq, KeyCoefficient.mk.injEq] at h4
            obtain ⟨_, h5, h6⟩ := h4
            subst h5 h6
            exact Or.inr rfl
          · have h5 := hs1.1 _ h4
            exact absurd (hcond (t0, ⟨k0, c0⟩) (List.mem_cons_self _ _) h5) hlt

theorem clamp_start (s a : Time) : (if s < a then a else s) = max s a := by
  by_cases h : s < a
  · simp only [h, if_true]
    exact (max_eq_right (le_of_lt h)).symm
  · simp only [h, if_false]
    exact (max_eq_left (not_lt.mp h)).symm

theorem clamp_end (e b : Time) : (if e > b then b else e) = min e b := by
  by_cases h : e > b
  · simp only [h, if_true]
    exact (min_eq_right (le_of_lt h)).symm
  · simp only [h, if_false]
    exact (min_eq_left (not_lt.mp h)).symm

theorem keys_pairwise (m : LocalSupport2CoefficientManager C) (hwf : m.WellFormed) :
    m.timeToCoefficient_.Pairwise (fun a b => a.2.key ≠ b.2.key) :=
  List.Pairwise.imp_of_mem
    (fun ha hb hlt => keys_distinct m hwf _ _ ha hb (ne_of_lt hlt)) hwf.ascending

/-- What `getCoefficientsInRange` returns on an interval that overlaps the stored range:
`p` is the entry with the greatest time not above the clamped start, `q` the entry with
the least time not below the clamped end. -/
theorem getCoefficientsInRange_overlap (m : LocalSupport2CoefficientManager C)
    (hwf : m.WellFormed) (hne : m.timeToCoefficient_ ≠ []) (startTime endTime : Time)
    (h1 : startTime ≤ endTime) (h2 : startTime ≤ m.getMaxTime) (h3 : m.getMinTime ≤ endTime) :
    ∃ p q out, p ∈ m.timeToCoefficient_ ∧ p.1 ≤ max startTime m.getMinTime ∧
      (∀ x ∈ m.timeToCoefficient_, x.1 ≤ max startTime m.getMinTime → x.1 ≤ p.1) ∧
      q ∈ m.timeToCoefficient_ ∧ min endTime m.getMaxTime ≤ q.1 ∧
      (∀ x ∈ m.timeToCoefficient_, min endTime m.getMaxTime ≤ x.1 → q.1 ≤ x.1) ∧
      m.getCoefficientsInRange startTime endTime [] = .ok out ∧
      ∀ k c, (k, c) ∈ out ↔
        ∃ t, (t, (⟨k, c⟩ : KeyCoefficient C)) ∈ m.timeToCoefficient_ ∧ p.1 ≤ t ∧ t ≤ q.1 := by
  have hs := hwf.ascending
  have hlen : 0 < m.timeToCoefficient_.length := List.length_pos.mpr hne
  obtain ⟨e0, he0⟩ : ∃ e0, m.timeToCoefficient_[0]? = some e0 :=
    ⟨_, List.getElem?_eq_getElem hlen⟩
  obtain ⟨e1, he1⟩ : ∃ e1, m.timeToCoefficient_[m.timeToCoefficient_.length - 1]? = some e1 :=
    ⟨_, List.getElem?_eq_getElem (by omega)⟩
  have hmin := getMinTime_eq m e0 he0
  have hmax := getMaxTime_eq m e1 he1
  have hmm : m.getMinTime ≤ m.getMaxTime := by
    rw [hmin]
    exact le_getMaxTime m hs e0 (List.getElem?_mem he0)
  have hse : max startTime m.getMinTime ≤ min endTime m.getMaxTime :=
    max_le (le_min h1 h2) (le_min h3 hmm)
  have hub0 : 0 < map.upper_bound m.timeToCoefficient_ (max startTime m.getMinTime) := by
    rw [map.lt_upper_bound_iff _ hs _ 0 e0 he0, ← hmin]
    exact le_max_right _ _
  have hle := map.upper_bound_le_length m.timeToCoefficient_ (max startTime m.getMinTime)
  obtain ⟨p, hp⟩ : ∃ p, m.timeToCoefficient_[map.upper_bound m.timeToCoefficient_
      (max startTime m.getMinTime) - 1]? = some p := ⟨_, List.getElem?_eq_getElem (by omega)⟩
  have hpmem : p ∈ m.timeToCoefficient_ := List.getElem?_mem hp
  have hple : p.1 ≤ max startTime m.getMinTime :=
    (map.lt_upper_bound_iff _ hs _ _ p hp).mp (by omega)
  obtain ⟨q, hqmem, hqge, hqleast⟩ := map.exists_least_ge m.timeToCoefficient_ hs
    (min endTime m.getMaxTime) ⟨e1, List.getElem?_mem he1, by rw [← hmax]; exact min_le_right _ _⟩
  have hpq : p.1 ≤ q.1 := le_trans hple (le_trans hse hqge)
  refine ⟨p, q, rangeLoop (m.timeToCoefficient_.drop (map.upper_bound m.timeToCoefficient_
      (max startTime m.getMinTime) - 1)) (min endTime m.getMaxTime) [], hpmem, hple, ?_,
      hqmem, hqge, hqleast, ?_, ?_⟩
  · intro x hx hxle
    obtain ⟨j, hj⟩ := List.mem_iff_getElem?.mp hx
    have hjub := (map.lt_upper_bound_iff _ hs _ j x hj).mpr hxle
    exact map.ascending_getElem?_le _ hs j _ x p hj hp (by omega)
  · have hcond : startTime ≤ endTime ∧ startTime ≤ m.getMaxTime ∧ endTime ≥ m.getMinTime :=
      ⟨h1, h2, h3⟩
    have hne0 : map.upper_bound m.timeToCoefficient_ (max startTime m.getMinTime) ≠ 0 := by omega
    simp only [getCoefficientsInRange, hcond, and_self, if_true, clamp_start, clamp_end, hne0,
      if_false]
  · intro k c
    rw [mem_rangeLoop _ (List.Pairwise.sublist (List.drop_sublist _ _) hs)
      (List.Pairwise.sublist (List.drop_sublist _ _) (keys_pairwise m hwf)) _ []
      (by intro e _ x hx; simp at hx)]
    simp only [List.not_mem_nil, false_or, map.mem_drop_iff _ hs _ p hp]
    constructor
    · rintro ⟨t, ⟨hmem, hpt⟩, hcond⟩
      refine ⟨t, hmem, hpt, ?_⟩
      by_contra hgt
      have := hcond q ⟨hqmem, hpq⟩ (not_le.mp hgt)
      exact absurd hqge (not_le.mpr this)
    · rintro ⟨t, hmem, hpt, htq⟩
      refine ⟨t, ⟨hmem, hpt⟩, ?_⟩
      rintro x ⟨hx, _⟩ hxt
      by_contra hge
      have := hqleast x hx (not_lt.mp hge)
      exact absurd (lt_of_lt_of_le hxt htq) (not_lt.mpr this)

theorem timeToCoefficient_ne_nil (m : LocalSupport2CoefficientManager C) (hwf : m.WellFormed)
    (hne : m.size ≠ 0) : m.timeToCoefficient_ ≠ [] := by
  intro h
  rw [size_eq_length m hwf, h] at hne
  exact hne rfl

/-- C9: on a non-empty store, for `startTime <= endTime` with `startTime <= getMaxTime()`
and `endTime >= getMinTime()`, `getCoefficientsInRange` called with an empty output
mapping returns exactly the (key, coefficient) pairs of the entries whose time `t`
satisfies `p <= t <= q`, where `p` is the greatest stored time not above
`max(startTime, getMinTime())` and `q` the least stored time not below
`min(endTime, getMaxTime())`. -/
theorem getCoefficientsInRange_content (m : LocalSupport2CoefficientManager C)
    (g : KeyGenerator) (hr : Reachable m g) (hne : m.size ≠ 0) (startTime endTime : Time)
    (h1 : startTime ≤ endTime) (h2 : startTime ≤ m.getMaxTime) (h3 : m.getMinTime ≤ endTime) :
    ∃ p q out,
      (p ∈ m.getTimes ∧ p ≤ max startTime m.getMinTime ∧
        ∀ t ∈ m.getTimes, t ≤ max startTime m.getMinTime → t ≤ p) ∧
      (q ∈ m.getTimes ∧ min endTime m.getMaxTime ≤ q ∧
        ∀ t ∈ m.getTimes, min endTime m.getMaxTime ≤ t → q ≤ t) ∧
      m.getCoefficientsInRange startTime endTime [] = .ok out ∧
      ∀ k c, (k, c) ∈ out ↔
        ∃ t, (t, (⟨k, c⟩ : KeyCoefficient C)) ∈ m.timeToCoefficient_ ∧ p ≤ t ∧ t ≤ q := by
  have hwf := (reachable_wellFormed m g hr).1
  obtain ⟨p, q, out, hp, hple, hpmax, hq, hqge, hqmin, hout, hmem⟩ :=
    getCoefficientsInRange_overlap m hwf (timeToCoefficient_ne_nil m hwf hne) startTime endTime
      h1 h2 h3
  refine ⟨p.1, q.1, out, ⟨List.mem_map.mpr ⟨p, hp, rfl⟩, hple, ?_⟩,
    ⟨List.mem_map.mpr ⟨q, hq, rfl⟩, hqge, ?_⟩, hout, hmem⟩
  · intro t ht
    obtain ⟨x, hx, rfl⟩ := List.mem_map.mp ht
    exact hpmax x hx
  · intro t ht
    obtain ⟨x, hx, rfl⟩ := List.mem_map.mp ht
    exact hqmin x hx

theorem getCoefficientsInRange_content_witness :
    Reachable store0to30 ⟨4⟩ ∧
    store0to30.getCoefficientsInRange 5 25 [] = .ok [(1, 100), (2, 110), (3, 120), (4, 130)] ∧
    store0to30.getCoefficientsInRange 0 20 [] = .ok [(1, 100), (2, 110), (3, 120)] ∧
    ∃ p q out,
      (p ∈ store0to30.getTimes ∧ p ≤ max 5 store0to30.getMinTime ∧
        ∀ t ∈ store0to30.getTimes, t ≤ max 5 store0to30.getMinTime → t ≤ p) ∧
      (q ∈ store0to30.getTimes ∧ min 25 store0to30.getMaxTime ≤ q ∧
        ∀ t ∈ store0to30.getTimes, min 25 store0to30.getMaxTime ≤ t → q ≤ t) ∧
      store0to30.getCoefficientsInRange 5 25 [] = .ok out ∧
      ∀ k c, (k, c) ∈ out ↔
        ∃ t, (t, (⟨k, c⟩ : KeyCoefficient Nat)) ∈ store0to30.timeToCoefficient_ ∧ p ≤ t ∧ t ≤ q :=
  ⟨reachable_store0to30, rfl, rfl,
    getCoefficientsInRange_content store0to30 ⟨4⟩ reachable_store0to30 (by decide) 5 25
      (by decide) (by decide) (by decide)⟩

/-- C10: on a non-empty store `getCoefficientsInRange(startTime, endTime)` returns, and
leaves an empty output mapping empty exactly when `startTime > endTime`, or
`startTime > getMaxTime()`, or `endTime < getMinTime()`. -/
theorem getCoefficientsInRange_empty_iff (m : LocalSupport2CoefficientManager C)
    (g : KeyGenerator) (hr : Reachable m g) (hne : m.size ≠ 0) (startTime endTime : Time) :
    ∃ out, m.getCoefficientsInRange startTime endTime [] = .ok out ∧
      (out = [] ↔ (startTime > endTime ∨ startTime > m.getMaxTime ∨ endTime < m.getMinTime)) := by
  have hwf := (reachable_wellFormed m g hr).1
  by_cases hcond : startTime ≤ endTime ∧ startTime ≤ m.getMaxTime ∧ endTime ≥ m.getMinTime
  · obtain ⟨h1, h2, h3⟩ := hcond
    obtain ⟨p, q, out, hp, hple, _, hq, hqge, _, hout, hmem⟩ :=
      getCoefficientsInRange_overlap m hwf (timeToCoefficient_ne_nil m hwf hne) startTime endTime
        h1 h2 h3
    refine ⟨out, hout, ?_⟩
    have hmm : max startTime m.getMinTime ≤ min endTime m.getMaxTime :=
      max_le (le_min h1 h2) (le_min h3 (le_trans (getMinTime_le m hwf.ascending p hp)
        (le_getMaxTime m hwf.ascending p hp)))
    have hin : (p.2.key, p.2.coefficient) ∈ out :=
      (hmem p.2.key p.2.coefficient).mpr ⟨p.1, hp, le_refl _, le_trans hple (le_trans hmm hqge)⟩
    constructor
    · intro hnil
      rw [hnil] at hin
      simp at hin
    · rintro (h | h | h)
      · exact absurd h1 (not_le.mpr h)
      · exact absurd h2 (not_le.mpr h)
      · exact absurd h3 (not_le.mpr h)
  · refine ⟨[], ?_, ?_⟩
    · simp only [getCoefficientsInRange, hcond, if_false]
    · simp only [true_iff]
      by_contra hno
      apply hcond
      simp only [not_or, not_lt, gt_iff_lt] at hno
      exact ⟨hno.1, hno.2.1, hno.2.2⟩

theorem getCoefficientsInRange_empty_iff_witness :
    Reachable store0to30 ⟨4⟩ ∧ store0to30.size ≠ 0 ∧
    store0to30.getCoefficientsInRange 25 5 [] = .ok [] ∧
    store0to30.getCoefficientsInRange 31 40 [] = .ok [] ∧
    store0to30.getCoefficientsInRange (-5) (-1) [] = .ok [] ∧
    store0to30.getCoefficientsInRange 30 40 [] = .ok [(4, 130)] ∧
    ∃ out, store0to30.getCoefficientsInRange 31 40 [] = .ok out ∧
      (out = [] ↔ ((31 : Time) > 40 ∨ 31 > store0to30.getMaxTime ∨ 40 < store0to30.getMinTime)) :=
  ⟨reachable_store0to30, by decide, rfl, rfl, rfl, rfl,
    getCoefficientsInRange_empty_iff store0to30 ⟨4⟩ reachable_store0to30 (by decide) 31 40⟩

end LocalSupport2CoefficientManager

/-! ## Entries of the store after an insertion -/

namespace LocalSupport2CoefficientManager
variable {C : Type}

/-- The entries of the time index after `insertCoefficient(t, c)`: the entry at `t` with
the returned key and `c`, and the former entries at all other times. -/
theorem insertCoefficient_entries (m : LocalSupport2CoefficientManager C) (hwf : m.WellFormed)
    (g : KeyGenerator) (hi : m.Issued g) (t : Time) (c : C) :
    ∃ key m1 g1, m.insertCoefficient t c g = .ok (key, m1, g1) ∧ m1.WellFormed ∧ m1.Issued g1 ∧
      g.key ≤ g1.key ∧
      ∀ e : Time × KeyCoefficient C,
        e ∈ m1.timeToCoefficient_ ↔ e = (t, ⟨key, c⟩) ∨ (e ∈ m.timeToCoefficient_ ∧ e.1 ≠ t) := by
  rcases mem_or_absent m t with ⟨kc, hkc⟩ | habs
  · exact ⟨_, _, _, insertCoefficient_present m hwf t kc c g hkc,
      wellFormed_setCoefficient m hwf _ c, hi, Nat.le_refl _,
      fun e => map.mem_setCoefficient_find _ hwf.ascending t kc c hkc e⟩
  · have h := wellFormed_insert_absent m hwf g hi t c habs
    have habs1 : ∀ e ∈ m.timeToCoefficient_,
        e.1 ≠ ((t, ⟨g.key + 1, c⟩) : Time × KeyCoefficient C).1 := habs
    refine ⟨_, _, _, insertCoefficient_absent m t c g habs, h.1, h.2, Nat.le_succ _, ?_⟩
    intro e
    rw [map.mem_insert _ _ habs1 e]
    constructor
    · rintro (h1 | h1)
      · exact Or.inl h1
      · exact Or.inr ⟨h1, habs e h1⟩
    · rintro (h1 | h1)
      · exact Or.inl h1
      · exact Or.inr h1.1

theorem issued_mono (m : LocalSupport2CoefficientManager C) (g g1 : KeyGenerator)
    (hi : m.Issued g) (hle : g.key ≤ g1.key) : m.Issued g1 :=
  fun k n hmem => Nat.le_trans (hi k n hmem) hle

/-- The entries of the time index after a sequence of `insertCoefficient` calls. -/
theorem insertLoop_entries (calls : List (Time × C)) (m : LocalSupport2CoefficientManager C)
    (hwf : m.WellFormed) (g : KeyGenerator) (hi : m.Issued g) (outKeys : Option (List Key)) :
    ∃ m1 g1 keys, insertLoop m g calls outKeys = .ok (m1, g1, keys) ∧ m1.WellFormed ∧
      m1.Issued g1 ∧ g.key ≤ g1.key ∧
      (∀ e ∈ m1.timeToCoefficient_, (e.1, e.2.coefficient) ∈ calls ∨
        (e ∈ m.timeToCoefficient_ ∧ e.1 ∉ calls.map (fun p => p.1))) ∧
      (∀ e ∈ m.timeToCoefficient_, e.1 ∉ calls.map (fun p => p.1) → e ∈ m1.timeToCoefficient_) ∧
      (∀ t ∈ calls.map (fun p => p.1), t ∈ m1.getTimes) ∧
      (∀ pre t v post, calls = pre ++ (t, v) :: post → t ∉ post.map (fun p => p.1) →
        ∃ k, (t, (⟨k, v⟩ : KeyCoefficient C)) ∈ m1.timeToCoefficient_) := by
  induction calls generalizing m g outKeys with
  | nil =>
    refine ⟨m, g, outKeys, rfl, hwf, hi, Nat.le_refl _, ?_, ?_, ?_, ?_⟩
    · intro e he
      exact Or.inr ⟨he, by simp⟩
    · intro e he _
      exact he
    · intro t ht
      simp at ht
    · intro pre t v post h
      simp at h
  | cons call rest ih =>
    obtain ⟨t0, v0⟩ := call
    obtain ⟨key, m1, g1, h1, hwf1, hi1, hle1, hent⟩ := insertCoefficient_entries m hwf g hi t0 v0
    obtain ⟨m2, g2, keys, h2, hwf2, hi2, hle2, hP, hF, hT, hL⟩ :=
      ih m1 hwf1 g1 hi1 (outKeys.map (fun ks => ks ++ [key]))
    have hhead : t0 ∉ rest.map (fun p => p.1) → (t0, (⟨key, v0⟩ : KeyCoefficient C)) ∈
        m2.timeToCoefficient_ := fun hnot => hF _ ((hent _).mpr (Or.inl rfl)) hnot
    refine ⟨m2, g2, keys, ?_, hwf2, hi2, Nat.le_trans hle1 hle2, ?_, ?_, ?_, ?_⟩
    · simp only [insertLoop, h1, h2]
    · intro e he
      rcases hP e he with h3 | ⟨h3, h4⟩
      · exact Or.inl (List.mem_cons_of_mem _ h3)
      · rcases (hent e).mp h3 with h5 | ⟨h5, h6⟩
        · subst h5
          exact Or.inl (List.mem_cons_self _ _)
        · refine Or.inr ⟨h5, ?_⟩
          simp only [List.map_cons, List.mem_cons, not_or]
          exact ⟨h6, h4⟩
    · intro e he hnot
      simp only [List.map_cons, List.mem_cons, not_or] at hnot
      exact hF e ((hent e).mpr (Or.inr ⟨he, hnot.1⟩)) hnot.2
    · intro t ht
      by_cases hrest : t ∈ rest.map (fun p => p.1)
      · exact hT t hrest
      · simp only [List.map_cons, List.mem_cons] at ht
        rcases ht with ht | ht
        · subst ht
          exact List.mem_map.mpr ⟨_, hhead hrest, rfl⟩
        · exact absurd ht hrest
    · intro pre t v post hcalls hnot
      cases pre with
      | nil =>
        simp only [List.nil_append, List.cons.injEq, Prod.mk.injEq] at hcalls
        obtain ⟨⟨ht, hv⟩, hpost⟩ := hcalls
        subst ht hv hpost
        exact ⟨key, hhead hnot⟩
      | cons a pre1 =>
        simp only [List.cons_append, List.cons.injEq] at hcalls
        exact hL pre1 t v post hcalls.2 hnot

theorem mem_getTimes_iff (m : LocalSupport2CoefficientManager C) (t : Time) :
    t ∈ m.getTimes ↔ ∃ kc, (t, kc) ∈ m.timeToCoefficient_ := by
  simp only [getTimes, List.mem_map]
  constructor
  · rintro ⟨e, he, rfl⟩
    exact ⟨e.2, he⟩
  · rintro ⟨kc, h⟩
    exact ⟨_, h, rfl⟩

/-- What a successful `insertCoefficients` leaves: see `insertLoop_entries`; the lengths
of the inputs were equal. -/
theorem insertCoefficients_ok (m m1 : LocalSupport2CoefficientManager C) (hwf : m.WellFormed)
    (g g1 : KeyGenerator) (hi : m.Issued g) (times : List Time) (values : List C)
    (outKeys keys : Option (List Key))
    (h : m.insertCoefficients times values outKeys g = .ok (m1, g1, keys)) :
    times.length = values.length ∧ m1.WellFormed ∧ m1.Issued g1 ∧ g.key ≤ g1.key ∧
      (∀ e ∈ m1.timeToCoefficient_, (e.1, e.2.coefficient) ∈ times.zip values ∨
        (e ∈ m.timeToCoefficient_ ∧ e.1 ∉ times)) ∧
      (∀ e ∈ m.timeToCoefficient_, e.1 ∉ times → e ∈ m1.timeToCoefficient_) ∧
      (∀ t, t ∈ m1.getTimes ↔ t ∈ times ∨ t ∈ m.getTimes) ∧
      (∀ pre t v post, times.zip values = pre ++ (t, v) :: post → t ∉ post.map (fun p => p.1) →
        ∃ k, (t, (⟨k, v⟩ : KeyCoefficient C)) ∈ m1.timeToCoefficient_) := by
  unfold insertCoefficients at h
  split at h
  · rename_i hlen
    obtain ⟨m2, g2, keys2, h2, hwf2, hi2, hle2, hP, hF, hT, hL⟩ :=
      insertLoop_entries (times.zip values) m hwf g hi outKeys
    rw [h] at h2
    simp only [Except.ok.injEq, Prod.mk.injEq] at h2
    obtain ⟨hm, hg, _⟩ := h2
    subst hm hg
    have hmap : (times.zip values).map (fun p => p.1) = times := by
      have := List.map_fst_zip times values (le_of_eq hlen)
      simpa using this
    rw [hmap] at hP hF hT
    refine ⟨hlen, hwf2, hi2, hle2, hP, hF, ?_, hL⟩
    intro t
    constructor
    · intro ht
      obtain ⟨kc, hkc⟩ := (mem_getTimes_iff m1 t).mp ht
      rcases hP _ hkc with h3 | ⟨h3, _⟩
      · exact Or.inl (List.of_mem_zip h3).1
      · exact Or.inr ((mem_getTimes_iff m t).mpr ⟨kc, h3⟩)
    · rintro (ht | ht)
      · exact hT t ht
      · by_cases hin : t ∈ times
        · exact hT t hin
        · obtain ⟨kc, hkc⟩ := (mem_getTimes_iff m t).mp ht
          exact (mem_getTimes_iff m1 t).mpr ⟨kc, hF _ hkc hin⟩
  · simp at h

/-- On a well-formed store `insertCoefficients` with inputs of equal length returns. -/
theorem insertCoefficients_returns (m : LocalSupport2CoefficientManager C) (hwf : m.WellFormed)
    (g : KeyGenerator) (hi : m.Issued g) (times : List Time) (values : List C)
    (outKeys : Option (List Key)) (hlen : times.length = values.length) :
    ∃ m1 g1 keys, m.insertCoefficients times values outKeys g = .ok (m1, g1, keys) := by
  obtain ⟨m2, g2, keys2, h2, _⟩ := insertLoop_entries (times.zip values) m hwf g hi outKeys
  exact ⟨m2, g2, keys2, by simp only [insertCoefficients, hlen, if_true, h2]⟩

end LocalSupport2CoefficientManager

/-! ## Removal, and the limits of the store -/

namespace map
variable {C : Type}

theorem mem_erase_iff (l : List (Time × KeyCoefficient C))
    (hs : l.Pairwise (fun a b => a.1 < b.1)) (t : Time) (e : Time × KeyCoefficient C) :
    e ∈ erase l t ↔ e ∈ l ∧ e.1 ≠ t := by
  induction l with
  | nil => simp [erase]
  | cons e0 rest ih =>
    obtain ⟨t0, kc0⟩ := e0
    have hs1 := List.pairwise_cons.mp hs
    simp only [erase]
    by_cases h0 : t0 = t
    · subst h0
      simp only [if_true, List.mem_cons]
      constructor
      · intro h
        exact ⟨Or.inr h, ne_of_gt (hs1.1 e h)⟩
      · rintro ⟨h | h, hne⟩
        · subst h
          exact absurd rfl hne
        · exact h
    · simp only [h0, if_false, List.mem_cons, ih hs1.2]
      constructor
      · rintro (h | ⟨h, hne⟩)
        · subst h
          exact ⟨Or.inl rfl, h0⟩
        · exact ⟨Or.inr h, hne⟩
      · rintro ⟨h | h, hne⟩
        · exact Or.inl h
        · exact Or.inr ⟨h, hne⟩

theorem erase_sublist (l : List (Time × KeyCoefficient C)) (t : Time) :
    (erase l t).Sublist l := by
  induction l with
  | nil => simp [erase]
  | cons e0 rest ih =>
    obtain ⟨t0, kc0⟩ := e0
    simp only [erase]
    split
    · exact List.sublist_cons_self _ _
    · exact List.Sublist.cons₂ _ ih

theorem length_erase (l : List (Time × KeyCoefficient C)) (t : Time)
    (h : ∃ e ∈ l, e.1 = t) : (erase l t).length + 1 = l.length := by
  induction l with
  | nil => simp at h
  | cons e0 rest ih =>
    obtain ⟨t0, kc0⟩ := e0
    simp only [erase]
    by_cases h0 : t0 = t
    · simp [h0]
    · simp only [h0, if_false, List.length_cons, Nat.add_right_cancel_iff]
      apply ih
      obtain ⟨e, he, heq⟩ := h
      rcases List.mem_cons.mp he with h1 | h1
      · subst h1
        exact absurd heq h0
      · exact ⟨e, h1, heq⟩

end map

namespace unordered_map
variable {V : Type}

theorem um_mem_erase_iff (l : List (Key × V)) (hn : (l.map (fun e => e.1)).Nodup) (k : Key)
    (x : Key × V) : x ∈ erase l k ↔ x ∈ l ∧ x.1 ≠ k := by
  induction l with
  | nil => simp [erase]
  | cons e0 rest ih =>
    obtain ⟨k0, v0⟩ := e0
    simp only [List.map_cons, List.nodup_cons] at hn
    simp only [erase]
    by_cases h0 : k0 = k
    · subst h0
      simp only [if_true, List.mem_cons]
      constructor
      · intro h
        refine ⟨Or.inr h, ?_⟩
        intro heq
        exact hn.1 (List.mem_map.mpr ⟨x, h, heq⟩)
      · rintro ⟨h | h, hne⟩
        · subst h
          exact absurd rfl hne
        · exact h
    · simp only [h0, if_false, List.mem_cons, ih hn.2]
      constructor
      · rintro (h | ⟨h, hne⟩)
        · subst h
          exact ⟨Or.inl rfl, h0⟩
        · exact ⟨Or.inr h, hne⟩
      · rintro ⟨h | h, hne⟩
        · exact Or.inl h
        · exact Or.inr ⟨h, hne⟩

theorem um_erase_sublist (l : List (Key × V)) (k : Key) : (erase l k).Sublist l := by
  induction l with
  | nil => simp [erase]
  | cons e0 rest ih =>
    obtain ⟨k0, v0⟩ := e0
    simp only [erase]
    split
    · exact List.sublist_cons_self _ _
    · exact List.Sublist.cons₂ _ ih

theorem um_length_erase (l : List (Key × V)) (k : Key) (h : ∃ e ∈ l, e.1 = k) :
    (erase l k).length + 1 = l.length := by
  induction l with
  | nil => simp at h
  | cons e0 rest ih =>
    obtain ⟨k0, v0⟩ := e0
    simp only [erase]
    by_cases h0 : k0 = k
    · simp [h0]
    · simp only [h0, if_false, List.length_cons, Nat.add_right_cancel_iff]
      apply ih
      obtain ⟨e, he, heq⟩ := h
      rcases List.mem_cons.mp he with h1 | h1
      · subst h1
        exact absurd heq h0
      · exact ⟨e, h1, heq⟩

end unordered_map

namespace LocalSupport2CoefficientManager
variable {C : Type}

/-- Removal at a stored time returns, keeps the store well-formed, and removes exactly the
entry at that time. -/
theorem removeCoefficientAtTime_present (m : LocalSupport2CoefficientManager C)
    (hwf : m.WellFormed) (t : Time) (kc : KeyCoefficient C)
    (h : (t, kc) ∈ m.timeToCoefficient_) :
    ∃ m1, m.removeCoefficientAtTime t = .ok m1 ∧ m1.WellFormed ∧
      (∀ k n, (k, n) ∈ m1.keyToCoefficient_ → (k, n) ∈ m.keyToCoefficient_) ∧
      ∀ e, e ∈ m1.timeToCoefficient_ ↔ e ∈ m.timeToCoefficient_ ∧ e.1 ≠ t := by
  have hget := map.getElem?_find_of_mem _ hwf.ascending t kc h
  have hkey := hwf.i1.2.2 _ h
  refine ⟨⟨unordered_map.erase m.keyToCoefficient_ kc.key, map.erase m.timeToCoefficient_ t⟩,
    by simp only [removeCoefficientAtTime, hget], ⟨?_, ?_, ?_, ?_, ?_⟩, ?_, ?_⟩
  · exact List.Pairwise.sublist (map.erase_sublist _ _) hwf.ascending
  · exact List.Nodup.sublist ((unordered_map.um_erase_sublist _ _).map _) hwf.unique
  · have h1 := map.length_erase m.timeToCoefficient_ t ⟨_, h, rfl⟩
    have h2 := unordered_map.um_length_erase m.keyToCoefficient_ kc.key ⟨_, hkey, rfl⟩
    have h3 := hwf.i1.1
    show (unordered_map.erase m.keyToCoefficient_ kc.key).length =
      (map.erase m.timeToCoefficient_ t).length
    omega
  · intro key node hmem
    obtain ⟨h1, h2⟩ := (unordered_map.um_mem_erase_iff _ hwf.unique _ _).mp hmem
    obtain ⟨c, hc⟩ := hwf.i1.2.1 key node h1
    refine ⟨c, (map.mem_erase_iff _ hwf.ascending t _).mpr ⟨hc, ?_⟩⟩
    intro heq
    simp only at heq
    subst heq
    have := map.entry_unique _ hwf.ascending node _ _ h hc
    exact h2 (by rw [this])
  · intro e he
    obtain ⟨h1, h2⟩ := (map.mem_erase_iff _ hwf.ascending t e).mp he
    refine (unordered_map.um_mem_erase_iff _ hwf.unique _ _).mpr ⟨hwf.i1.2.2 e h1, ?_⟩
    exact keys_distinct m hwf e (t, kc) h1 h h2
  · intro k n hmem
    exact ((unordered_map.um_mem_erase_iff _ hwf.unique _ _).mp hmem).1
  · intro e
    exact map.mem_erase_iff _ hwf.ascending t e

theorem getMinTime_mem (m : LocalSupport2CoefficientManager C)
    (hne : m.timeToCoefficient_ ≠ []) : m.getMinTime ∈ m.getTimes := by
  have hlen : 0 < m.timeToCoefficient_.length := List.length_pos.mpr hne
  obtain ⟨e0, he0⟩ : ∃ e0, m.timeToCoefficient_[0]? = some e0 :=
    ⟨_, List.getElem?_eq_getElem hlen⟩
  rw [getMinTime_eq m e0 he0]
  exact List.mem_map.mpr ⟨e0, List.getElem?_mem he0, rfl⟩

theorem getMaxTime_mem (m : LocalSupport2CoefficientManager C)
    (hne : m.timeToCoefficient_ ≠ []) : m.getMaxTime ∈ m.getTimes := by
  have hlen : 0 < m.timeToCoefficient_.length := List.length_pos.mpr hne
  obtain ⟨e1, he1⟩ : ∃ e1, m.timeToCoefficient_[m.timeToCoefficient_.length - 1]? = some e1 :=
    ⟨_, List.getElem?_eq_getElem (by omega)⟩
  rw [getMaxTime_eq m e1 he1]
  exact List.mem_map.mpr ⟨e1, List.getElem?_mem he1, rfl⟩

theorem getMinTime_le_of_mem (m : LocalSupport2CoefficientManager C) (hs : m.TimesAscending)
    (t : Time) (ht : t ∈ m.getTimes) : m.getMinTime ≤ t := by
  obtain ⟨e, he, rfl⟩ := List.mem_map.mp ht
  exact getMinTime_le m hs e he

theorem le_getMaxTime_of_mem (m : LocalSupport2CoefficientManager C) (hs : m.TimesAscending)
    (t : Time) (ht : t ∈ m.getTimes) : t ≤ m.getMaxTime := by
  obtain ⟨e, he, rfl⟩ := List.mem_map.mp ht
  exact le_getMaxTime m hs e he

theorem getTimes_ne_nil_iff (m : LocalSupport2CoefficientManager C) :
    m.getTimes ≠ [] ↔ m.timeToCoefficient_ ≠ [] := by
  simp [getTimes]

theorem ne_nil_of_mem_getTimes (m : LocalSupport2CoefficientManager C) (t : Time)
    (ht : t ∈ m.getTimes) : m.timeToCoefficient_ ≠ [] := by
  intro h
  simp [getTimes, h] at ht

/-- Two stores with the same time sequence have the same limits. -/
theorem limits_congr (m1 m2 : LocalSupport2CoefficientManager C)
    (h : m1.getTimes = m2.getTimes) :
    m1.getMinTime = m2.getMinTime ∧ m1.getMaxTime = m2.getMaxTime := by
  unfold getTimes at h
  constructor
  · unfold getMinTime
    cases h1 : m1.timeToCoefficient_ with
    | nil =>
      cases h2 : m2.timeToCoefficient_ with
      | nil => rfl
      | cons e2 r2 => simp [h1, h2] at h
    | cons e1 r1 =>
      cases h2 : m2.timeToCoefficient_ with
      | nil => simp [h1, h2] at h
      | cons e2 r2 =>
        simp only [h1, h2, List.map_cons, List.cons.injEq] at h
        exact h.1
  · unfold getMaxTime
    have hl := congrArg List.getLast? h
    simp only [List.getLast?_map] at hl
    cases h1 : m1.timeToCoefficient_.getLast? with
    | none =>
      cases h2 : m2.timeToCoefficient_.getLast? with
      | none => rfl
      | some e2 => simp [h1, h2] at hl
    | some e1 =>
      cases h2 : m2.timeToCoefficient_.getLast? with
      | none => simp [h1, h2] at hl
      | some e2 =>
        simp only [h1, h2, Option.map_some', Option.some.injEq] at hl
        exact hl

/-- Two well-formed stores with the same set of times have the same time sequence. -/
theorem getTimes_eq_of_mem_iff (m1 m2 : LocalSupport2CoefficientManager C)
    (h1 : m1.TimesAscending) (h2 : m2.TimesAscending)
    (h : ∀ t, t ∈ m1.getTimes ↔ t ∈ m2.getTimes) : m1.getTimes = m2.getTimes := by
  have s1 : (m1.getTimes).Sorted (· < ·) := by
    unfold TimesAscending at h1
    rw [map.pairwise_iff_times] at h1
    exact h1
  have s2 : (m2.getTimes).Sorted (· < ·) := by
    unfold TimesAscending at h2
    rw [map.pairwise_iff_times] at h2
    exact h2
  exact List.eq_of_perm_of_sorted
    ((List.perm_ext_iff_of_nodup (getTimes_nodup m1 h1) (getTimes_nodup m2 h2)).mpr h) s1 s2

end LocalSupport2CoefficientManager

/-! ## Single-segment curves -/

namespace Curve
variable {V : Type}

theorem isEmpty_eq_true_iff (cv : Curve V) (hwf : cv.manager_.WellFormed) :
    cv.isEmpty = true ↔ cv.manager_.timeToCoefficient_ = [] := by
  unfold isEmpty
  rw [LocalSupport2CoefficientManager.size_eq_length _ hwf]
  simp

theorem isEmpty_eq_false_iff (cv : Curve V) (hwf : cv.manager_.WellFormed) :
    cv.isEmpty = false ↔ cv.manager_.timeToCoefficient_ ≠ [] := by
  have h := isEmpty_eq_true_iff cv hwf
  constructor
  · intro hf hnil
    rw [h.mpr hnil] at hf
    exact Bool.noConfusion hf
  · intro hne
    cases hb : cv.isEmpty with
    | false => rfl
    | true => exact absurd (h.mp hb) hne

/-- What a successful `extend` of a single-segment curve leaves. -/
theorem extend_ok (cv cv1 : Curve V) (hwf : cv.manager_.WellFormed) (g g1 : KeyGenerator)
    (hi : cv.manager_.Issued g) (times : List Time) (values : List V)
    (outKeys keys : Option (List Key))
    (h : cv.extend times values outKeys g = .ok (cv1, g1, keys)) :
    times.length = values.length ∧ cv1.manager_.WellFormed ∧ cv1.manager_.Issued g1 ∧
      g.key ≤ g1.key ∧
      (∀ e ∈ cv1.manager_.timeToCoefficient_, (e.1, e.2.coefficient) ∈ times.zip values ∨
        (e ∈ cv.manager_.timeToCoefficient_ ∧ e.1 ∉ times)) ∧
      (∀ e ∈ cv.manager_.timeToCoefficient_, e.1 ∉ times → e ∈ cv1.manager_.timeToCoefficient_) ∧
      (∀ t, t ∈ cv1.manager_.getTimes ↔ t ∈ times ∨ t ∈ cv.manager_.getTimes) ∧
      (∀ pre t v post, times.zip values = pre ++ (t, v) :: post → t ∉ post.map (fun p => p.1) →
        ∃ k, (t, (⟨k, v⟩ : KeyCoefficient V)) ∈ cv1.manager_.timeToCoefficient_) := by
  unfold extend at h
  cases hins : cv.manager_.insertCoefficients times values outKeys g with
  | error err => simp [hins] at h
  | ok r =>
    obtain ⟨m1, g2, keys2⟩ := r
    simp only [hins, Except.ok.injEq, Prod.mk.injEq] at h
    obtain ⟨hcv, hg, _⟩ := h
    subst hcv hg
    exact LocalSupport2CoefficientManager.insertCoefficients_ok _ _ hwf _ _ hi _ _ _ _ hins

theorem extend_returns (cv : Curve V) (hwf : cv.manager_.WellFormed) (g : KeyGenerator)
    (hi : cv.manager_.Issued g) (times : List Time) (values : List V)
    (outKeys : Option (List Key)) (hlen : times.length = values.length) :
    ∃ cv1 g1 keys, cv.extend times values outKeys g = .ok (cv1, g1, keys) := by
  obtain ⟨m1, g1, keys, h⟩ :=
    LocalSupport2CoefficientManager.insertCoefficients_returns _ hwf g hi times values outKeys hlen
  exact ⟨⟨m1⟩, g1, keys, by simp only [extend, h]⟩

theorem wellFormed_clear (cv : Curve V) (g : KeyGenerator) :
    cv.clear.manager_.WellFormed ∧ cv.clear.manager_.Issued g ∧
      cv.clear.manager_.timeToCoefficient_ = [] :=
  ⟨LocalSupport2CoefficientManager.wellFormed_new,
    by intro k n hmem; simp [clear, LocalSupport2CoefficientManager.clear] at hmem, rfl⟩

end Curve

/-! ## The composition curve: the steps of `extend` -/

namespace SE3CompositionCurve
variable {V : Type}

theorem seedCorrection_inv [One V] (p p1 : CorrectionPadding V) (newMinTime : Time)
    (h : seedCorrection p newMinTime = .ok p1) :
    (p.correctionCurve_.isEmpty = false ∧ p1 = p) ∨
    (p.correctionCurve_.isEmpty = true ∧ ∃ keys,
      p.correctionCurve_.extend (p.correctionTimes ++ [newMinTime]) (p.correctionValues ++ [1])
        none p.generator = .ok (p1.correctionCurve_, p1.generator, keys) ∧
      p1.correctionTimes = p.correctionTimes ++ [newMinTime] ∧
      p1.correctionValues = p.correctionValues ++ [1]) := by
  unfold seedCorrection at h
  by_cases hemp : p.correctionCurve_.isEmpty = true
  · simp only [hemp, if_true] at h
    cases hext : p.correctionCurve_.extend (p.correctionTimes ++ [newMinTime])
        (p.correctionValues ++ [1]) none p.generator with
    | error err => simp [hext] at h
    | ok r =>
      obtain ⟨cv, g1, keys⟩ := r
      simp only [hext, Except.ok.injEq] at h
      subst h
      exact Or.inr ⟨hemp, keys, rfl, rfl, rfl⟩
  · simp only [hemp, Bool.false_eq_true, if_false, Except.ok.injEq] at h
    exact Or.inl ⟨by simpa using hemp, h.symm⟩

theorem padMax_inv (C1 : CurveClass V) (p p1 : CorrectionPadding V) (newMaxTime : Time)
    (h : padMax C1 p newMaxTime = .ok p1) :
    (¬ p.correctionCurve_.getMaxTime < newMaxTime ∧ p1 = p) ∨
    (p.correctionCurve_.getMaxTime < newMaxTime ∧ ∃ value keys,
      C1.evaluate p.correctionCurve_.manager_ p.correctionCurve_.getMaxTime = .ok value ∧
      p.correctionCurve_.extend (p.correctionTimes ++ [newMaxTime]) (p.correctionValues ++ [value])
        none p.generator = .ok (p1.correctionCurve_, p1.generator, keys) ∧
      p1.correctionTimes = p.correctionTimes ++ [newMaxTime] ∧
      p1.correctionValues = p.correctionValues ++ [value]) := by
  unfold padMax at h
  by_cases hlt : p.correctionCurve_.getMaxTime < newMaxTime
  · simp only [hlt, if_true] at h
    cases hev : C1.evaluate p.correctionCurve_.manager_ p.correctionCurve_.getMaxTime with
    | error err => simp [hev] at h
    | ok value =>
      simp only [hev] at h
      cases hext : p.correctionCurve_.extend (p.correctionTimes ++ [newMaxTime])
          (p.correctionValues ++ [value]) none p.generator with
      | error err => simp [hext] at h
      | ok r =>
        obtain ⟨cv, g1, keys⟩ := r
        simp only [hext, Except.ok.injEq] at h
        subst h
        exact Or.inr ⟨hlt, value, keys, rfl, hext, rfl, rfl⟩
  · simp only [hlt, if_false, Except.ok.injEq] at h
    exact Or.inl ⟨hlt, h.symm⟩

theorem padMin_inv (C1 : CurveClass V) (p p1 : CorrectionPadding V) (newMinTime : Time)
    (h : padMin C1 p newMinTime = .ok p1) :
    (¬ p.correctionCurve_.getMinTime > newMinTime ∧ p1 = p) ∨
    (p.correctionCurve_.getMinTime > newMinTime ∧ ∃ value keys,
      C1.evaluate p.correctionCurve_.manager_ p.correctionCurve_.getMinTime = .ok value ∧
      p.correctionCurve_.extend (p.correctionTimes ++ [newMinTime]) (p.correctionValues ++ [value])
        none p.generator = .ok (p1.correctionCurve_, p1.generator, keys) ∧
      p1.correctionTimes = p.correctionTimes ++ [newMinTime] ∧
      p1.correctionValues = p.correctionValues ++ [value]) := by
  unfold padMin at h
  by_cases hlt : p.correctionCurve_.getMinTime > newMinTime
  · simp only [hlt, if_true] at h
    cases hev : C1.evaluate p.correctionCurve_.manager_ p.correctionCurve_.getMinTime with
    | error err => simp [hev] at h
    | ok value =>
      simp only [hev] at h
      cases hext : p.correctionCurve_.extend (p.correctionTimes ++ [newMinTime])
          (p.correctionValues ++ [value]) none p.generator with
      | error err => simp [hext] at h
      | ok r =>
        obtain ⟨cv, g1, keys⟩ := r
        simp only [hext, Except.ok.injEq] at h
        subst h
        exact Or.inr ⟨hlt, value, keys, rfl, hext, rfl, rfl⟩
  · simp only [hlt, if_false, Except.ok.injEq] at h
    exact Or.inl ⟨hlt, h.symm⟩

/-- The steps a successful `extend` went through. -/
theorem extend_inv [Mul V] [Inv V] [One V] (C1 : CurveClass V) (c c1 : SE3CompositionCurve V)
    (times : List Time) (values : List V) (outKeys keys : Option (List Key))
    (g g1 : KeyGenerator) (h : c.extend C1 times values outKeys g = .ok (c1, g1, keys)) :
    ∃ t v p1 p2 p3 x, times = [t] ∧ values = [v] ∧
      seedCorrection ⟨[], [], c.correctionCurve_, g⟩ (c.newLimits [t]).2 = .ok p1 ∧
      padMax C1 p1 (c.newLimits [t]).1 = .ok p2 ∧
      padMin C1 p2 (c.newLimits [t]).2 = .ok p3 ∧
      C1.evaluate p3.correctionCurve_.manager_ t = .ok x ∧
      c.baseCurve_.extend [t] [x⁻¹ * v] outKeys p3.generator = .ok (c1.baseCurve_, g1, keys) ∧
      c1.correctionCurve_ = p3.correctionCurve_ := by
  unfold extend at h
  by_cases ht : times.length ≠ 1
  · simp [ht] at h
  · by_cases hv : values.length ≠ 1
    · simp [ht, hv] at h
    · simp only [ht, hv, if_false] at h
      obtain ⟨t, rfl⟩ := List.length_eq_one.mp (not_not.mp ht)
      obtain ⟨v, rfl⟩ := List.length_eq_one.mp (not_not.mp hv)
      cases h1 : seedCorrection ⟨[], [], c.correctionCurve_, g⟩ (c.newLimits [t]).2 with
      | error err => simp [h1] at h
      | ok p1 =>
        simp only [h1] at h
        cases h2 : padMax C1 p1 (c.newLimits [t]).1 with
        | error err => simp [h2] at h
        | ok p2 =>
          simp only [h2] at h
          cases h3 : padMin C1 p2 (c.newLimits [t]).2 with
          | error err => simp [h3] at h
          | ok p3 =>
            simp only [h3, baseUpdates] at h
            cases h4 : C1.evaluate p3.correctionCurve_.manager_ t with
            | error err => simp [h4] at h
            | ok x =>
              simp only [h4] at h
              cases h5 : c.baseCurve_.extend [t] [x⁻¹ * v] outKeys p3.generator with
              | error err => simp [h5] at h
              | ok r =>
                obtain ⟨b, g2, keys2⟩ := r
                simp only [h5, Except.ok.injEq, Prod.mk.injEq] at h
                obtain ⟨hc, hg, hk⟩ := h
                subst hc hg hk
                exact ⟨t, v, p1, p2, p3, x, rfl, rfl, h1, h2, h3, h4, h5, rfl⟩

theorem newLimits_single (c : SE3CompositionCurve V) (hwf : c.baseCurve_.manager_.WellFormed)
    (t : Time) :
    c.newLimits [t] = (max c.baseCurve_.getMaxTime t, min c.baseCurve_.getMinTime t) := by
  have hinit : (if c.baseCurve_.isEmpty then ((0 : Time), (0 : Time))
      else (c.baseCurve_.getMaxTime, c.baseCurve_.getMinTime)) =
      (c.baseCurve_.getMaxTime, c.baseCurve_.getMinTime) := by
    by_cases hemp : c.baseCurve_.isEmpty = true
    · have hnil := (Curve.isEmpty_eq_true_iff _ hwf).mp hemp
      simp [hemp, Curve.getMaxTime, Curve.getMinTime, LocalSupport2CoefficientManager.getMaxTime,
        LocalSupport2CoefficientManager.getMinTime, hnil]
    · simp [hemp]
  simp only [newLimits, hinit, List.foldl_cons, List.foldl_nil, Prod.mk.injEq]
  constructor
  · by_cases h : c.baseCurve_.getMaxTime < t
    · simp only [h, if_true]
      exact (max_eq_right (le_of_lt h)).symm
    · simp only [h, if_false]
      exact (max_eq_left (not_lt.mp h)).symm
  · by_cases h : c.baseCurve_.getMinTime > t
    · simp only [h, if_true]
      exact (min_eq_right (le_of_lt h)).symm
    · simp only [h, if_false]
      exact (min_eq_left (not_lt.mp h)).symm

end SE3CompositionCurve

/-! ### What `extend` keeps -/

namespace SE3CompositionCurve
variable {V : Type}

/-- A step on the correction curve in `extend` keeps the store well-formed, keeps every
sample time, and moves the generator forward only. -/
theorem seedCorrection_grow [One V] (p p1 : CorrectionPadding V) (newMinTime : Time)
    (hwf : p.correctionCurve_.manager_.WellFormed)
    (hi : p.correctionCurve_.manager_.Issued p.generator)
    (h : seedCorrection p newMinTime = .ok p1) :
    p1.correctionCurve_.manager_.WellFormed ∧
    p1.correctionCurve_.manager_.Issued p1.generator ∧ p.generator.key ≤ p1.generator.key ∧
    (∀ t ∈ p.correctionCurve_.manager_.getTimes, t ∈ p1.correctionCurve_.manager_.getTimes) ∧
    p1.correctionCurve_.manager_.timeToCoefficient_ ≠ [] := by
  rcases seedCorrection_inv p p1 newMinTime h with ⟨hemp, heq⟩ | ⟨hemp, keys, hext, _, _⟩
  · subst heq
    exact ⟨hwf, hi, Nat.le_refl _, fun t ht => ht, (Curve.isEmpty_eq_false_iff _ hwf).mp hemp⟩
  · obtain ⟨_, hwf1, hi1, hle, _, _, hT, _⟩ := Curve.extend_ok _ _ hwf _ _ hi _ _ _ _ hext
    refine ⟨hwf1, hi1, hle, fun t ht => (hT t).mpr (Or.inr ht), ?_⟩
    exact LocalSupport2CoefficientManager.ne_nil_of_mem_getTimes _ newMinTime
      ((hT newMinTime).mpr (Or.inl (by simp)))

theorem padMax_grow (C1 : CurveClass V) (p p1 : CorrectionPadding V) (newMaxTime : Time)
    (hwf : p.correctionCurve_.manager_.WellFormed)
    (hi : p.correctionCurve_.manager_.Issued p.generator)
    (h : padMax C1 p newMaxTime = .ok p1) :
    p1.correctionCurve_.manager_.WellFormed ∧
    p1.correctionCurve_.manager_.Issued p1.generator ∧ p.generator.key ≤ p1.generator.key ∧
    (∀ t ∈ p.correctionCurve_.manager_.getTimes, t ∈ p1.correctionCurve_.manager_.getTimes) ∧
    newMaxTime ≤ p1.correctionCurve_.getMaxTime := by
  rcases padMax_inv C1 p p1 newMaxTime h with ⟨hnot, heq⟩ | ⟨_, value, keys, _, hext, _, _⟩
  · subst heq
    exact ⟨hwf, hi, Nat.le_refl _, fun t ht => ht, not_lt.mp hnot⟩
  · obtain ⟨_, hwf1, hi1, hle, _, _, hT, _⟩ := Curve.extend_ok _ _ hwf _ _ hi _ _ _ _ hext
    refine ⟨hwf1, hi1, hle, fun t ht => (hT t).mpr (Or.inr ht), ?_⟩
    exact LocalSupport2CoefficientManager.le_getMaxTime_of_mem _ hwf1.ascending newMaxTime
      ((hT newMaxTime).mpr (Or.inl (by simp)))

theorem padMin_grow (C1 : CurveClass V) (p p1 : CorrectionPadding V) (newMinTime : Time)
    (hwf : p.correctionCurve_.manager_.WellFormed)
    (hi : p.correctionCurve_.manager_.Issued p.generator)
    (h : padMin C1 p newMinTime = .ok p1) :
    p1.correctionCurve_.manager_.WellFormed ∧
    p1.correctionCurve_.manager_.Issued p1.generator ∧ p.generator.key ≤ p1.generator.key ∧
    (∀ t ∈ p.correctionCurve_.manager_.getTimes, t ∈ p1.correctionCurve_.manager_.getTimes) ∧
    p1.correctionCurve_.getMinTime ≤ newMinTime := by
  rcases padMin_inv C1 p p1 newMinTime h with ⟨hnot, heq⟩ | ⟨_, value, keys, _, hext, _, _⟩
  · subst heq
    exact ⟨hwf, hi, Nat.le_refl _, fun t ht => ht, not_lt.mp hnot⟩
  · obtain ⟨_, hwf1, hi1, hle, _, _, hT, _⟩ := Curve.extend_ok _ _ hwf _ _ hi _ _ _ _ hext
    refine ⟨hwf1, hi1, hle, fun t ht => (hT t).mpr (Or.inr ht), ?_⟩
    exact LocalSupport2CoefficientManager.getMinTime_le_of_mem _ hwf1.ascending newMinTime
      ((hT newMinTime).mpr (Or.inl (by simp)))

/-- After a successful `extend` both stores are well-formed again and the correction range
covers the base range. -/
theorem extend_valid [Mul V] [Inv V] [One V] (C1 : CurveClass V) (c c1 : SE3CompositionCurve V)
    (times : List Time) (values : List V) (outKeys keys : Option (List Key))
    (g g1 : KeyGenerator) (hv : c.Valid g)
    (h : c.extend C1 times values outKeys g = .ok (c1, g1, keys)) :
    c1.Valid g1 ∧ c1.Covers ∧ g.key ≤ g1.key := by
  obtain ⟨t, v, p1, p2, p3, x, rfl, rfl, h1, h2, h3, _, h5, hcorr⟩ :=
    extend_inv C1 c c1 _ _ outKeys keys g g1 h
  rw [newLimits_single c hv.base t] at h1 h2 h3
  simp only at h1 h2 h3
  obtain ⟨w1, i1, le1, sub1, ne1⟩ := seedCorrection_grow _ p1 _ hv.correction hv.correctionIssued h1
  obtain ⟨w2, i2, le2, sub2, max2⟩ := padMax_grow C1 p1 p2 _ w1 i1 h2
  obtain ⟨w3, i3, le3, sub3, min3⟩ := padMin_grow C1 p2 p3 _ w2 i2 h3
  have hle03 : g.key ≤ p3.generator.key := Nat.le_trans le1 (Nat.le_trans le2 le3)
  obtain ⟨_, wb, ib, leb, _, _, hTb, _⟩ := Curve.extend_ok _ _ hv.base _ _
    (LocalSupport2CoefficientManager.issued_mono _ _ _ hv.baseIssued hle03) _ _ _ _ h5
  have ne2 : p2.correctionCurve_.manager_.timeToCoefficient_ ≠ [] :=
    LocalSupport2CoefficientManager.ne_nil_of_mem_getTimes _ _
      (sub2 _ (LocalSupport2CoefficientManager.getMinTime_mem _ ne1))
  have ne3 : p3.correctionCurve_.manager_.timeToCoefficient_ ≠ [] :=
    LocalSupport2CoefficientManager.ne_nil_of_mem_getTimes _ _
      (sub3 _ (LocalSupport2CoefficientManager.getMinTime_mem _ ne2))
  have max3 : max c.baseCurve_.getMaxTime t ≤ p3.correctionCurve_.getMaxTime :=
    le_trans max2 (LocalSupport2CoefficientManager.le_getMaxTime_of_mem _ w3.ascending _
      (sub3 _ (LocalSupport2CoefficientManager.getMaxTime_mem _ ne2)))
  have hneb : c1.baseCurve_.manager_.timeToCoefficient_ ≠ [] :=
    LocalSupport2CoefficientManager.ne_nil_of_mem_getTimes _ t ((hTb t).mpr (Or.inl (by simp)))
  refine ⟨⟨wb, ib, ?_, ?_⟩, ⟨?_, ?_, ?_⟩, Nat.le_trans hle03 leb⟩
  · rw [hcorr]; exact w3
  · rw [hcorr]; exact LocalSupport2CoefficientManager.issued_mono _ _ _ i3 leb
  · rw [hcorr]; exact (Curve.isEmpty_eq_false_iff _ w3).mpr ne3
  · rw [hcorr]
    refine le_trans min3 ?_
    rcases (hTb _).mp (LocalSupport2CoefficientManager.getMinTime_mem _ hneb) with hm | hm
    · simp only [List.mem_singleton] at hm
      show min c.baseCurve_.getMinTime t ≤ c1.baseCurve_.manager_.getMinTime
      rw [hm]
      exact min_le_right _ _
    · exact le_trans (min_le_left _ _)
        (LocalSupport2CoefficientManager.getMinTime_le_of_mem _ hv.base.ascending _ hm)
  · rw [hcorr]
    refine le_trans ?_ max3
    rcases (hTb _).mp (LocalSupport2CoefficientManager.getMaxTime_mem _ hneb) with hm | hm
    · simp only [List.mem_singleton] at hm
      show c1.baseCurve_.manager_.getMaxTime ≤ max c.baseCurve_.getMaxTime t
      rw [hm]
      exact le_max_right _ _
    · exact le_trans
        (LocalSupport2CoefficientManager.le_getMaxTime_of_mem _ hv.base.ascending _ hm)
        (le_max_left _ _)

end SE3CompositionCurve

/-! ### Rebuilding the correction curve, point edits, reachable curves -/

namespace SE3CompositionCurve
variable {V : Type}

theorem evaluateAll_ok (f : Time → Except Error V) (times : List Time) (values : List V)
    (h : evaluateAll f times = .ok values) :
    times.length = values.length ∧ ∀ p ∈ times.zip values, f p.1 = .ok p.2 := by
  induction times generalizing values with
  | nil =>
    simp only [evaluateAll, Except.ok.injEq] at h
    subst h
    simp
  | cons t rest ih =>
    simp only [evaluateAll] at h
    cases hf : f t with
    | error err => simp [hf] at h
    | ok value =>
      simp only [hf] at h
      cases hr : evaluateAll f rest with
      | error err => simp [hr] at h
      | ok vs =>
        simp only [hr, Except.ok.injEq] at h
        subst h
        obtain ⟨hlen, hall⟩ := ih vs hr
        refine ⟨by simp [hlen], ?_⟩
        intro p hp
        simp only [List.zip_cons_cons, List.mem_cons] at hp
        rcases hp with hp | hp
        · subst hp
          exact hf
        · exact hall p hp

theorem evaluateAll_returns (f : Time → Except Error V) (times : List Time)
    (h : ∀ t ∈ times, ∃ v, f t = .ok v) : ∃ values, evaluateAll f times = .ok values := by
  induction times with
  | nil => exact ⟨[], rfl⟩
  | cons t rest ih =>
    obtain ⟨v, hv⟩ := h t (List.mem_cons_self _ _)
    obtain ⟨vs, hvs⟩ := ih (fun t1 ht1 => h t1 (List.mem_cons_of_mem _ ht1))
    exact ⟨v :: vs, by simp only [evaluateAll, hv, hvs]⟩

/-- The steps a successful `foldInCorrections` went through. -/
theorem foldInCorrections_inv [Mul V] [One V] (C1 C2 : CurveClass V)
    (c c1 : SE3CompositionCurve V) (g g1 : KeyGenerator)
    (h : c.foldInCorrections C1 C2 g = .ok (c1, g1)) :
    ∃ newValues g2 keys1 keys2,
      evaluateAll (c.evaluate C1 C2) c.baseCurve_.manager_.getTimes = .ok newValues ∧
      c.baseCurve_.clear.extend c.baseCurve_.manager_.getTimes newValues none g =
        .ok (c1.baseCurve_, g2, keys1) ∧
      c.correctionCurve_.clear.extend c.correctionCurve_.manager_.getTimes
        (c.correctionCurve_.manager_.getTimes.map (fun _ => (1 : V))) none g2 =
        .ok (c1.correctionCurve_, g1, keys2) := by
  unfold foldInCorrections at h
  cases h1 : evaluateAll (c.evaluate C1 C2) c.baseCurve_.manager_.getTimes with
  | error err =>
    rw [h1] at h
    exact Except.noConfusion h
  | ok newValues =>
    rw [h1] at h
    dsimp only at h
    cases h2 : c.baseCurve_.clear.extend c.baseCurve_.manager_.getTimes newValues none g with
    | error err =>
      rw [h2] at h
      exact Except.noConfusion h
    | ok r =>
      obtain ⟨b, g2, keys1⟩ := r
      rw [h2] at h
      dsimp only at h
      cases h3 : c.correctionCurve_.clear.extend c.correctionCurve_.manager_.getTimes
          (c.correctionCurve_.manager_.getTimes.map (fun _ => (1 : V))) none g2 with
      | error err =>
        rw [h3] at h
        exact Except.noConfusion h
      | ok r2 =>
        obtain ⟨cc, g3, keys2⟩ := r2
        rw [h3] at h
        dsimp only at h
        have h4 := Except.ok.inj h
        simp only [Prod.mk.injEq] at h4
        obtain ⟨hc, hg⟩ := h4
        subst hc hg
        exact ⟨newValues, g2, keys1, keys2, rfl, h2, h3⟩

/-- How `setCorrectionTimes` ends: an evaluation fails and nothing was changed, or all
evaluations return, the correction curve is cleared and rebuilt, and the two checks on the
rebuilt curve decide. -/
theorem setCorrectionTimes_inv (C1 : CurveClass V) (c c1 : SE3CompositionCurve V)
    (times : List Time) (g g1 : KeyGenerator) (r : Except Error Unit)
    (h : c.setCorrectionTimes C1 times g = (c1, g1, r)) :
    (∃ err, evaluateAll (C1.evaluate c.correctionCurve_.manager_) times = .error err ∧
      c1 = c ∧ g1 = g ∧ r = .error err) ∨
    (∃ values keys, evaluateAll (C1.evaluate c.correctionCurve_.manager_) times = .ok values ∧
      c.correctionCurve_.clear.extend times values none g = .ok (c1.correctionCurve_, g1, keys) ∧
      c1.baseCurve_ = c.baseCurve_ ∧
      r = if c1.correctionCurve_.getMinTime ≠ c.baseCurve_.getMinTime ∨
          c1.correctionCurve_.getMaxTime ≠ c.baseCurve_.getMaxTime
        then .error .RangeMismatch else .ok ()) := by
  unfold setCorrectionTimes at h
  cases h1 : evaluateAll (C1.evaluate c.correctionCurve_.manager_) times with
  | error err =>
    simp only [h1, Prod.mk.injEq] at h
    exact Or.inl ⟨err, rfl, h.1.symm, h.2.1.symm, h.2.2.symm⟩
  | ok values =>
    simp only [h1] at h
    obtain ⟨cv, g2, keys, hext⟩ := Curve.extend_returns c.correctionCurve_.clear
      (Curve.wellFormed_clear _ g).1 g (Curve.wellFormed_clear _ g).2.1 times values none
      (evaluateAll_ok _ _ _ h1).1
    simp only [hext] at h
    refine Or.inr ⟨values, keys, rfl, ?_⟩
    by_cases hmin : cv.getMinTime ≠ c.baseCurve_.getMinTime
    · rw [if_pos hmin] at h
      simp only [Prod.mk.injEq] at h
      obtain ⟨hc, hg, hr⟩ := h
      subst hc hg hr
      exact ⟨hext, rfl, (if_pos (Or.inl hmin)).symm⟩
    · by_cases hmax : cv.getMaxTime ≠ c.baseCurve_.getMaxTime
      · rw [if_neg hmin, if_pos hmax] at h
        simp only [Prod.mk.injEq] at h
        obtain ⟨hc, hg, hr⟩ := h
        subst hc hg hr
        exact ⟨hext, rfl, (if_pos (Or.inr hmax)).symm⟩
      · rw [if_neg hmin, if_neg hmax] at h
        simp only [Prod.mk.injEq] at h
        obtain ⟨hc, hg, hr⟩ := h
        subst hc hg hr
        exact ⟨hext, rfl, (if_neg (not_or.mpr ⟨hmin, hmax⟩)).symm⟩

theorem valid_new (g : KeyGenerator) : (new : SE3CompositionCurve V).Valid g :=
  ⟨LocalSupport2CoefficientManager.wellFormed_new,
    by intro k n hmem; simp [new, LocalSupport2CoefficientManager.new] at hmem,
    LocalSupport2CoefficientManager.wellFormed_new,
    by intro k n hmem; simp [new, LocalSupport2CoefficientManager.new] at hmem⟩

theorem valid_mono (c : SE3CompositionCurve V) (g g1 : KeyGenerator) (hv : c.Valid g)
    (hle : g.key ≤ g1.key) : c.Valid g1 :=
  ⟨hv.base, LocalSupport2CoefficientManager.issued_mono _ _ _ hv.baseIssued hle, hv.correction,
    LocalSupport2CoefficientManager.issued_mono _ _ _ hv.correctionIssued hle⟩

theorem foldInCorrections_valid [Mul V] [One V] (C1 C2 : CurveClass V)
    (c c1 : SE3CompositionCurve V) (g g1 : KeyGenerator)
    (h : c.foldInCorrections C1 C2 g = .ok (c1, g1)) : c1.Valid g1 := by
  obtain ⟨newValues, g2, keys1, keys2, _, h2, h3⟩ := foldInCorrections_inv C1 C2 c c1 g g1 h
  obtain ⟨_, wb, ib, _, _⟩ := Curve.extend_ok _ _ (Curve.wellFormed_clear _ g).1 _ _
    (Curve.wellFormed_clear _ g).2.1 _ _ _ _ h2
  obtain ⟨_, wc, ic, lec, _⟩ := Curve.extend_ok _ _ (Curve.wellFormed_clear _ g2).1 _ _
    (Curve.wellFormed_clear _ g2).2.1 _ _ _ _ h3
  exact ⟨wb, LocalSupport2CoefficientManager.issued_mono _ _ _ ib lec, wc, ic⟩

theorem setCorrectionTimes_valid (C1 : CurveClass V) (c c1 : SE3CompositionCurve V)
    (times : List Time) (g g1 : KeyGenerator) (r : Except Error Unit) (hv : c.Valid g)
    (h : c.setCorrectionTimes C1 times g = (c1, g1, r)) : c1.Valid g1 ∧ g.key ≤ g1.key := by
  rcases setCorrectionTimes_inv C1 c c1 times g g1 r h with
    ⟨err, _, hc, hg, _⟩ | ⟨values, keys, _, hext, hb, _⟩
  · subst hc hg
    exact ⟨hv, Nat.le_refl _⟩
  · obtain ⟨_, wc, ic, lec, _⟩ := Curve.extend_ok _ _ (Curve.wellFormed_clear _ g).1 _ _
      (Curve.wellFormed_clear _ g).2.1 _ _ _ _ hext
    refine ⟨⟨?_, ?_, wc, ic⟩, lec⟩
    · rw [hb]; exact hv.base
    · rw [hb]; exact LocalSupport2CoefficientManager.issued_mono _ _ _ hv.baseIssued lec

/-- How `setCorrectionCoefficientAtTime` ends on a valid curve. -/
theorem setCorrectionCoefficientAtTime_spec (c : SE3CompositionCurve V) (time : Time) (value : V)
    (g : KeyGenerator) (hv : c.Valid g) :
    (c.correctionCurve_.manager_.hasCoefficientAtTime time = false ∧
      c.setCorrectionCoefficientAtTime time value g = .error .UnknownTime) ∨
    (∃ kc, (time, kc) ∈ c.correctionCurve_.manager_.timeToCoefficient_ ∧
      c.setCorrectionCoefficientAtTime time value g =
        .ok (⟨c.baseCurve_, ⟨⟨c.correctionCurve_.manager_.keyToCoefficient_,
          map.setCoefficient c.correctionCurve_.manager_.timeToCoefficient_
            (map.find c.correctionCurve_.manager_.timeToCoefficient_ time) value⟩⟩⟩, g)) := by
  cases hhas : c.correctionCurve_.manager_.hasCoefficientAtTime time with
  | false =>
    exact Or.inl ⟨rfl, by simp [setCorrectionCoefficientAtTime, hhas]⟩
  | true =>
    obtain ⟨kc, hkc⟩ := (LocalSupport2CoefficientManager.mem_getTimes_iff _ _).mp
      ((LocalSupport2CoefficientManager.hasCoefficientAtTime_iff _ _).mp hhas)
    refine Or.inr ⟨kc, hkc, ?_⟩
    simp only [setCorrectionCoefficientAtTime, hhas, if_true,
      LocalSupport2CoefficientManager.insertCoefficient_present _ hv.correction time kc value g hkc]

/-- How `removeCorrectionCoefficientAtTime` ends on a valid curve. -/
theorem removeCorrectionCoefficientAtTime_spec (c : SE3CompositionCurve V) (time : Time)
    (g : KeyGenerator) (hv : c.Valid g) :
    (c.correctionCurve_.manager_.hasCoefficientAtTime time = false ∧
      c.removeCorrectionCoefficientAtTime time = .error .UnknownTime) ∨
    (c.correctionCurve_.manager_.hasCoefficientAtTime time = true ∧
      ∃ c1, c.removeCorrectionCoefficientAtTime time = .ok c1 ∧ c1.Valid g ∧
        c1.baseCurve_ = c.baseCurve_ ∧
        ∀ e, e ∈ c1.correctionCurve_.manager_.timeToCoefficient_ ↔
          e ∈ c.correctionCurve_.manager_.timeToCoefficient_ ∧ e.1 ≠ time) := by
  cases hhas : c.correctionCurve_.manager_.hasCoefficientAtTime time with
  | false =>
    exact Or.inl ⟨rfl, by simp [removeCorrectionCoefficientAtTime, hhas]⟩
  | true =>
    obtain ⟨kc, hkc⟩ := (LocalSupport2CoefficientManager.mem_getTimes_iff _ _).mp
      ((LocalSupport2CoefficientManager.hasCoefficientAtTime_iff _ _).mp hhas)
    obtain ⟨m1, hrem, hwf1, hkeys, hent⟩ :=
      LocalSupport2CoefficientManager.removeCoefficientAtTime_present _ hv.correction time kc hkc
    refine Or.inr ⟨rfl, ⟨c.baseCurve_, ⟨m1⟩⟩, ?_, ⟨hv.base, hv.baseIssued, hwf1, ?_⟩, rfl, hent⟩
    · simp only [removeCorrectionCoefficientAtTime, hhas, if_true, hrem]
    · intro k n hmem
      exact hv.correctionIssued k n (hkeys k n hmem)

/-- Every reachable composition curve is valid. -/
theorem reachable_valid [Mul V] [Inv V] [One V] (C1 C2 : CurveClass V)
    (c : SE3CompositionCurve V) (g : KeyGenerator) (h : Reachable C1 C2 c g) : c.Valid g := by
  induction h with
  | new g => exact valid_new g
  | otherKey _ ih => exact valid_mono _ _ _ ih (Nat.le_succ _)
  | extend _ hcall ih => exact (extend_valid C1 _ _ _ _ _ _ _ _ ih hcall).1
  | foldInCorrections _ hcall _ => exact foldInCorrections_valid C1 C2 _ _ _ _ hcall
  | setCorrectionTimes _ hcall ih => exact (setCorrectionTimes_valid C1 _ _ _ _ _ _ ih hcall).1
  | @setCorrectionCoefficientAtTime c g time value c1 g1 _ hcall ih =>
    rcases setCorrectionCoefficientAtTime_spec c time value g ih with ⟨_, herr⟩ | ⟨kc, hkc, hok⟩
    · rw [herr] at hcall
      simp at hcall
    · rw [hok] at hcall
      simp only [Except.ok.injEq, Prod.mk.injEq] at hcall
      obtain ⟨hc, hg⟩ := hcall
      subst hc hg
      exact ⟨ih.base, ih.baseIssued,
        LocalSupport2CoefficientManager.wellFormed_setCoefficient _ ih.correction _ _,
        ih.correctionIssued⟩
  | @removeCorrectionCoefficientAtTime c g time c1 _ hcall ih =>
    rcases removeCorrectionCoefficientAtTime_spec c time g ih with ⟨_, herr⟩ | ⟨_, c2, hok, hv2, _⟩
    · rw [herr] at hcall
      simp at hcall
    · rw [hok] at hcall
      simp only [Except.ok.injEq] at hcall
      subst hcall
      exact hv2
  | @clear c g _ _ =>
    exact ⟨(Curve.wellFormed_clear _ g).1, (Curve.wellFormed_clear _ g).2.1,
      (Curve.wellFormed_clear _ g).1, (Curve.wellFormed_clear _ g).2.1⟩

end SE3CompositionCurve

/-! ### Round trip and coverage of the base range -/

namespace SE3CompositionCurve
variable {V : Type}

theorem sampleExact_holdCurve : SampleExact (holdCurve V) := by
  intro m hwf t k c hmem
  have hhas := LocalSupport2CoefficientManager.hasCoefficientAtTime_of_mem m t _ hmem
  have hget := map.getElem?_find_of_mem _ hwf.ascending t _ hmem
  simp only [holdCurve, hhas, if_true, map.deref, hget]

theorem identityInside_holdCurve [One V] : IdentityInside (holdCurve V) := by
  intro m hwf hone hne t hmin hmax
  cases hhas : m.hasCoefficientAtTime t with
  | true =>
    obtain ⟨kc, hkc⟩ := (LocalSupport2CoefficientManager.mem_getTimes_iff _ _).mp
      ((LocalSupport2CoefficientManager.hasCoefficientAtTime_iff _ _).mp hhas)
    have hget := map.getElem?_find_of_mem _ hwf.ascending t _ hkc
    simp only [holdCurve, hhas, if_true, map.deref, hget]
    exact congrArg Except.ok (hone _ hkc)
  | false =>
    have hnot : t ∉ m.getTimes := by
      intro hin
      rw [(LocalSupport2CoefficientManager.hasCoefficientAtTime_iff m t).mpr hin] at hhas
      exact Bool.noConfusion hhas
    have hlt : t < m.getMaxTime := by
      refine lt_of_le_of_ne hmax ?_
      intro heq
      exact hnot (heq ▸ LocalSupport2CoefficientManager.getMaxTime_mem m hne)
    obtain ⟨i, lower, upper, hat, hl, _, _, _⟩ :=
      LocalSupport2CoefficientManager.getCoefficientsAt_interior m hwf.ascending t hmin hlt
    simp only [holdCurve, hhas, Bool.false_eq_true, if_false, hat, map.deref, hl]
    exact congrArg Except.ok (hone _ (List.getElem?_mem hl))

theorem reachable_curveAt5 : Reachable (holdCurve _) (holdCurve _) curveAt5 ⟨3⟩ :=
  Reachable.extend (Reachable.new ⟨0⟩)
    (show (new : SE3CompositionCurve (Multiplicative ℤ)).extend (holdCurve _) [5]
      [Multiplicative.ofAdd 7] none ⟨0⟩ = .ok (curveAt5, ⟨3⟩, none) from rfl)

theorem reachable_curveAt5Removed :
    Reachable (holdCurve _) (holdCurve _) curveAt5Removed ⟨3⟩ :=
  Reachable.removeCorrectionCoefficientAtTime reachable_curveAt5
    (show curveAt5.removeCorrectionCoefficientAtTime 5 = .ok curveAt5Removed from rfl)

/-- C11: on a composition curve (here any reachable one, in particular one produced by
`extend` calls), with a group of values and a base curve class that returns the stored
coefficient at a sample time, after `extend([t], [v])` succeeds the base curve holds at `t`
the value `correction(t)⁻¹ * v`, where `correction(t)` is what the correction curve
evaluates to at `t`, and `evaluate(t)` (strategy 1) returns exactly `v`. -/
theorem extend_round_trip [Group V] (C1 C2 : CurveClass V) (hC2 : SampleExact C2)
    (c : SE3CompositionCurve V) (g : KeyGenerator) (hr : Reachable C1 C2 c g)
    (t : Time) (v : V) (outKeys keys : Option (List Key)) (c1 : SE3CompositionCurve V)
    (g1 : KeyGenerator) (h : c.extend C1 [t] [v] outKeys g = .ok (c1, g1, keys)) :
    ∃ x k, C1.evaluate c1.correctionCurve_.manager_ t = .ok x ∧
      (t, (⟨k, x⁻¹ * v⟩ : KeyCoefficient V)) ∈ c1.baseCurve_.manager_.timeToCoefficient_ ∧
      c1.evaluate C1 C2 t = .ok v := by
  have hv := reachable_valid C1 C2 c g hr
  have hv1 := (extend_valid C1 c c1 _ _ outKeys keys g g1 hv h).1
  obtain ⟨t1, v1, p1, p2, p3, x, ht, hval, h1, h2, h3, h4, h5, hcorr⟩ :=
    extend_inv C1 c c1 _ _ outKeys keys g g1 h
  simp only [List.cons.injEq, and_true] at ht hval
  subst ht hval
  rw [newLimits_single c hv.base t] at h1 h2 h3
  obtain ⟨w1, i1, le1, _, _⟩ := seedCorrection_grow _ p1 _ hv.correction hv.correctionIssued h1
  obtain ⟨w2, i2, le2, _, _⟩ := padMax_grow C1 p1 p2 _ w1 i1 h2
  obtain ⟨w3, i3, le3, _, _⟩ := padMin_grow C1 p2 p3 _ w2 i2 h3
  obtain ⟨_, _, _, _, _, _, _, hL⟩ := Curve.extend_ok _ _ hv.base _ _
    (LocalSupport2CoefficientManager.issued_mono _ _ _ hv.baseIssued
      (Nat.le_trans le1 (Nat.le_trans le2 le3))) _ _ _ _ h5
  obtain ⟨k, hk⟩ := hL [] t (x⁻¹ * v) [] (by simp) (by simp)
  refine ⟨x, k, by rw [hcorr]; exact h4, hk, ?_⟩
  have hbase := hC2 _ hv1.base t k _ hk
  simp only [evaluate, hcorr, h4, hbase, mul_inv_cancel_left]

theorem extend_round_trip_witness :
    SampleExact (holdCurve (Multiplicative ℤ)) ∧
    Reachable (holdCurve _) (holdCurve _) curveAt5 ⟨3⟩ ∧
    ∃ c1 g1, curveAt5.extend (holdCurve _) [8] [Multiplicative.ofAdd 10] none ⟨3⟩ =
        .ok (c1, g1, none) ∧
      ∃ x k, (holdCurve _).evaluate c1.correctionCurve_.manager_ 8 = .ok x ∧
        ((8 : Time), (⟨k, x⁻¹ * Multiplicative.ofAdd 10⟩ : KeyCoefficient (Multiplicative ℤ))) ∈
          c1.baseCurve_.manager_.timeToCoefficient_ ∧
        c1.evaluate (holdCurve _) (holdCurve _) 8 = .ok (Multiplicative.ofAdd 10) :=
  ⟨sampleExact_holdCurve, reachable_curveAt5, _, _, rfl,
    extend_round_trip (holdCurve _) (holdCurve _) sampleExact_holdCurve curveAt5 ⟨3⟩
      reachable_curveAt5 8 (Multiplicative.ofAdd 10) none none _ _ rfl⟩

/-- C12: after every successful `extend`, in particular after each call of a sequence of
`extend` calls on an empty composition curve, the correction curve is not empty and
`correction.getMinTime() <= base.getMinTime()` and
`base.getMaxTime() <= correction.getMaxTime()`; the curve reached is again one the
statement applies to. -/
theorem correction_covers_base [Mul V] [Inv V] [One V] (C1 C2 : CurveClass V)
    (c : SE3CompositionCurve V) (g : KeyGenerator) (hr : Reachable C1 C2 c g)
    (times : List Time) (values : List V) (outKeys keys : Option (List Key))
    (c1 : SE3CompositionCurve V) (g1 : KeyGenerator)
    (h : c.extend C1 times values outKeys g = .ok (c1, g1, keys)) :
    Reachable C1 C2 c1 g1 ∧ c1.correctionCurve_.isEmpty = false ∧
      c1.correctionCurve_.getMinTime ≤ c1.baseCurve_.getMinTime ∧
      c1.baseCurve_.getMaxTime ≤ c1.correctionCurve_.getMaxTime :=
  ⟨Reachable.extend hr h,
    (extend_valid C1 c c1 times values outKeys keys g g1 (reachable_valid C1 C2 c g hr) h).2.1⟩

theorem correction_covers_base_witness :
    Reachable (holdCurve (Multiplicative ℤ)) (holdCurve _) new ⟨0⟩ ∧
    (new : SE3CompositionCurve (Multiplicative ℤ)).extend (holdCurve _) [5]
      [Multiplicative.ofAdd 7] none ⟨0⟩ = .ok (curveAt5, ⟨3⟩, none) ∧
    Reachable (holdCurve (Multiplicative ℤ)) (holdCurve _) curveAt5 ⟨3⟩ ∧
    curveAt5.correctionCurve_.isEmpty = false ∧
    curveAt5.correctionCurve_.getMinTime ≤ curveAt5.baseCurve_.getMinTime ∧
    curveAt5.baseCurve_.getMaxTime ≤ curveAt5.correctionCurve_.getMaxTime :=
  ⟨Reachable.new _, rfl,
    correction_covers_base (holdCurve _) (holdCurve _) new ⟨0⟩ (Reachable.new _) [5]
      [Multiplicative.ofAdd 7] none none curveAt5 ⟨3⟩
      (show (new : SE3CompositionCurve (Multiplicative ℤ)).extend (holdCurve _) [5]
        [Multiplicative.ofAdd 7] none ⟨0⟩ = .ok (curveAt5, ⟨3⟩, none) from rfl)⟩

end SE3CompositionCurve

/-! ### Folding the corrections into the base curve -/

namespace SE3CompositionCurve
variable {V : Type}

theorem reachable_curveAt5Corrected :
    Reachable (holdCurve _) (holdCurve _) curveAt5Corrected ⟨3⟩ :=
  Reachable.setCorrectionCoefficientAtTime reachable_curveAt5
    (show curveAt5.setCorrectionCoefficientAtTime 5 (Multiplicative.ofAdd 2) ⟨3⟩ =
      .ok (curveAt5Corrected, ⟨3⟩) from rfl)

/-- A curve that was cleared and extended holds exactly the given times, and every sample
is one of the given pairs. -/
theorem rebuild_ok (cv cv1 : Curve V) (g g1 : KeyGenerator) (times : List Time)
    (values : List V) (keys : Option (List Key))
    (h : cv.clear.extend times values none g = .ok (cv1, g1, keys)) :
    cv1.manager_.WellFormed ∧ cv1.manager_.Issued g1 ∧ g.key ≤ g1.key ∧
      (∀ e ∈ cv1.manager_.timeToCoefficient_, (e.1, e.2.coefficient) ∈ times.zip values) ∧
      (∀ t, t ∈ cv1.manager_.getTimes ↔ t ∈ times) := by
  obtain ⟨_, w, i, le, hP, _, hT, _⟩ := Curve.extend_ok _ _ (Curve.wellFormed_clear _ g).1 _ _
    (Curve.wellFormed_clear _ g).2.1 _ _ _ _ h
  refine ⟨w, i, le, ?_, ?_⟩
  · intro e he
    rcases hP e he with h1 | ⟨h1, _⟩
    · exact h1
    · rw [(Curve.wellFormed_clear cv g).2.2] at h1
      simp at h1
  · intro t
    rw [hT t]
    simp [LocalSupport2CoefficientManager.getTimes, (Curve.wellFormed_clear cv g).2.2]

/-- What a returned `foldInCorrections()` leaves, on a curve whose correction range covers
its base range. -/
theorem fold_of_return [Group V] (C1 C2 : CurveClass V) (hC1 : IdentityInside C1)
    (hC2 : SampleExact C2) (c : SE3CompositionCurve V) (g : KeyGenerator)
    (hr : Reachable C1 C2 c g) (hcov : c.Covers) (c1 : SE3CompositionCurve V)
    (g1 : KeyGenerator) (h : c.foldInCorrections C1 C2 g = .ok (c1, g1)) :
    (∀ t ∈ c.baseCurve_.manager_.getTimes, c1.evaluate C1 C2 t = c.evaluate C1 C2 t) ∧
    (∀ e ∈ c1.correctionCurve_.manager_.timeToCoefficient_, e.2.coefficient = 1) ∧
    c1.baseCurve_.manager_.getTimes = c.baseCurve_.manager_.getTimes ∧
    c1.correctionCurve_.manager_.getTimes = c.correctionCurve_.manager_.getTimes := by
  have hv := reachable_valid C1 C2 c g hr
  obtain ⟨newValues, g2, keys1, keys2, h1, h2, h3⟩ := foldInCorrections_inv C1 C2 c c1 g g1 h
  obtain ⟨wb, _, _, hPb, hTb⟩ := rebuild_ok _ _ _ _ _ _ _ h2
  obtain ⟨wc, _, _, hPc, hTc⟩ := rebuild_ok _ _ _ _ _ _ _ h3
  have hbt : c1.baseCurve_.manager_.getTimes = c.baseCurve_.manager_.getTimes :=
    LocalSupport2CoefficientManager.getTimes_eq_of_mem_iff _ _ wb.ascending hv.base.ascending hTb
  have hct : c1.correctionCurve_.manager_.getTimes = c.correctionCurve_.manager_.getTimes :=
    LocalSupport2CoefficientManager.getTimes_eq_of_mem_iff _ _ wc.ascending
      hv.correction.ascending hTc
  have hone : ∀ e ∈ c1.correctionCurve_.manager_.timeToCoefficient_, e.2.coefficient = 1 := by
    intro e he
    have := (List.of_mem_zip (hPc e he)).2
    obtain ⟨_, _, heq⟩ := List.mem_map.mp this
    exact heq.symm
  refine ⟨?_, hone, hbt, hct⟩
  intro t ht
  obtain ⟨kc, hkc⟩ := (LocalSupport2CoefficientManager.mem_getTimes_iff _ _).mp (hbt ▸ ht)
  have hold : c.evaluate C1 C2 t = .ok kc.coefficient :=
    (evaluateAll_ok _ _ _ h1).2 _ (hPb _ hkc)
  have hbase : C2.evaluate c1.baseCurve_.manager_ t = .ok kc.coefficient :=
    hC2 _ wb t kc.key kc.coefficient hkc
  obtain ⟨hne, hmin, hmax⟩ := hcov
  have hne0 := (Curve.isEmpty_eq_false_iff _ hv.correction).mp hne
  have hne1 : c1.correctionCurve_.manager_.timeToCoefficient_ ≠ [] := by
    rw [← LocalSupport2CoefficientManager.getTimes_ne_nil_iff, hct,
      LocalSupport2CoefficientManager.getTimes_ne_nil_iff]
    exact hne0
  obtain ⟨hl1, hl2⟩ := LocalSupport2CoefficientManager.limits_congr _ _ hct
  have hcorr : C1.evaluate c1.correctionCurve_.manager_ t = .ok 1 := by
    refine hC1 _ wc hone hne1 t ?_ ?_
    · rw [hl1]
      exact le_trans hmin
        (LocalSupport2CoefficientManager.getMinTime_le_of_mem _ hv.base.ascending t ht)
    · rw [hl2]
      exact le_trans
        (LocalSupport2CoefficientManager.le_getMaxTime_of_mem _ hv.base.ascending t ht) hmax
  rw [hold]
  simp only [evaluate, hcorr, hbase, one_mul]

/-- The call `foldInCorrections()` returns when `evaluate` returns at every sample time of
the base curve. -/
theorem foldInCorrections_returns [Mul V] [One V] (C1 C2 : CurveClass V)
    (c : SE3CompositionCurve V) (g : KeyGenerator)
    (h : ∀ t ∈ c.baseCurve_.manager_.getTimes, ∃ x, c.evaluate C1 C2 t = .ok x) :
    ∃ c1 g1, c.foldInCorrections C1 C2 g = .ok (c1, g1) := by
  obtain ⟨newValues, h1⟩ := evaluateAll_returns (c.evaluate C1 C2) _ h
  obtain ⟨hlen, _⟩ := evaluateAll_ok _ _ _ h1
  obtain ⟨b, g2, k2, h2⟩ := Curve.extend_returns c.baseCurve_.clear
    (Curve.wellFormed_clear _ g).1 g (Curve.wellFormed_clear _ g).2.1
    c.baseCurve_.manager_.getTimes newValues none hlen
  obtain ⟨cc, g3, k3, h3⟩ := Curve.extend_returns c.correctionCurve_.clear
    (Curve.wellFormed_clear _ g2).1 g2 (Curve.wellFormed_clear _ g2).2.1
    c.correctionCurve_.manager_.getTimes
    (c.correctionCurve_.manager_.getTimes.map (fun _ => (1 : V))) none
    (List.length_map _ _).symm
  exact ⟨⟨b, cc⟩, g3, by simp only [foldInCorrections, h1, h2, h3]⟩

/-- C13: on a composition curve whose correction range covers its base range, with a group
of values, a base curve class that returns the stored coefficient at a sample time and a
correction curve class that evaluates an all-identity curve to the identity inside its range:
`foldInCorrections()` returns when `evaluate` returns at every sample time of the base curve;
after the call `evaluate(t)` equals `evaluate(t)` before it at every sample time `t` the base
curve had, every correction sample is the identity, and the time sequences of the base curve
and of the correction curve are unchanged. -/
theorem fold_idempotent [Group V] (C1 C2 : CurveClass V) (hC1 : IdentityInside C1)
    (hC2 : SampleExact C2) (c : SE3CompositionCurve V) (g : KeyGenerator)
    (hr : Reachable C1 C2 c g) (hcov : c.Covers) :
    ((∀ t ∈ c.baseCurve_.manager_.getTimes, ∃ x, c.evaluate C1 C2 t = .ok x) →
      ∃ c1 g1, c.foldInCorrections C1 C2 g = .ok (c1, g1)) ∧
    ∀ c1 g1, c.foldInCorrections C1 C2 g = .ok (c1, g1) →
      (∀ t ∈ c.baseCurve_.manager_.getTimes, c1.evaluate C1 C2 t = c.evaluate C1 C2 t) ∧
      (∀ e ∈ c1.correctionCurve_.manager_.timeToCoefficient_, e.2.coefficient = 1) ∧
      c1.baseCurve_.manager_.getTimes = c.baseCurve_.manager_.getTimes ∧
      c1.correctionCurve_.manager_.getTimes = c.correctionCurve_.manager_.getTimes :=
  ⟨foldInCorrections_returns C1 C2 c g,
    fun c1 g1 h => fold_of_return C1 C2 hC1 hC2 c g hr hcov c1 g1 h⟩

theorem fold_idempotent_witness :
    IdentityInside (holdCurve (Multiplicative ℤ)) ∧ SampleExact (holdCurve (Multiplicative ℤ)) ∧
    Reachable (holdCurve _) (holdCurve _) curveAt5Corrected ⟨3⟩ ∧ curveAt5Corrected.Covers ∧
    curveAt5Corrected.evaluate (holdCurve _) (holdCurve _) 5 = .ok (Multiplicative.ofAdd 9) ∧
    ∃ c1 g1, curveAt5Corrected.foldInCorrections (holdCurve _) (holdCurve _) ⟨3⟩ = .ok (c1, g1) ∧
      (∀ t ∈ curveAt5Corrected.baseCurve_.manager_.getTimes,
        c1.evaluate (holdCurve _) (holdCurve _) t =
          curveAt5Corrected.evaluate (holdCurve _) (holdCurve _) t) ∧
      (∀ e ∈ c1.correctionCurve_.manager_.timeToCoefficient_, e.2.coefficient = 1) ∧
      c1.baseCurve_.manager_.getTimes = curveAt5Corrected.baseCurve_.manager_.getTimes ∧
      c1.correctionCurve_.manager_.getTimes =
        curveAt5Corrected.correctionCurve_.manager_.getTimes :=
  ⟨identityInside_holdCurve, sampleExact_holdCurve, reachable_curveAt5Corrected,
    ⟨rfl, by decide, by decide⟩, rfl, _, _, rfl,
    (fold_idempotent (holdCurve _) (holdCurve _) identityInside_holdCurve sampleExact_holdCurve
      curveAt5Corrected ⟨3⟩ reachable_curveAt5Corrected ⟨rfl, by decide, by decide⟩).2 _ _ rfl⟩

end SE3CompositionCurve

/-! ### Keys issued while a curve is rebuilt -/

namespace LocalSupport2CoefficientManager
variable {C : Type}

/-- One `insertCoefficient` on a store whose keys were all issued after the generator
state `g0`: the keys of the store after the call were issued after `g0` too. -/
theorem insertCoefficient_fresh (m : LocalSupport2CoefficientManager C) (hwf : m.WellFormed)
    (g : KeyGenerator) (hi : m.Issued g) (g0 : KeyGenerator) (hg : g0.key ≤ g.key)
    (hfresh : ∀ e ∈ m.timeToCoefficient_, g0.key < e.2.key) (t : Time) (c : C) :
    ∃ key m1 g1, m.insertCoefficient t c g = .ok (key, m1, g1) ∧ m1.WellFormed ∧ m1.Issued g1 ∧
      g.key ≤ g1.key ∧ ∀ e ∈ m1.timeToCoefficient_, g0.key < e.2.key := by
  obtain ⟨key, m1, g1, hins, hwf1, hi1, hle, hiff⟩ := insertCoefficient_entries m hwf g hi t c
  refine ⟨key, m1, g1, hins, hwf1, hi1, hle, ?_⟩
  have hkey : g0.key < key := by
    rcases mem_or_absent m t with ⟨kc, hkc⟩ | habs
    · rw [insertCoefficient_present m hwf t kc c g hkc] at hins
      have hk : kc.key = key := (Prod.mk.inj (Except.ok.inj hins)).1
      rw [← hk]
      exact hfresh _ hkc
    · rw [insertCoefficient_absent m t c g habs] at hins
      have hk : g.key + 1 = key := (Prod.mk.inj (Except.ok.inj hins)).1
      rw [← hk]
      exact Nat.lt_succ_of_le hg
  intro e he
  rcases (hiff e).mp he with heq | ⟨hold, _⟩
  · rw [heq]
    exact hkey
  · exact hfresh e hold

/-- The loop of `insertCoefficients` on a store whose keys were all issued after the
generator state `g0`: every key of the store it leaves was issued after `g0` and is not
above the generator state it leaves. -/
theorem insertLoop_fresh (calls : List (Time × C)) (m : LocalSupport2CoefficientManager C)
    (hwf : m.WellFormed) (g : KeyGenerator) (hi : m.Issued g) (g0 : KeyGenerator)
    (hg : g0.key ≤ g.key) (hfresh : ∀ e ∈ m.timeToCoefficient_, g0.key < e.2.key)
    (outKeys : Option (List Key)) :
    ∃ m1 g1 keys, insertLoop m g calls outKeys = .ok (m1, g1, keys) ∧
      ∀ e ∈ m1.timeToCoefficient_, g0.key < e.2.key ∧ e.2.key ≤ g1.key := by
  induction calls generalizing m g outKeys with
  | nil =>
    exact ⟨m, g, outKeys, rfl, fun e he => ⟨hfresh e he, hi _ _ (hwf.i1.2.2 e he)⟩⟩
  | cons p rest ih =>
    obtain ⟨t, v⟩ := p
    obtain ⟨key, m1, g1, hins, hwf1, hi1, hle, hfresh1⟩ :=
      insertCoefficient_fresh m hwf g hi g0 hg hfresh t v
    obtain ⟨m2, g2, keys, hloop, hall⟩ := ih m1 hwf1 g1 hi1 (Nat.le_trans hg hle) hfresh1
      (outKeys.map (fun ks => ks ++ [key]))
    exact ⟨m2, g2, keys, by simp only [insertLoop, hins, hloop], hall⟩

end LocalSupport2CoefficientManager

namespace SE3CompositionCurve
variable {V : Type}

/-- A curve that was cleared and extended holds keys issued during the call only. -/
theorem rebuild_fresh (cv cv1 : Curve V) (g g1 : KeyGenerator) (times : List Time)
    (values : List V) (keys : Option (List Key))
    (h : cv.clear.extend times values none g = .ok (cv1, g1, keys)) :
    ∀ e ∈ cv1.manager_.timeToCoefficient_, g.key < e.2.key ∧ e.2.key ≤ g1.key := by
  obtain ⟨hwf, hi, hnil⟩ := Curve.wellFormed_clear cv g
  obtain ⟨hlen, _⟩ := Curve.extend_ok _ _ hwf _ _ hi _ _ _ _ h
  obtain ⟨m2, g2, keys2, hloop, hall⟩ := LocalSupport2CoefficientManager.insertLoop_fresh
    (times.zip values) cv.clear.manager_ hwf g hi g (Nat.le_refl _)
    (fun e he => by rw [hnil] at he; simp at he) none
  have hext : cv.clear.extend times values none g = .ok (⟨m2⟩, g2, keys2) := by
    simp only [Curve.extend, LocalSupport2CoefficientManager.insertCoefficients, hlen, if_true,
      hloop]
  rw [hext] at h
  have heq := Except.ok.inj h
  have h1 : (⟨m2⟩ : Curve V) = cv1 := (Prod.mk.inj heq).1
  have h2 : g2 = g1 := (Prod.mk.inj (Prod.mk.inj heq).2).1
  rw [← h1, ← h2]
  exact hall

end SE3CompositionCurve

/-! ### Resampling the correction curve and point edits -/

namespace SE3CompositionCurve
variable {V : Type}

/-- The limits of a non-empty well-formed store are its least and its greatest time. -/
theorem limits_of_bounds (m : LocalSupport2CoefficientManager V) (hwf : m.WellFormed)
    (lo hi : Time) (hlo : lo ∈ m.getTimes) (hhi : hi ∈ m.getTimes)
    (hb : ∀ t ∈ m.getTimes, lo ≤ t ∧ t ≤ hi) : m.getMinTime = lo ∧ m.getMaxTime = hi := by
  have hne := LocalSupport2CoefficientManager.ne_nil_of_mem_getTimes m lo hlo
  constructor
  · exact le_antisymm
      (LocalSupport2CoefficientManager.getMinTime_le_of_mem m hwf.ascending lo hlo)
      (hb _ (LocalSupport2CoefficientManager.getMinTime_mem m hne)).1
  · exact le_antisymm
      (hb _ (LocalSupport2CoefficientManager.getMaxTime_mem m hne)).2
      (LocalSupport2CoefficientManager.le_getMaxTime_of_mem m hwf.ascending hi hhi)

/-- C14 (amended): on every composition curve `setCorrectionTimes(times)` succeeds only if
the rebuilt correction curve has `getMinTime()` and `getMaxTime()` equal to those of the
base curve, and after a successful call the time set of the correction curve is exactly
the set of elements of `times`.  Whenever the smallest element of `times` differs from
`base.getMinTime()` or the largest from `base.getMaxTime()` the call fails: with
`RangeMismatch` when the correction curve could be evaluated at every element of `times`,
and otherwise with the failure of that evaluation, which comes first.  A failure of the
evaluation is the failure of the call for every list of times. -/
theorem setCorrectionTimes_contract (C1 : CurveClass V)
    (c : SE3CompositionCurve V) (g : KeyGenerator) (times : List Time)
    (c1 : SE3CompositionCurve V) (g1 : KeyGenerator)
    (r : Except Error Unit) (h : c.setCorrectionTimes C1 times g = (c1, g1, r)) :
    (r = .ok () →
      c1.correctionCurve_.getMinTime = c.baseCurve_.getMinTime ∧
      c1.correctionCurve_.getMaxTime = c.baseCurve_.getMaxTime ∧
      c1.baseCurve_ = c.baseCurve_ ∧
      ∀ t, t ∈ c1.correctionCurve_.manager_.getTimes ↔ t ∈ times) ∧
    (∀ lo hi, lo ∈ times → hi ∈ times → (∀ t ∈ times, lo ≤ t ∧ t ≤ hi) →
      (lo ≠ c.baseCurve_.getMinTime ∨ hi ≠ c.baseCurve_.getMaxTime) →
      (∃ err, r = .error err) ∧
      ((∃ values, evaluateAll (C1.evaluate c.correctionCurve_.manager_) times = .ok values) →
        r = .error .RangeMismatch) ∧
      (∀ e, evaluateAll (C1.evaluate c.correctionCurve_.manager_) times = .error e →
        r = .error e)) ∧
    (∀ e, evaluateAll (C1.evaluate c.correctionCurve_.manager_) times = .error e →
      r = .error e) := by
  rcases setCorrectionTimes_inv C1 c c1 times g g1 r h with
    ⟨err, hev, _, _, hres⟩ | ⟨values, keys, hev, hext, hb, hres⟩
  · have hfail : ∀ e, evaluateAll (C1.evaluate c.correctionCurve_.manager_) times = .error e →
        r = .error e := by
      intro e he
      rw [hev] at he
      rw [hres, Except.error.inj he]
    refine ⟨?_, ?_, hfail⟩
    · intro hok
      rw [hres] at hok
      exact Except.noConfusion hok
    · intro lo hi _ _ _ _
      refine ⟨⟨err, hres⟩, ?_, hfail⟩
      rintro ⟨values, hvals⟩
      rw [hev] at hvals
      exact Except.noConfusion hvals
  · obtain ⟨wc, _, _, _, hT⟩ := rebuild_ok _ _ _ _ _ _ _ hext
    have hfail : ∀ e, evaluateAll (C1.evaluate c.correctionCurve_.manager_) times = .error e →
        r = .error e := by
      intro e he
      rw [hev] at he
      exact Except.noConfusion he
    refine ⟨?_, ?_, hfail⟩
    · intro hok
      rw [hres] at hok
      by_cases hcond : c1.correctionCurve_.getMinTime ≠ c.baseCurve_.getMinTime ∨
          c1.correctionCurve_.getMaxTime ≠ c.baseCurve_.getMaxTime
      · rw [if_pos hcond] at hok
        exact Except.noConfusion hok
      · have hboth := not_or.mp hcond
        exact ⟨not_not.mp hboth.1, not_not.mp hboth.2, hb, hT⟩
    · intro lo hi hlo hhi hbounds hdiff
      obtain ⟨hmin, hmax⟩ := limits_of_bounds _ wc lo hi ((hT lo).mpr hlo) ((hT hi).mpr hhi)
        (fun t ht => hbounds t ((hT t).mp ht))
      have hcond : c1.correctionCurve_.getMinTime ≠ c.baseCurve_.getMinTime ∨
          c1.correctionCurve_.getMaxTime ≠ c.baseCurve_.getMaxTime := by
        rcases hdiff with hd | hd
        · exact Or.inl (by show c1.correctionCurve_.manager_.getMinTime ≠ _; rw [hmin]; exact hd)
        · exact Or.inr (by show c1.correctionCurve_.manager_.getMaxTime ≠ _; rw [hmax]; exact hd)
      rw [if_pos hcond] at hres
      exact ⟨⟨_, hres⟩, fun _ => hres, hfail⟩

theorem setCorrectionTimes_contract_witness :
    Reachable (holdCurve _) (holdCurve _) curveAt5 ⟨3⟩ ∧
    (∃ c1 g1, curveAt5.setCorrectionTimes (holdCurve _) [5] ⟨3⟩ = (c1, g1, .ok ()) ∧
      c1.correctionCurve_.getMinTime = curveAt5.baseCurve_.getMinTime ∧
      c1.correctionCurve_.getMaxTime = curveAt5.baseCurve_.getMaxTime ∧
      c1.baseCurve_ = curveAt5.baseCurve_ ∧
      ∀ t, t ∈ c1.correctionCurve_.manager_.getTimes ↔ t ∈ [(5 : Time)]) ∧
    (∃ c1 g1, curveAt5.setCorrectionTimes (holdCurve _) [0, 8] ⟨3⟩ =
      (c1, g1, .error .OutOfRange)) ∧
    evaluateAll ((holdCurve _).evaluate curveAt5.correctionCurve_.manager_) [0, 8] =
      .error .OutOfRange ∧
    (curveAt5.setCorrectionTimes (holdCurve _) [0, 8] ⟨3⟩).2.2 = .error .OutOfRange ∧
    (∃ c1 g1, curveAt5.setCorrectionTimes (holdCurve _) [0, 5] ⟨3⟩ =
      (c1, g1, .error .RangeMismatch)) :=
  ⟨reachable_curveAt5,
    ⟨_, _, rfl, (setCorrectionTimes_contract (holdCurve _) curveAt5 ⟨3⟩ [5] _ _ (.ok ())
      rfl).1 rfl⟩,
    ⟨_, _, rfl⟩, rfl,
    (setCorrectionTimes_contract (holdCurve _) curveAt5 ⟨3⟩ [0, 8] curveAt5 ⟨3⟩
      (curveAt5.setCorrectionTimes (holdCurve _) [0, 8] ⟨3⟩).2.2 rfl).2.2 _ rfl,
    ⟨_, _, rfl⟩⟩

/-- C14, the claim as stated fails: on `curveAt5` the smallest element of `[7]` differs from
`base.getMinTime() = 5`, and `setCorrectionTimes([7])` fails, but with the `OutOfRange` of
the evaluation of the correction curve at 7 and not with `RangeMismatch`; the curve is
left as it was. -/
theorem setCorrectionTimes_not_rangeMismatch :
    Reachable (holdCurve _) (holdCurve _) curveAt5 ⟨3⟩ ∧
    (7 : Time) ≠ curveAt5.baseCurve_.getMinTime ∧
    curveAt5.setCorrectionTimes (holdCurve _) [7] ⟨3⟩ = (curveAt5, ⟨3⟩, .error .OutOfRange) ∧
    (curveAt5.setCorrectionTimes (holdCurve _) [7] ⟨3⟩).2.2 ≠ .error .RangeMismatch :=
  ⟨reachable_curveAt5, by decide, rfl, fun h => Error.noConfusion (Except.error.inj h)⟩


/-- C15 (amended): when `setCorrectionTimes(times)` fails, the base curve (times, keys and
coefficients) is as it was before the call.  If the failure is that of an evaluation of the
correction curve, the correction curve and the key generator are unchanged too.  If all
evaluations returned, the failure is `RangeMismatch` and it is raised after the correction
curve was cleared and rebuilt: the correction curve then holds exactly the elements of
`times`, under fresh keys (keys the generator issued during the call), each with the value
the former correction curve evaluated to there. -/
theorem setCorrectionTimes_failure_state (C1 : CurveClass V) (c : SE3CompositionCurve V)
    (g : KeyGenerator) (times : List Time) (c1 : SE3CompositionCurve V) (g1 : KeyGenerator)
    (err : Error) (h : c.setCorrectionTimes C1 times g = (c1, g1, .error err)) :
    c1.baseCurve_ = c.baseCurve_ ∧
    ((evaluateAll (C1.evaluate c.correctionCurve_.manager_) times = .error err ∧
        c1 = c ∧ g1 = g) ∨
     ((∃ values, evaluateAll (C1.evaluate c.correctionCurve_.manager_) times = .ok values) ∧
        err = .RangeMismatch ∧
        (∀ t, t ∈ c1.correctionCurve_.manager_.getTimes ↔ t ∈ times) ∧
        g.key ≤ g1.key ∧
        (∀ e ∈ c1.correctionCurve_.manager_.timeToCoefficient_,
          g.key < e.2.key ∧ e.2.key ≤ g1.key) ∧
        ∀ e ∈ c1.correctionCurve_.manager_.timeToCoefficient_,
          C1.evaluate c.correctionCurve_.manager_ e.1 = .ok e.2.coefficient)) := by
  rcases setCorrectionTimes_inv C1 c c1 times g g1 _ h with
    ⟨err1, hev, hc, hg, hres⟩ | ⟨values, keys, hev, hext, hb, hres⟩
  · have herr : err = err1 := Except.error.inj hres
    subst herr
    exact ⟨by rw [hc], Or.inl ⟨hev, hc, hg⟩⟩
  · obtain ⟨_, _, hle, hP, hT⟩ := rebuild_ok _ _ _ _ _ _ _ hext
    refine ⟨hb, Or.inr ⟨⟨values, hev⟩, ?_, hT, hle, rebuild_fresh _ _ _ _ _ _ _ hext, ?_⟩⟩
    · by_cases hcond : c1.correctionCurve_.getMinTime ≠ c.baseCurve_.getMinTime ∨
          c1.correctionCurve_.getMaxTime ≠ c.baseCurve_.getMaxTime
      · rw [if_pos hcond] at hres
        exact Except.error.inj hres
      · rw [if_neg hcond] at hres
        exact Except.noConfusion hres
    · intro e he
      exact (evaluateAll_ok _ _ _ hev).2 _ (hP e he)

theorem setCorrectionTimes_failure_state_witness :
    ∃ c1 g1, curveAt5.setCorrectionTimes (holdCurve _) [0] ⟨3⟩ =
        (c1, g1, .error .RangeMismatch) ∧
      c1.baseCurve_ = curveAt5.baseCurve_ ∧
      ((evaluateAll ((holdCurve _).evaluate curveAt5.correctionCurve_.manager_) [0] =
            .error .RangeMismatch ∧ c1 = curveAt5 ∧ g1 = ⟨3⟩) ∨
       ((∃ values, evaluateAll ((holdCurve _).evaluate curveAt5.correctionCurve_.manager_) [0] =
            .ok values) ∧
          Error.RangeMismatch = .RangeMismatch ∧
          (∀ t, t ∈ c1.correctionCurve_.manager_.getTimes ↔ t ∈ [(0 : Time)]) ∧
          (⟨3⟩ : KeyGenerator).key ≤ g1.key ∧
          (∀ e ∈ c1.correctionCurve_.manager_.timeToCoefficient_,
            (⟨3⟩ : KeyGenerator).key < e.2.key ∧ e.2.key ≤ g1.key) ∧
          ∀ e ∈ c1.correctionCurve_.manager_.timeToCoefficient_,
            (holdCurve _).evaluate curveAt5.correctionCurve_.manager_ e.1 =
              .ok e.2.coefficient)) :=
  ⟨_, _, rfl, setCorrectionTimes_failure_state (holdCurve _) curveAt5 ⟨3⟩ [0] _ _ _ rfl⟩

/-- C15, the claim as stated fails: on `curveAt5`, `setCorrectionTimes([0])` fails with
`RangeMismatch` and the correction curve, which held the times 0 and 5, holds the time 0
only when the call ends, under a key issued during the call. -/
theorem setCorrectionTimes_mutates_on_failure :
    Reachable (holdCurve _) (holdCurve _) curveAt5 ⟨3⟩ ∧
    curveAt5.correctionCurve_.manager_.getTimes = [0, 5] ∧
    curveAt5.correctionCurve_.manager_.getKeys = [1, 2] ∧
    ∃ c1 g1, curveAt5.setCorrectionTimes (holdCurve _) [0] ⟨3⟩ =
        (c1, g1, .error .RangeMismatch) ∧
      c1.correctionCurve_.manager_.getTimes = [0] ∧
      c1.correctionCurve_.manager_.getKeys = [4] ∧
      c1.correctionCurve_.manager_.getTimes ≠ curveAt5.correctionCurve_.manager_.getTimes :=
  ⟨reachable_curveAt5, rfl, rfl, _, _, rfl, rfl, rfl, by decide⟩

/-- C16: on every composition curve `setCorrectionCoefficientAtTime(time, value)` and
`removeCorrectionCoefficientAtTime(time)` fail exactly when the correction curve has no
sample at `time`, and then with `UnknownTime`.  When `setCorrectionCoefficientAtTime`
succeeds, the base curve and the key generator are unchanged, the correction curve keeps
its size, its times and the key at every time, its coefficient at `time` is `value`, and
its entries at all other times are unchanged. -/
theorem point_edits [Mul V] [Inv V] [One V] (C1 C2 : CurveClass V)
    (c : SE3CompositionCurve V) (g : KeyGenerator) (hr : Reachable C1 C2 c g)
    (time : Time) (value : V) :
    ((∃ err, c.setCorrectionCoefficientAtTime time value g = .error err) ↔
      c.correctionCurve_.manager_.hasCoefficientAtTime time = false) ∧
    (c.correctionCurve_.manager_.hasCoefficientAtTime time = false →
      c.setCorrectionCoefficientAtTime time value g = .error .UnknownTime) ∧
    ((∃ err, c.removeCorrectionCoefficientAtTime time = .error err) ↔
      c.correctionCurve_.manager_.hasCoefficientAtTime time = false) ∧
    (c.correctionCurve_.manager_.hasCoefficientAtTime time = false →
      c.removeCorrectionCoefficientAtTime time = .error .UnknownTime) ∧
    (∀ c1 g1, c.setCorrectionCoefficientAtTime time value g = .ok (c1, g1) →
      g1 = g ∧ c1.baseCurve_ = c.baseCurve_ ∧
      c1.correctionCurve_.size = c.correctionCurve_.size ∧
      c1.correctionCurve_.manager_.getTimes = c.correctionCurve_.manager_.getTimes ∧
      c1.correctionCurve_.manager_.getKeys = c.correctionCurve_.manager_.getKeys ∧
      c1.correctionCurve_.manager_.timeToCoefficient_.map (fun e => (e.1, e.2.key)) =
        c.correctionCurve_.manager_.timeToCoefficient_.map (fun e => (e.1, e.2.key)) ∧
      (∃ k, (time, (⟨k, value⟩ : KeyCoefficient V)) ∈
        c1.correctionCurve_.manager_.timeToCoefficient_) ∧
      ∀ e : Time × KeyCoefficient V, e.1 ≠ time →
        (e ∈ c1.correctionCurve_.manager_.timeToCoefficient_ ↔
          e ∈ c.correctionCurve_.manager_.timeToCoefficient_)) := by
  have hv := reachable_valid C1 C2 c g hr
  have hset := setCorrectionCoefficientAtTime_spec c time value g hv
  have hrem := removeCorrectionCoefficientAtTime_spec c time g hv
  refine ⟨?_, ?_, ?_, ?_, ?_⟩
  · constructor
    · rintro ⟨err, herr⟩
      rcases hset with ⟨hno, _⟩ | ⟨kc, _, hok⟩
      · exact hno
      · rw [hok] at herr
        exact Except.noConfusion herr
    · intro hno
      rcases hset with ⟨_, herr⟩ | ⟨kc, hkc, _⟩
      · exact ⟨_, herr⟩
      · rw [LocalSupport2CoefficientManager.hasCoefficientAtTime_of_mem _ _ _ hkc] at hno
        exact Bool.noConfusion hno
  · intro hno
    rcases hset with ⟨_, herr⟩ | ⟨kc, hkc, _⟩
    · exact herr
    · rw [LocalSupport2CoefficientManager.hasCoefficientAtTime_of_mem _ _ _ hkc] at hno
      exact Bool.noConfusion hno
  · constructor
    · rintro ⟨err, herr⟩
      rcases hrem with ⟨hno, _⟩ | ⟨_, c2, hok, _⟩
      · exact hno
      · rw [hok] at herr
        exact Except.noConfusion herr
    · intro hno
      rcases hrem with ⟨_, herr⟩ | ⟨hyes, _⟩
      · exact ⟨_, herr⟩
      · rw [hyes] at hno
        exact Bool.noConfusion hno
  · intro hno
    rcases hrem with ⟨_, herr⟩ | ⟨hyes, _⟩
    · exact herr
    · rw [hyes] at hno
      exact Bool.noConfusion hno
  · intro c1 g1 hok
    rcases hset with ⟨_, herr⟩ | ⟨kc, hkc, hres⟩
    · rw [herr] at hok
      exact Except.noConfusion hok
    · rw [hres] at hok
      have heq := Except.ok.inj hok
      simp only [Prod.mk.injEq] at heq
      obtain ⟨hc, hg⟩ := heq
      subst hc hg
      refine ⟨rfl, rfl, rfl, ?_, ?_, ?_, ?_, ?_⟩
      · simp only [LocalSupport2CoefficientManager.getTimes, map.times_setCoefficient]
      · have hsk := congrArg (List.map Prod.snd) (map.skeleton_setCoefficient
          c.correctionCurve_.manager_.timeToCoefficient_
          (map.find c.correctionCurve_.manager_.timeToCoefficient_ time) value)
        simpa [LocalSupport2CoefficientManager.getKeys, LocalSupport2CoefficientManager.appendKeys,
          List.map_map, Function.comp_def] using hsk
      · exact map.skeleton_setCoefficient _ _ _
      · exact ⟨kc.key, (map.mem_setCoefficient_find _ hv.correction.ascending time kc value
          hkc _).mpr (Or.inl rfl)⟩
      · intro e he
        rw [map.mem_setCoefficient_find _ hv.correction.ascending time kc value hkc e]
        constructor
        · rintro (h1 | h1)
          · subst h1
            exact absurd rfl he
          · exact h1.1
        · exact fun h1 => Or.inr ⟨h1, he⟩

theorem point_edits_witness :
    Reachable (holdCurve _) (holdCurve _) curveAt5 ⟨3⟩ ∧
    curveAt5.setCorrectionCoefficientAtTime 5 (Multiplicative.ofAdd 2) ⟨3⟩ =
      .ok (curveAt5Corrected, ⟨3⟩) ∧
    curveAt5.setCorrectionCoefficientAtTime 4 (Multiplicative.ofAdd 2) ⟨3⟩ =
      .error .UnknownTime ∧
    curveAt5.removeCorrectionCoefficientAtTime 4 = .error .UnknownTime ∧
    curveAt5.removeCorrectionCoefficientAtTime 5 = .ok curveAt5Removed ∧
    ((∃ err, curveAt5.setCorrectionCoefficientAtTime 4 (Multiplicative.ofAdd 2) ⟨3⟩ =
        .error err) ↔
      curveAt5.correctionCurve_.manager_.hasCoefficientAtTime 4 = false) :=
  ⟨reachable_curveAt5, rfl, rfl, rfl, rfl,
    (point_edits (holdCurve _) (holdCurve _) curveAt5 ⟨3⟩ reachable_curveAt5 4
      (Multiplicative.ofAdd 2)).1⟩

end SE3CompositionCurve

/-! ### Padding of the correction curve -/

namespace SE3CompositionCurve
variable {V : Type}

/-- With the removal of the store, which is modelled from the spec, a correction curve can
end before the base curve: `curveAt5Removed` is `curveAt5` after
`removeCorrectionCoefficientAtTime(5)`, with correction times `[0]` and base times `[5]`.
There `extend([3], [1])` pads the correction curve at the maximum time 5 of the base
curve, the new maximum of the aggregate range, and not at 3. -/
theorem extend_after_removal :
    Reachable (holdCurve _) (holdCurve _) curveAt5Removed ⟨3⟩ ∧
    curveAt5Removed.correctionCurve_.isEmpty = false ∧
    curveAt5Removed.correctionCurve_.getMaxTime < 3 ∧
    ∃ c1 g1, curveAt5Removed.extend (holdCurve _) [3] [Multiplicative.ofAdd 1] none ⟨3⟩ =
        .ok (c1, g1, none) ∧
      c1.correctionCurve_.manager_.getTimes = [0, 5] ∧
      c1.correctionCurve_.manager_.hasCoefficientAtTime 3 = false :=
  ⟨reachable_curveAt5Removed, rfl, by decide, _, _, rfl, rfl, rfl⟩

end SE3CompositionCurve

/-! ### The first `extend` -/

namespace SE3CompositionCurve
variable {V : Type}

/-- The three steps of `extend` on an empty correction curve, for limits `lo <= hi`: they
return, and the correction curve then holds the identity at `lo` and at `hi` and nothing
else. -/
theorem first_extend_correction [One V] (C1 : CurveClass V) (hC1 : SampleExact C1)
    (lo hi : Time) (hle : lo ≤ hi) (g : KeyGenerator) :
    ∃ p1 p2 p3, seedCorrection ⟨[], [], (new : SE3CompositionCurve V).correctionCurve_, g⟩ lo =
        .ok p1 ∧ padMax C1 p1 hi = .ok p2 ∧ padMin C1 p2 lo = .ok p3 ∧
      p3.correctionCurve_.manager_.WellFormed ∧ g.key ≤ p3.generator.key ∧
      (∀ e ∈ p3.correctionCurve_.manager_.timeToCoefficient_, e.2.coefficient = 1) ∧
      (∀ s, s ∈ p3.correctionCurve_.manager_.getTimes ↔ s = lo ∨ s = hi) := by
  have wn : (new : SE3CompositionCurve V).correctionCurve_.manager_.WellFormed :=
    LocalSupport2CoefficientManager.wellFormed_new
  have iss : (new : SE3CompositionCurve V).correctionCurve_.manager_.Issued g := by
    intro k n hmem
    simp [new, LocalSupport2CoefficientManager.new] at hmem
  obtain ⟨cv1, g1, k1, hx1⟩ := Curve.extend_returns _ wn g iss [lo] [(1 : V)] none rfl
  have hs1 : seedCorrection ⟨[], [], (new : SE3CompositionCurve V).correctionCurve_, g⟩ lo =
      .ok ⟨[lo], [1], cv1, g1⟩ := by
    have hemp : (new : SE3CompositionCurve V).correctionCurve_.isEmpty = true := rfl
    simp only [seedCorrection, hemp, if_true, List.nil_append, hx1]
  obtain ⟨_, w1, i1, le1, hP1, _, hT1, _⟩ := Curve.extend_ok _ _ wn _ _ iss _ _ _ _ hx1
  have times1 : ∀ s, s ∈ cv1.manager_.getTimes ↔ s = lo := by
    intro s
    rw [hT1 s]
    simp [new, LocalSupport2CoefficientManager.new, LocalSupport2CoefficientManager.getTimes]
  have coeff1 : ∀ e ∈ cv1.manager_.timeToCoefficient_, e.2.coefficient = 1 := by
    intro e he
    rcases hP1 e he with h1 | ⟨h1, _⟩
    · simp only [List.zip_cons_cons, List.zip_nil_right, List.mem_singleton,
        Prod.mk.injEq] at h1
      exact h1.2
    · simp [new, LocalSupport2CoefficientManager.new] at h1
  obtain ⟨hmin1, hmax1⟩ := limits_of_bounds cv1.manager_ w1 lo lo ((times1 lo).mpr rfl)
    ((times1 lo).mpr rfl) (fun s hs => by rw [(times1 s).mp hs]; exact ⟨le_refl _, le_refl _⟩)
  by_cases hfire : lo < hi
  · obtain ⟨kc, hkc⟩ := (LocalSupport2CoefficientManager.mem_getTimes_iff _ _).mp
      ((times1 lo).mpr rfl)
    have hev : C1.evaluate cv1.manager_ lo = .ok 1 := by
      have := hC1 _ w1 lo kc.key kc.coefficient hkc
      rw [coeff1 _ hkc] at this
      exact this
    obtain ⟨cv2, g2, k2, hx2⟩ := Curve.extend_returns cv1 w1 g1 i1 [lo, hi] [(1 : V), 1] none rfl
    have hs2 : padMax C1 ⟨[lo], [1], cv1, g1⟩ hi = .ok ⟨[lo, hi], [1, 1], cv2, g2⟩ := by
      simp only [padMax, Curve.getMaxTime, hmax1, hfire, if_true, hev, List.singleton_append, hx2]
    obtain ⟨_, w2, i2, le2, hP2, _, hT2, _⟩ := Curve.extend_ok _ _ w1 _ _ i1 _ _ _ _ hx2
    have times2 : ∀ s, s ∈ cv2.manager_.getTimes ↔ s = lo ∨ s = hi := by
      intro s
      rw [hT2 s, times1 s]
      simp only [List.mem_cons, List.mem_singleton, List.not_mem_nil, or_false]
      tauto
    have coeff2 : ∀ e ∈ cv2.manager_.timeToCoefficient_, e.2.coefficient = 1 := by
      intro e he
      rcases hP2 e he with h1 | ⟨h1, _⟩
      · simp only [List.zip_cons_cons, List.zip_nil_right, List.mem_cons, List.mem_singleton,
          Prod.mk.injEq, List.not_mem_nil, or_false] at h1
        rcases h1 with h1 | h1
        · exact h1.2
        · exact h1.2
      · exact coeff1 e h1
    obtain ⟨hmin2, _⟩ := limits_of_bounds cv2.manager_ w2 lo hi ((times2 lo).mpr (Or.inl rfl))
      ((times2 hi).mpr (Or.inr rfl)) (fun s hs => by
        rcases (times2 s).mp hs with h1 | h1
        · rw [h1]; exact ⟨le_refl _, hle⟩
        · rw [h1]; exact ⟨hle, le_refl _⟩)
    have hs3 : padMin C1 ⟨[lo, hi], [1, 1], cv2, g2⟩ lo = .ok ⟨[lo, hi], [1, 1], cv2, g2⟩ := by
      simp only [padMin, Curve.getMinTime, hmin2, gt_iff_lt, lt_self_iff_false, if_false]
    exact ⟨_, _, _, hs1, hs2, hs3, w2, Nat.le_trans le1 le2, coeff2, times2⟩
  · have heq : hi = lo := le_antisymm (not_lt.mp hfire) hle
    have hs2 : padMax C1 ⟨[lo], [1], cv1, g1⟩ hi = .ok ⟨[lo], [1], cv1, g1⟩ := by
      simp only [padMax, Curve.getMaxTime, hmax1, hfire, if_false]
    have hs3 : padMin C1 ⟨[lo], [1], cv1, g1⟩ lo = .ok ⟨[lo], [1], cv1, g1⟩ := by
      simp only [padMin, Curve.getMinTime, hmin1, gt_iff_lt, lt_self_iff_false, if_false]
    refine ⟨_, _, _, hs1, hs2, hs3, w1, le1, coeff1, ?_⟩
    intro s
    rw [times1 s, heq]
    simp

/-- C17 (amended): with a correction curve class that returns the stored coefficient at a
sample time, `extend([t], [v])` on an empty composition curve returns.  The new limit times
are `newMinTime = min(0, t)` and `newMaxTime = max(0, t)`, because both start at 0 on an
empty base curve.  The correction curve is seeded with the identity at `min(0, t)` and
padded with it at `max(0, t)`; afterwards it has an identity sample at `t`, all its samples
are the identity, `base.getMinTime() == t`, and `correction.getMinTime() == min(0, t)`. -/
theorem first_extend_seeds [Mul V] [Inv V] [One V] (C1 : CurveClass V) (hC1 : SampleExact C1)
    (t : Time) (v : V) (outKeys : Option (List Key)) (g : KeyGenerator) :
    ∃ c1 g1 keys, (new : SE3CompositionCurve V).extend C1 [t] [v] outKeys g = .ok (c1, g1, keys) ∧
      (new : SE3CompositionCurve V).newLimits [t] = (max 0 t, min 0 t) ∧
      (∃ k, (min 0 t, (⟨k, 1⟩ : KeyCoefficient V)) ∈
        c1.correctionCurve_.manager_.timeToCoefficient_) ∧
      (∃ k, (t, (⟨k, 1⟩ : KeyCoefficient V)) ∈ c1.correctionCurve_.manager_.timeToCoefficient_) ∧
      (∀ e ∈ c1.correctionCurve_.manager_.timeToCoefficient_, e.2.coefficient = 1) ∧
      (∀ s, s ∈ c1.correctionCurve_.manager_.getTimes ↔ s = min 0 t ∨ s = max 0 t) ∧
      c1.correctionCurve_.getMinTime = min 0 t ∧ c1.correctionCurve_.getMaxTime = max 0 t ∧
      c1.baseCurve_.getMinTime = t ∧ c1.baseCurve_.getMaxTime = t := by
  have wb : (new : SE3CompositionCurve V).baseCurve_.manager_.WellFormed :=
    LocalSupport2CoefficientManager.wellFormed_new
  have hlim : (new : SE3CompositionCurve V).newLimits [t] = (max 0 t, min 0 t) :=
    newLimits_single new wb t
  have hle : min (0 : Time) t ≤ max 0 t := le_trans (min_le_left _ _) (le_max_left _ _)
  obtain ⟨p1, p2, p3, hs1, hs2, hs3, w3, le3, coeff3, times3⟩ :=
    first_extend_correction C1 hC1 (min 0 t) (max 0 t) hle g
  have ht : t = min 0 t ∨ t = max 0 t := by
    rcases le_total (0 : Time) t with h0 | h0
    · exact Or.inr (max_eq_right h0).symm
    · exact Or.inl (min_eq_right h0).symm
  have entry : ∀ s, s ∈ p3.correctionCurve_.manager_.getTimes →
      ∃ k, (s, (⟨k, 1⟩ : KeyCoefficient V)) ∈ p3.correctionCurve_.manager_.timeToCoefficient_ := by
    intro s hs
    obtain ⟨kc, hkc⟩ := (LocalSupport2CoefficientManager.mem_getTimes_iff _ _).mp hs
    refine ⟨kc.key, ?_⟩
    have := coeff3 _ hkc
    simp only at this
    rw [← this]
    exact hkc
  obtain ⟨kt, hkt⟩ := entry t ((times3 t).mpr ht)
  have hev : C1.evaluate p3.correctionCurve_.manager_ t = .ok 1 := hC1 _ w3 t kt 1 hkt
  have ib : (new : SE3CompositionCurve V).baseCurve_.manager_.Issued p3.generator := by
    intro k n hmem
    simp [new, LocalSupport2CoefficientManager.new] at hmem
  obtain ⟨b, g4, keys, hxb⟩ := Curve.extend_returns _ wb p3.generator ib [t] [(1 : V)⁻¹ * v]
    outKeys rfl
  obtain ⟨_, w4, _, _, _, _, hT4, _⟩ := Curve.extend_ok _ _ wb _ _ ib _ _ _ _ hxb
  have timesb : ∀ s, s ∈ b.manager_.getTimes ↔ s = t := by
    intro s
    rw [hT4 s]
    simp [new, LocalSupport2CoefficientManager.new, LocalSupport2CoefficientManager.getTimes]
  obtain ⟨hminb, hmaxb⟩ := limits_of_bounds b.manager_ w4 t t ((timesb t).mpr rfl)
    ((timesb t).mpr rfl) (fun s hs => by rw [(timesb s).mp hs]; exact ⟨le_refl _, le_refl _⟩)
  obtain ⟨hminc, hmaxc⟩ := limits_of_bounds p3.correctionCurve_.manager_ w3 (min 0 t) (max 0 t)
    ((times3 _).mpr (Or.inl rfl)) ((times3 _).mpr (Or.inr rfl)) (fun s hs => by
      rcases (times3 s).mp hs with h1 | h1
      · rw [h1]; exact ⟨le_refl _, hle⟩
      · rw [h1]; exact ⟨hle, le_refl _⟩)
  refine ⟨⟨b, p3.correctionCurve_⟩, g4, keys, ?_, hlim,
    entry _ ((times3 _).mpr (Or.inl rfl)), ⟨kt, hkt⟩, coeff3, times3, hminc, hmaxc, hminb, hmaxb⟩
  simp only [extend, List.length_singleton, ne_eq, not_true_eq_false, if_false, hlim, hs1, hs2,
    hs3, baseUpdates, hev, hxb]

theorem first_extend_seeds_witness :
    SampleExact (holdCurve (Multiplicative ℤ)) ∧
    (new : SE3CompositionCurve (Multiplicative ℤ)).extend (holdCurve _) [5]
      [Multiplicative.ofAdd 7] none ⟨0⟩ = .ok (curveAt5, ⟨3⟩, none) ∧
    ∃ c1 g1 keys, (new : SE3CompositionCurve (Multiplicative ℤ)).extend (holdCurve _) [5]
        [Multiplicative.ofAdd 7] none ⟨0⟩ = .ok (c1, g1, keys) ∧
      (new : SE3CompositionCurve (Multiplicative ℤ)).newLimits [5] = (max 0 5, min 0 5) ∧
      (∃ k, (min 0 5, (⟨k, 1⟩ : KeyCoefficient (Multiplicative ℤ))) ∈
        c1.correctionCurve_.manager_.timeToCoefficient_) ∧
      (∃ k, (5, (⟨k, 1⟩ : KeyCoefficient (Multiplicative ℤ))) ∈
        c1.correctionCurve_.manager_.timeToCoefficient_) ∧
      (∀ e ∈ c1.correctionCurve_.manager_.timeToCoefficient_, e.2.coefficient = 1) ∧
      (∀ s, s ∈ c1.correctionCurve_.manager_.getTimes ↔ s = min 0 5 ∨ s = max 0 5) ∧
      c1.correctionCurve_.getMinTime = min 0 5 ∧ c1.correctionCurve_.getMaxTime = max 0 5 ∧
      c1.baseCurve_.getMinTime = 5 ∧ c1.baseCurve_.getMaxTime = 5 :=
  ⟨sampleExact_holdCurve, rfl,
    first_extend_seeds (holdCurve _) sampleExact_holdCurve 5 (Multiplicative.ofAdd 7) none ⟨0⟩⟩

/-- C17, the claim as stated fails: `extend([5], [7])` on the empty composition curve gives
`curveAt5`; the new limit times are 0 and 5, the correction curve is seeded at 0, and
afterwards `correction.getMinTime()` is 0 while `base.getMinTime()` is 5. -/
theorem first_extend_range_includes_zero :
    (new : SE3CompositionCurve (Multiplicative ℤ)).extend (holdCurve _) [5]
      [Multiplicative.ofAdd 7] none ⟨0⟩ = .ok (curveAt5, ⟨3⟩, none) ∧
    (new : SE3CompositionCurve (Multiplicative ℤ)).newLimits [5] = (5, 0) ∧
    curveAt5.correctionCurve_.manager_.getTimes = [0, 5] ∧
    curveAt5.correctionCurve_.getMinTime = 0 ∧ curveAt5.baseCurve_.getMinTime = 5 ∧
    curveAt5.correctionCurve_.getMinTime ≠ curveAt5.baseCurve_.getMinTime :=
  ⟨rfl, rfl, rfl, rfl, rfl, by decide⟩

end SE3CompositionCurve

/-! ### The two composition strategies -/

namespace SE3CompositionCurve
variable {V : Type}

/-- With at least two samples in the base curve, strategy 2 at a base sample time takes
the simple composition: the bracket is found and one of its ends is the query time. -/
theorem evaluateStrategy2_at_sample [Mul V] (C1 C2 : CurveClass V)
    (interpolate : V → V → Time → Time → Time → V) (c : SE3CompositionCurve V)
    (hs : c.baseCurve_.manager_.TimesAscending)
    (h2 : 2 ≤ c.baseCurve_.manager_.timeToCoefficient_.length) (time : Time)
    (ht : time ∈ c.baseCurve_.manager_.getTimes) :
    c.evaluateStrategy2 C1 C2 interpolate time = c.evaluate C1 C2 time := by
  by_cases h0 : time = 0
  · simp only [evaluateStrategy2, h0, if_true]
  · have hmin := LocalSupport2CoefficientManager.getMinTime_le_of_mem _ hs time ht
    have hmax := LocalSupport2CoefficientManager.le_getMaxTime_of_mem _ hs time ht
    rcases eq_or_lt_of_le hmax with heq | hlt
    · obtain ⟨lower, upper, hget, hlower, hupper, _, hup⟩ :=
        LocalSupport2CoefficientManager.getCoefficientsAt_max _ hs h2
      rw [← heq] at hget hup
      simp only [evaluateStrategy2, h0, if_false, hget, map.deref, hlower, hupper, hup, or_true,
        if_true]
    · obtain ⟨i, lower, upper, hget, hlower, hupper, hle, hlt1⟩ :=
        LocalSupport2CoefficientManager.getCoefficientsAt_interior _ hs time hmin hlt
      obtain ⟨kc, hkc⟩ := (LocalSupport2CoefficientManager.mem_getTimes_iff _ _).mp ht
      obtain ⟨j, hj⟩ := List.getElem?_of_mem hkc
      have hlow : lower.1 = time := by
        rcases Nat.lt_or_ge i j with hij | hij
        · have := map.ascending_getElem?_le _ hs (i + 1) j upper (time, kc) hupper hj hij
          exact absurd (lt_of_lt_of_le hlt1 this) (lt_irrefl _)
        · have := map.ascending_getElem?_le _ hs j i (time, kc) lower hj hlower hij
          exact le_antisymm hle this
      simp only [evaluateStrategy2, h0, if_false, hget, map.deref, hlower, hupper, hlow, true_or,
        if_true]

/-- Strategy 1 where the correction curve evaluates to the identity: the result is the
base curve's value. -/
theorem evaluate_identity [MulOneClass V] (C1 C2 : CurveClass V) (c : SE3CompositionCurve V)
    (time : Time) (h : C1.evaluate c.correctionCurve_.manager_ time = .ok 1) :
    c.evaluate C1 C2 time = C2.evaluate c.baseCurve_.manager_ time := by
  unfold evaluate
  rw [h]
  cases C2.evaluate c.baseCurve_.manager_ time with
  | error err => rfl
  | ok b => simp only [one_mul]

/-- C19, the code misses a case: after `extend([5], [7])` on the empty composition curve the
base curve has the single sample time 5.  `getCoefficientsAt(5)` returns `false` there and
writes no iterator, strategy 2 does not look at the return value and dereferences `it1`,
while strategy 1 returns `correction.evaluate(5) * base.evaluate(5) = 7`. -/
theorem strategy2_single_sample :
    (new : SE3CompositionCurve (Multiplicative ℤ)).extend (holdCurve _) [5]
      [Multiplicative.ofAdd 7] none ⟨0⟩ = .ok (curveAt5, ⟨3⟩, none) ∧
    (5 : Time) ∈ curveAt5.baseCurve_.manager_.getTimes ∧
    curveAt5.baseCurve_.manager_.getCoefficientsAt 5 = none ∧
    (∀ interpolate, curveAt5.evaluateStrategy2 (holdCurve _) (holdCurve _) interpolate 5 =
      .error .InvalidIterator) ∧
    (holdCurve _).evaluate curveAt5.correctionCurve_.manager_ 5 = .ok 1 ∧
    (holdCurve _).evaluate curveAt5.baseCurve_.manager_ 5 = .ok (Multiplicative.ofAdd 7) ∧
    curveAt5.evaluate (holdCurve _) (holdCurve _) 5 = .ok (1 * Multiplicative.ofAdd 7) :=
  ⟨rfl, by decide, rfl, fun _ => rfl, rfl, rfl, rfl⟩

/-- C20, the code misses a case under strategy 2: every correction sample of the curve
obtained by `extend([5], [7])` on the empty composition curve is the identity and 5 is in its
range; strategy 1 returns `base.evaluate(5) = 7`, strategy 2 dereferences an iterator that
`getCoefficientsAt` did not write. -/
theorem degeneracy_single_sample :
    (∀ e ∈ curveAt5.correctionCurve_.manager_.timeToCoefficient_, e.2.coefficient = 1) ∧
    curveAt5.getMinTime ≤ 5 ∧ 5 ≤ curveAt5.getMaxTime ∧
    curveAt5.evaluate (holdCurve _) (holdCurve _) 5 =
      (holdCurve _).evaluate curveAt5.baseCurve_.manager_ 5 ∧
    (holdCurve _).evaluate curveAt5.baseCurve_.manager_ 5 = .ok (Multiplicative.ofAdd 7) ∧
    (∀ interpolate, curveAt5.evaluateStrategy2 (holdCurve _) (holdCurve _) interpolate 5 ≠
      (holdCurve _).evaluate curveAt5.baseCurve_.manager_ 5) :=
  ⟨by decide, by decide, by decide, rfl, rfl, fun _ h => Except.noConfusion h⟩

end SE3CompositionCurve

/-! ## Writes by key, batch calls and the state a failed call leaves -/

namespace LocalSupport2CoefficientManager
variable {C : Type}

theorem hasCoefficientWithKey_eq_false_iff (m : LocalSupport2CoefficientManager C) (k : Key) :
    m.hasCoefficientWithKey k = false ↔ unordered_map.find m.keyToCoefficient_ k = none := by
  unfold hasCoefficientWithKey
  cases unordered_map.find m.keyToCoefficient_ k <;> simp

theorem hasCoefficientWithKey_eq_true_iff (m : LocalSupport2CoefficientManager C) (k : Key) :
    m.hasCoefficientWithKey k = true ↔ ∃ node, unordered_map.find m.keyToCoefficient_ k = some node := by
  unfold hasCoefficientWithKey
  cases unordered_map.find m.keyToCoefficient_ k <;> simp

/-- A successful `setCoefficientByKey(k, c)` on a well-formed store: the key index and the
times and keys of the time index are unchanged, and the entries of other keys are
unchanged. -/
theorem setCoefficientByKey_entries (m m1 : LocalSupport2CoefficientManager C)
    (hwf : m.WellFormed) (k : Key) (c : C) (h : m.setCoefficientByKey k c = .ok m1) :
    m1.keyToCoefficient_ = m.keyToCoefficient_ ∧
    m1.timeToCoefficient_.map (fun e => (e.1, e.2.key)) =
      m.timeToCoefficient_.map (fun e => (e.1, e.2.key)) ∧
    m1.getTimes = m.getTimes ∧
    (∃ t, (t, (⟨k, c⟩ : KeyCoefficient C)) ∈ m1.timeToCoefficient_) ∧
    (∀ e : Time × KeyCoefficient C, e.2.key ≠ k →
      (e ∈ m1.timeToCoefficient_ ↔ e ∈ m.timeToCoefficient_)) := by
  cases hfind : unordered_map.find m.keyToCoefficient_ k with
  | none =>
    rw [setCoefficientByKey_unknown m k c hfind] at h
    exact Except.noConfusion h
  | some node =>
    have hmem := unordered_map.um_mem_of_find _ _ _ hfind
    rw [setCoefficientByKey_eq m hwf k node c hmem] at h
    have hm1 := (Except.ok.inj h).symm
    obtain ⟨c0, hc0⟩ := hwf.i1.2.1 k node hmem
    have hiff := map.mem_setCoefficient_find m.timeToCoefficient_ hwf.ascending node ⟨k, c0⟩ c hc0
    subst hm1
    refine ⟨rfl, map.skeleton_setCoefficient _ _ _, ?_, ⟨node, (hiff _).mpr (Or.inl rfl)⟩, ?_⟩
    · simp only [getTimes, map.times_setCoefficient]
    · intro e hk
      rw [hiff e]
      constructor
      · rintro (heq | ⟨he, _⟩)
        · rw [heq] at hk
          exact absurd rfl hk
        · exact he
      · intro he
        refine Or.inr ⟨he, ?_⟩
        intro hnode
        have : e.2 = ⟨k, c0⟩ := map.entry_unique _ hwf.ascending node e.2 ⟨k, c0⟩
          (by rw [← hnode]; exact he) hc0
        rw [this] at hk
        exact absurd rfl hk

/-- C21: on every store `setCoefficientByKey(k, c)` fails exactly when
`hasCoefficientWithKey(k)` is false, and then with `UnknownKey`; `getCoefficientByKey(k)`
fails in exactly the same cases, with `UnknownKey` too.  When `setCoefficientByKey`
succeeds, `getCoefficientByKey(k)` is `c` afterwards, and `size()`, the sequence of times,
the key stored at every time, the key index and the coefficient of every other key are
unchanged. -/
theorem setCoefficientByKey_frame (m : LocalSupport2CoefficientManager C) (g : KeyGenerator)
    (hr : Reachable m g) (k : Key) (c : C) :
    ((∃ err, m.setCoefficientByKey k c = .error err) ↔ m.hasCoefficientWithKey k = false) ∧
    (m.setCoefficientByKey k c = .error .UnknownKey ↔ m.hasCoefficientWithKey k = false) ∧
    ((∃ err, m.getCoefficientByKey k = .error err) ↔ m.hasCoefficientWithKey k = false) ∧
    (m.getCoefficientByKey k = .error .UnknownKey ↔ m.hasCoefficientWithKey k = false) ∧
    (m.hasCoefficientWithKey k = true → ∃ m1, m.setCoefficientByKey k c = .ok m1) ∧
    ∀ m1, m.setCoefficientByKey k c = .ok m1 →
      m1.getCoefficientByKey k = .ok c ∧ m1.size = m.size ∧ m1.getTimes = m.getTimes ∧
      m1.getKeys = m.getKeys ∧
      m1.timeToCoefficient_.map (fun e => (e.1, e.2.key)) =
        m.timeToCoefficient_.map (fun e => (e.1, e.2.key)) ∧
      m1.keyToCoefficient_ = m.keyToCoefficient_ ∧
      (∀ k1, k1 ≠ k → m1.getCoefficientByKey k1 = m.getCoefficientByKey k1) ∧
      (∀ e : Time × KeyCoefficient C, e.2.key ≠ k →
        (e ∈ m1.timeToCoefficient_ ↔ e ∈ m.timeToCoefficient_)) := by
  have hwf := (reachable_wellFormed m g hr).1
  have hset : m.hasCoefficientWithKey k = true → ∃ m1, m.setCoefficientByKey k c = .ok m1 := by
    intro hhas
    obtain ⟨node, hfind⟩ := (hasCoefficientWithKey_eq_true_iff m k).mp hhas
    exact ⟨_, setCoefficientByKey_eq m hwf k node c (unordered_map.um_mem_of_find _ _ _ hfind)⟩
  have hsetU : m.hasCoefficientWithKey k = false → m.setCoefficientByKey k c = .error .UnknownKey :=
    fun hhas => setCoefficientByKey_unknown m k c ((hasCoefficientWithKey_eq_false_iff m k).mp hhas)
  have hgetU : m.hasCoefficientWithKey k = false → m.getCoefficientByKey k = .error .UnknownKey :=
    fun hhas => getCoefficientByKey_of_find_none m k
      ((hasCoefficientWithKey_eq_false_iff m k).mp hhas)
  have hsetF : (∃ err, m.setCoefficientByKey k c = .error err) →
      m.hasCoefficientWithKey k = false := by
    rintro ⟨err, herr⟩
    cases hhas : m.hasCoefficientWithKey k with
    | false => rfl
    | true =>
      obtain ⟨m1, hm1⟩ := hset hhas
      rw [hm1] at herr
      exact Except.noConfusion herr
  have hgetF : (∃ err, m.getCoefficientByKey k = .error err) →
      m.hasCoefficientWithKey k = false := by
    rintro ⟨err, herr⟩
    cases hhas : m.hasCoefficientWithKey k with
    | false => rfl
    | true =>
      obtain ⟨c1, hc1⟩ := getCoefficientByKey_of_has m hwf k hhas
      rw [hc1] at herr
      exact Except.noConfusion herr
  refine ⟨⟨hsetF, fun hhas => ⟨_, hsetU hhas⟩⟩, ⟨fun h => hsetF ⟨_, h⟩, hsetU⟩,
    ⟨hgetF, fun hhas => ⟨_, hgetU hhas⟩⟩, ⟨fun h => hgetF ⟨_, h⟩, hgetU⟩, hset, ?_⟩
  intro m1 h
  obtain ⟨hK, hskel, htimes, _, hframe⟩ := setCoefficientByKey_entries m m1 hwf k c h
  have hreads := setCoefficientByKey_reads m m1 hwf k c h
  refine ⟨?_, ?_, htimes, ?_, hskel, hK, ?_, hframe⟩
  · rw [hreads k, if_pos rfl]
  · simp only [size, hK]
  · have := congrArg (List.map (fun p : Time × Key => p.2)) hskel
    simpa [getKeys, appendKeys, List.map_map, Function.comp_def] using this
  · intro k1 hk1
    rw [hreads k1, if_neg (fun heq => hk1 heq.symm)]

theorem setCoefficientByKey_frame_witness :
    Reachable store135 ⟨3⟩ ∧ store135.hasCoefficientWithKey 1 = true ∧
    store135.hasCoefficientWithKey 7 = false ∧
    store135.setCoefficientByKey 7 0 = .error .UnknownKey ∧
    store135.getCoefficientByKey 7 = .error .UnknownKey ∧
    ∃ m1, store135.setCoefficientByKey 1 99 = .ok m1 ∧
      m1.getCoefficientByKey 1 = .ok 99 ∧ m1.size = store135.size ∧
      m1.getTimes = store135.getTimes ∧ m1.getKeys = store135.getKeys ∧
      m1.timeToCoefficient_.map (fun e => (e.1, e.2.key)) =
        store135.timeToCoefficient_.map (fun e => (e.1, e.2.key)) ∧
      m1.keyToCoefficient_ = store135.keyToCoefficient_ ∧
      (∀ k1, k1 ≠ 1 → m1.getCoefficientByKey k1 = store135.getCoefficientByKey k1) ∧
      (∀ e : Time × KeyCoefficient Nat, e.2.key ≠ 1 →
        (e ∈ m1.timeToCoefficient_ ↔ e ∈ store135.timeToCoefficient_)) :=
  ⟨reachable_store135, rfl, rfl,
    (setCoefficientByKey_frame store135 ⟨3⟩ reachable_store135 7 0).2.1.mpr rfl,
    rfl, _, rfl,
    (setCoefficientByKey_frame store135 ⟨3⟩ reachable_store135 1 99).2.2.2.2.2 _ rfl⟩

end LocalSupport2CoefficientManager

/-! ### The batch insert and the single inserts -/

namespace LocalSupport2CoefficientManager
variable {C : Type}

theorem insertLoop_eq_result (calls : List (Time × C)) (m : LocalSupport2CoefficientManager C)
    (g : KeyGenerator) (outKeys : Option (List Key)) :
    insertLoop m g calls outKeys = result (insertLoopExit m g calls outKeys) := by
  induction calls generalizing m g outKeys with
  | nil => rfl
  | cons p rest ih =>
    obtain ⟨t, v⟩ := p
    unfold insertLoop insertLoopExit
    cases m.insertCoefficient t v g with
    | error err => rfl
    | ok r => exact ih _ _ _

theorem insertCoefficients_eq_result (m : LocalSupport2CoefficientManager C) (times : List Time)
    (values : List C) (outKeys : Option (List Key)) (g : KeyGenerator) :
    m.insertCoefficients times values outKeys g =
      result (m.insertCoefficientsExit times values outKeys g) := by
  unfold insertCoefficients insertCoefficientsExit
  by_cases h : times.length = values.length
  · rw [if_pos h, if_pos h]
    exact insertLoop_eq_result _ _ _ _
  · rw [if_neg h, if_neg h]
    rfl

/-- The loop of `insertCoefficients` over the paired inputs does what the calls of
`insertCoefficient` one after the other do. -/
theorem insertLoop_zip (times : List Time) (values : List C)
    (m : LocalSupport2CoefficientManager C) (g : KeyGenerator) (outKeys : Option (List Key)) :
    insertLoop m g (times.zip values) outKeys =
      match m.insertEach g times values with
      | .error err => .error err
      | .ok (m1, g1, keys) => .ok (m1, g1, outKeys.map (fun ks => ks ++ keys)) := by
  induction times generalizing values m g outKeys with
  | nil =>
    cases outKeys <;> simp [insertLoop, insertEach]
  | cons t ts ih =>
    cases values with
    | nil => cases outKeys <;> simp [insertLoop, insertEach]
    | cons v vs =>
      simp only [List.zip_cons_cons, insertLoop, insertEach]
      cases m.insertCoefficient t v g with
      | error err => rfl
      | ok r =>
        obtain ⟨key, m1, g1⟩ := r
        simp only
        refine (ih vs m1 g1 _).trans ?_
        cases insertEach m1 g1 ts vs with
        | error err => rfl
        | ok r2 =>
          obtain ⟨m2, g2, keys⟩ := r2
          cases outKeys <;> simp

/-- One `insertCoefficient`: the entry at the time carries the returned key, and every
time that was stored keeps its key. -/
theorem insertCoefficient_persist (m : LocalSupport2CoefficientManager C) (hwf : m.WellFormed)
    (g : KeyGenerator) (hi : m.Issued g) (t : Time) (c : C) :
    ∃ key m1 g1, m.insertCoefficient t c g = .ok (key, m1, g1) ∧ m1.WellFormed ∧ m1.Issued g1 ∧
      (t, (⟨key, c⟩ : KeyCoefficient C)) ∈ m1.timeToCoefficient_ ∧
      ∀ e ∈ m.timeToCoefficient_, ∃ c1,
        (e.1, (⟨e.2.key, c1⟩ : KeyCoefficient C)) ∈ m1.timeToCoefficient_ := by
  obtain ⟨key, m1, g1, hins, hwf1, hi1, _, hiff⟩ := insertCoefficient_entries m hwf g hi t c
  refine ⟨key, m1, g1, hins, hwf1, hi1, (hiff _).mpr (Or.inl rfl), ?_⟩
  intro e he
  by_cases het : e.1 = t
  · have hpres := insertCoefficient_present m hwf t e.2 c g (by rw [← het]; exact he)
    rw [hpres] at hins
    have hkey : e.2.key = key := (Prod.mk.inj (Except.ok.inj hins)).1
    exact ⟨c, by rw [het, hkey]; exact (hiff _).mpr (Or.inl rfl)⟩
  · exact ⟨e.2.coefficient, (hiff _).mpr (Or.inr ⟨he, het⟩)⟩

/-- The calls of `insertCoefficient` one after the other on a well-formed store return;
there is one key per call, and the key reported at a position is the key stored, when
the calls are over, at the time of that position. -/
theorem insertEach_keys (times : List Time) (values : List C)
    (hlen : times.length = values.length) (m : LocalSupport2CoefficientManager C)
    (hwf : m.WellFormed) (g : KeyGenerator) (hi : m.Issued g) :
    ∃ m1 g1, ∃ keys : List Key, m.insertEach g times values = .ok (m1, g1, keys) ∧
      m1.WellFormed ∧ keys.length = times.length ∧
      (∀ (i : Nat) (t : Time), times[i]? = some t → ∃ k c, keys[i]? = some k ∧
        (t, (⟨k, c⟩ : KeyCoefficient C)) ∈ m1.timeToCoefficient_) ∧
      ∀ e ∈ m.timeToCoefficient_, ∃ c1,
        (e.1, (⟨e.2.key, c1⟩ : KeyCoefficient C)) ∈ m1.timeToCoefficient_ := by
  induction times generalizing values m g with
  | nil =>
    refine ⟨m, g, [], by cases values <;> rfl, hwf, rfl, ?_, fun e he => ⟨e.2.coefficient, he⟩⟩
    intro i t h
    simp at h
  | cons t ts ih =>
    cases values with
    | nil => simp at hlen
    | cons v vs =>
      obtain ⟨key, m1, g1, hins, hwf1, hi1, hent, hkeep⟩ := insertCoefficient_persist m hwf g hi t v
      obtain ⟨m2, g2, keys, heach, hwf2, hklen, hkeys, hkeep2⟩ :=
        ih vs (by simpa using hlen) m1 hwf1 g1 hi1
      refine ⟨m2, g2, key :: keys, by simp only [insertEach, hins, heach], hwf2,
        by simp [hklen], ?_, ?_⟩
      · intro i s hs
        cases i with
        | zero =>
          simp only [List.getElem?_cons_zero, Option.some.injEq] at hs
          subst hs
          obtain ⟨c1, hc1⟩ := hkeep2 _ hent
          exact ⟨key, c1, by simp, hc1⟩
        | succ i =>
          simp only [List.getElem?_cons_succ] at hs
          obtain ⟨k, c1, hk, hc1⟩ := hkeys i s hs
          exact ⟨k, c1, by simpa using hk, hc1⟩
      · intro e he
        obtain ⟨c1, hc1⟩ := hkeep e he
        obtain ⟨c2, hc2⟩ := hkeep2 _ hc1
        exact ⟨c2, hc2⟩

end LocalSupport2CoefficientManager

/-! ### `insertCoefficients` is `insertCoefficient` in input order -/

theorem result_eq_ok {S : Type} (r : S × Except Error Unit) (s : S) (h : result r = .ok s) :
    r = (s, .ok ()) := by
  obtain ⟨s0, o⟩ := r
  cases o with
  | error err => exact Except.noConfusion h
  | ok u =>
    have : s0 = s := Except.ok.inj h
    rw [this]

namespace LocalSupport2CoefficientManager
variable {C : Type}

/-- C22: for inputs of equal length, `insertCoefficients(times, values, outKeys)` returns
and leaves the store and the key generator in the state the calls
`insertCoefficient(times[i], values[i])`, made for `i = 0 .. n-1` in order, leave; the
keys those calls return are appended to `outKeys` in order.  The key reported at a
position is the key stored at the time of that position, so the positions of a time
that occurs twice report the same key, and the coefficient stored at a time is the one
of its last occurrence.  When the lengths differ the call fails with `ArityMismatch`
and leaves the store, the key generator and `outKeys` as they were. -/
theorem insertCoefficients_in_order (m : LocalSupport2CoefficientManager C) (g : KeyGenerator)
    (hr : Reachable m g) (times : List Time) (values : List C) (outKeys : Option (List Key)) :
    (times.length = values.length →
      ∃ m1 g1, ∃ keys : List Key, m.insertEach g times values = .ok (m1, g1, keys) ∧
        m.insertCoefficients times values outKeys g =
          .ok (m1, g1, outKeys.map (fun ks => ks ++ keys)) ∧
        m.insertCoefficientsExit times values outKeys g =
          ((m1, g1, outKeys.map (fun ks => ks ++ keys)), .ok ()) ∧
        keys.length = times.length ∧
        (∀ (i : Nat) (t : Time), times[i]? = some t → ∃ k c, keys[i]? = some k ∧
          (t, (⟨k, c⟩ : KeyCoefficient C)) ∈ m1.timeToCoefficient_) ∧
        (∀ (i j : Nat) (t : Time), times[i]? = some t → times[j]? = some t →
          keys[i]? = keys[j]?) ∧
        (∀ pre t v post, times.zip values = pre ++ (t, v) :: post →
          t ∉ post.map (fun p => p.1) →
          ∃ k, (t, (⟨k, v⟩ : KeyCoefficient C)) ∈ m1.timeToCoefficient_)) ∧
    (times.length ≠ values.length →
      m.insertCoefficients times values outKeys g = .error .ArityMismatch ∧
      m.insertCoefficientsExit times values outKeys g =
        ((m, g, outKeys), .error .ArityMismatch)) := by
  obtain ⟨hwf, hi⟩ := reachable_wellFormed m g hr
  constructor
  · intro hlen
    obtain ⟨m1, g1, keys, heach, hwf1, hklen, hkeys, _⟩ :=
      insertEach_keys times values hlen m hwf g hi
    have hins : m.insertCoefficients times values outKeys g =
        .ok (m1, g1, outKeys.map (fun ks => ks ++ keys)) := by
      unfold insertCoefficients
      rw [if_pos hlen, insertLoop_zip, heach]
    have hexit := result_eq_ok _ _
      ((insertCoefficients_eq_result m times values outKeys g).symm.trans hins)
    obtain ⟨_, _, _, _, _, _, _, hlast⟩ :=
      insertCoefficients_ok m m1 hwf g g1 hi times values outKeys _ hins
    refine ⟨m1, g1, keys, heach, hins, hexit, hklen, hkeys, ?_, hlast⟩
    intro i j t hi1 hj1
    obtain ⟨k, c, hk, hc⟩ := hkeys i t hi1
    obtain ⟨k1, c1, hk1, hc1⟩ := hkeys j t hj1
    have := map.entry_unique _ hwf1.ascending t _ _ hc hc1
    rw [hk, hk1, (KeyCoefficient.mk.inj this).1]
  · intro hlen
    constructor
    · unfold insertCoefficients
      rw [if_neg hlen]
    · unfold insertCoefficientsExit
      rw [if_neg hlen]

theorem insertCoefficients_in_order_witness :
    Reachable store135 ⟨3⟩ ∧
    (∃ m1 g1, ∃ keys : List Key, store135.insertEach ⟨3⟩ [3, 7, 3, 7] [31, 70, 32, 71] =
        .ok (m1, g1, keys) ∧
      store135.insertCoefficients [3, 7, 3, 7] [31, 70, 32, 71] (some [9]) ⟨3⟩ =
        .ok (m1, g1, (some [9]).map (fun ks => ks ++ keys)) ∧
      store135.insertCoefficientsExit [3, 7, 3, 7] [31, 70, 32, 71] (some [9]) ⟨3⟩ =
        ((m1, g1, (some [9]).map (fun ks => ks ++ keys)), .ok ()) ∧
      keys.length = [(3 : Time), 7, 3, 7].length ∧
      (∀ (i : Nat) (t : Time), [(3 : Time), 7, 3, 7][i]? = some t → ∃ k c, keys[i]? = some k ∧
        (t, (⟨k, c⟩ : KeyCoefficient Nat)) ∈ m1.timeToCoefficient_) ∧
      (∀ (i j : Nat) (t : Time), [(3 : Time), 7, 3, 7][i]? = some t →
        [(3 : Time), 7, 3, 7][j]? = some t → keys[i]? = keys[j]?) ∧
      (∀ pre t v post, [(3 : Time), 7, 3, 7].zip [31, 70, 32, 71] = pre ++ (t, v) :: post →
        t ∉ post.map (fun p => p.1) →
        ∃ k, (t, (⟨k, v⟩ : KeyCoefficient Nat)) ∈ m1.timeToCoefficient_)) ∧
    store135.insertCoefficients [3, 7, 3, 7] [31, 70, 32, 71] (some [9]) ⟨3⟩ =
      .ok (⟨[(1, 3), (2, 1), (3, 5), (4, 7)],
        [(1, ⟨2, 10⟩), (3, ⟨1, 32⟩), (5, ⟨3, 50⟩), (7, ⟨4, 71⟩)]⟩, ⟨4⟩, some [9, 1, 4, 1, 4]) ∧
    store135.insertCoefficientsExit [3, 7, 3] [31, 70] (some [9]) ⟨3⟩ =
      ((store135, ⟨3⟩, some [9]), .error .ArityMismatch) :=
  ⟨reachable_store135,
    (insertCoefficients_in_order store135 ⟨3⟩ reachable_store135 [3, 7, 3, 7] [31, 70, 32, 71]
      (some [9])).1 rfl,
    rfl,
    ((insertCoefficients_in_order store135 ⟨3⟩ reachable_store135 [3, 7, 3] [31, 70]
      (some [9])).2 (by decide)).2⟩

end LocalSupport2CoefficientManager

/-! ### Batch write-back by key -/

namespace LocalSupport2CoefficientManager
variable {C : Type}

theorem setCoefficients_eq_result (coefficients : CoefficientMap C)
    (m : LocalSupport2CoefficientManager C) :
    m.setCoefficients coefficients = result (m.setCoefficientsExit coefficients) := by
  induction coefficients generalizing m with
  | nil => rfl
  | cons p rest ih =>
    obtain ⟨key, coefficient⟩ := p
    unfold setCoefficients setCoefficientsExit
    cases m.setCoefficientByKey key coefficient with
    | error err => rfl
    | ok m1 => exact ih m1

theorem hasCoefficientWithKey_congr (m m1 : LocalSupport2CoefficientManager C)
    (h : m1.keyToCoefficient_ = m.keyToCoefficient_) (k : Key) :
    m1.hasCoefficientWithKey k = m.hasCoefficientWithKey k := by
  simp only [hasCoefficientWithKey, h]

/-- Writes by key whose keys are all in the store: the call returns, the key index and the
times and keys of the time index are unchanged, and a read by key gives the coefficient
written to that key last. -/
theorem setCoefficients_present (coefficients : CoefficientMap C)
    (m : LocalSupport2CoefficientManager C) (hwf : m.WellFormed)
    (h : ∀ p ∈ coefficients, m.hasCoefficientWithKey p.1 = true) :
    ∃ m1, m.setCoefficients coefficients = .ok m1 ∧ m1.WellFormed ∧
      m1.keyToCoefficient_ = m.keyToCoefficient_ ∧
      m1.timeToCoefficient_.map (fun e => (e.1, e.2.key)) =
        m.timeToCoefficient_.map (fun e => (e.1, e.2.key)) ∧
      ∀ k, m1.getCoefficientByKey k =
        match lastWritten coefficients k with
        | some c => .ok c
        | none => m.getCoefficientByKey k := by
  induction coefficients generalizing m with
  | nil => exact ⟨m, rfl, hwf, rfl, rfl, fun k => rfl⟩
  | cons p rest ih =>
    obtain ⟨key, coefficient⟩ := p
    obtain ⟨node, hfind⟩ := (hasCoefficientWithKey_eq_true_iff m key).mp
      (h _ (List.mem_cons_self _ _))
    have hset := setCoefficientByKey_eq m hwf key node coefficient
      (unordered_map.um_mem_of_find _ _ _ hfind)
    obtain ⟨hwf1, hK1⟩ := wellFormed_setCoefficientByKey m _ hwf key coefficient hset
    obtain ⟨_, hskel1, _⟩ := setCoefficientByKey_entries m _ hwf key coefficient hset
    have hreads1 := setCoefficientByKey_reads m _ hwf key coefficient hset
    obtain ⟨m2, hrest, hwf2, hK2, hskel2, hreads2⟩ := ih _ hwf1 (fun p hp => by
      rw [hasCoefficientWithKey_congr _ _ hK1]
      exact h p (List.mem_cons_of_mem _ hp))
    refine ⟨m2, by simp only [setCoefficients, hset, hrest], hwf2, hK2.trans hK1,
      hskel2.trans hskel1, ?_⟩
    intro k
    rw [hreads2 k]
    simp only [lastWritten]
    cases lastWritten rest k with
    | some later => rfl
    | none =>
      simp only
      rw [hreads1 k]
      by_cases hk : key = k <;> simp [hk]

/-- Writes by key with a key that is not in the store: the call ends at the first such
key of the iteration order, after the writes for the keys before it. -/
theorem setCoefficientsExit_absent (coefficients : CoefficientMap C)
    (m : LocalSupport2CoefficientManager C) (hwf : m.WellFormed)
    (h : ∃ p ∈ coefficients, m.hasCoefficientWithKey p.1 = false) :
    ∃ pre k c post m1, coefficients = pre ++ (k, c) :: post ∧
      (∀ p ∈ pre, m.hasCoefficientWithKey p.1 = true) ∧ m.hasCoefficientWithKey k = false ∧
      m.setCoefficients pre = .ok m1 ∧
      m.setCoefficientsExit coefficients = (m1, .error .UnknownKey) := by
  induction coefficients generalizing m with
  | nil =>
    obtain ⟨p, hp, _⟩ := h
    simp at hp
  | cons q rest ih =>
    obtain ⟨key, coefficient⟩ := q
    cases hhas : m.hasCoefficientWithKey key with
    | false =>
      refine ⟨[], key, coefficient, rest, m, rfl, fun p hp => by simp at hp, hhas, rfl, ?_⟩
      simp only [setCoefficientsExit,
        setCoefficientByKey_unknown m key coefficient
          ((hasCoefficientWithKey_eq_false_iff m key).mp hhas)]
    | true =>
      obtain ⟨node, hfind⟩ := (hasCoefficientWithKey_eq_true_iff m key).mp hhas
      have hset := setCoefficientByKey_eq m hwf key node coefficient
        (unordered_map.um_mem_of_find _ _ _ hfind)
      obtain ⟨hwf1, hK1⟩ := wellFormed_setCoefficientByKey m _ hwf key coefficient hset
      obtain ⟨p, hp, hpabs⟩ := h
      have hprest : p ∈ rest := by
        rcases List.mem_cons.mp hp with heq | hmem
        · rw [heq] at hpabs
          rw [hhas] at hpabs
          exact Bool.noConfusion hpabs
        · exact hmem
      obtain ⟨pre, k, c, post, m1, hsplit, hpre, hk, hsetpre, hexit⟩ := ih _ hwf1
        ⟨p, hprest, by rw [hasCoefficientWithKey_congr _ _ hK1]; exact hpabs⟩
      refine ⟨(key, coefficient) :: pre, k, c, post, m1, by rw [hsplit]; rfl, ?_, ?_, ?_, ?_⟩
      · intro p1 hp1
        rcases List.mem_cons.mp hp1 with heq | hmem
        · rw [heq]; exact hhas
        · rw [← hasCoefficientWithKey_congr _ _ hK1]
          exact hpre p1 hmem
      · rw [← hasCoefficientWithKey_congr _ _ hK1]
        exact hk
      · simp only [setCoefficients, hset, hsetpre]
      · simp only [setCoefficientsExit, hset, hexit]

/-- C23 (amended): on every store, `setCoefficients(m)` with a mapping that contains a key
not present in the store fails with `UnknownKey`.  The failure is raised at the first
absent key in the iteration order of the mapping: the store the call leaves is the one
the writes for the keys visited before it produce.  Its size, times, keys and key index
are those before the call, a present key visited before the absent one reads the
coefficient mapped to it, and every other key reads what it read before; when the absent
key is visited first the store is identical to the store before the call. -/
theorem setCoefficients_failure_state (m : LocalSupport2CoefficientManager C) (g : KeyGenerator)
    (hr : Reachable m g) (coefficients : CoefficientMap C)
    (h : ∃ p ∈ coefficients, m.hasCoefficientWithKey p.1 = false) :
    ∃ pre k c post m1, coefficients = pre ++ (k, c) :: post ∧
      (∀ p ∈ pre, m.hasCoefficientWithKey p.1 = true) ∧ m.hasCoefficientWithKey k = false ∧
      m.setCoefficients coefficients = .error .UnknownKey ∧
      m.setCoefficientsExit coefficients = (m1, .error .UnknownKey) ∧
      m.setCoefficients pre = .ok m1 ∧ (pre = [] → m1 = m) ∧
      m1.size = m.size ∧ m1.getTimes = m.getTimes ∧ m1.getKeys = m.getKeys ∧
      m1.keyToCoefficient_ = m.keyToCoefficient_ ∧
      (∀ key written, lastWritten pre key = some written →
        m1.getCoefficientByKey key = .ok written) ∧
      (∀ key, lastWritten pre key = none →
        m1.getCoefficientByKey key = m.getCoefficientByKey key) := by
  have hwf := (reachable_wellFormed m g hr).1
  obtain ⟨pre, k, c, post, m1, hsplit, hpre, hk, hsetpre, hexit⟩ :=
    setCoefficientsExit_absent coefficients m hwf h
  obtain ⟨m2, hm2, _, hK, hskel, hreads⟩ := setCoefficients_present pre m hwf hpre
  rw [hsetpre] at hm2
  have hm : m2 = m1 := (Except.ok.inj hm2).symm
  subst hm
  refine ⟨pre, k, c, post, m2, hsplit, hpre, hk, ?_, hexit, hsetpre, ?_, ?_, ?_, ?_, hK,
    fun key written hw => by rw [hreads key, hw], fun key hw => by rw [hreads key, hw]⟩
  · rw [setCoefficients_eq_result, hexit]
    rfl
  · intro hnil
    rw [hnil] at hsetpre
    exact (Except.ok.inj hsetpre).symm
  · simp only [size, hK]
  · have := congrArg (List.map (fun p : Time × Key => p.1)) hskel
    simpa [getTimes, List.map_map, Function.comp_def] using this
  · have := congrArg (List.map (fun p : Time × Key => p.2)) hskel
    simpa [getKeys, appendKeys, List.map_map, Function.comp_def] using this

theorem setCoefficients_failure_state_witness :
    Reachable store135 ⟨3⟩ ∧
    (∃ p ∈ [((1 : Key), (99 : Nat)), (7, 0)], store135.hasCoefficientWithKey p.1 = false) ∧
    ∃ pre k c post m1, [((1 : Key), (99 : Nat)), (7, 0)] = pre ++ (k, c) :: post ∧
      (∀ p ∈ pre, store135.hasCoefficientWithKey p.1 = true) ∧
      store135.hasCoefficientWithKey k = false ∧
      store135.setCoefficients [(1, 99), (7, 0)] = .error .UnknownKey ∧
      store135.setCoefficientsExit [(1, 99), (7, 0)] = (m1, .error .UnknownKey) ∧
      store135.setCoefficients pre = .ok m1 ∧ (pre = [] → m1 = store135) ∧
      m1.size = store135.size ∧ m1.getTimes = store135.getTimes ∧
      m1.getKeys = store135.getKeys ∧
      m1.keyToCoefficient_ = store135.keyToCoefficient_ ∧
      (∀ key written, lastWritten pre key = some written →
        m1.getCoefficientByKey key = .ok written) ∧
      (∀ key, lastWritten pre key = none →
        m1.getCoefficientByKey key = store135.getCoefficientByKey key) :=
  ⟨reachable_store135, ⟨(7, 0), by simp, rfl⟩,
    setCoefficients_failure_state store135 ⟨3⟩ reachable_store135 [(1, 99), (7, 0)]
      ⟨(7, 0), by simp, rfl⟩⟩

/-- C23, the claim as stated fails: on the store with keys 1, 2, 3 the mapping with
key 1 (present) visited before key 7 (absent) makes `setCoefficients` fail with
`UnknownKey` after the coefficient of key 1 was overwritten: it was 30 before the call and
is 99 in the store the call leaves. -/
theorem setCoefficients_partial_write :
    Reachable store135 ⟨3⟩ ∧ store135.hasCoefficientWithKey 7 = false ∧
    store135.setCoefficients [(1, 99), (7, 0)] = .error .UnknownKey ∧
    store135.getCoefficientByKey 1 = .ok 30 ∧
    ∃ m1, store135.setCoefficientsExit [(1, 99), (7, 0)] = (m1, .error .UnknownKey) ∧
      m1.getCoefficientByKey 1 = .ok 99 ∧ m1 ≠ store135 :=
  ⟨reachable_store135, rfl, rfl, rfl, _, rfl, rfl, by decide⟩

end LocalSupport2CoefficientManager

/-! ## The composition curve: the size check of `extend` -/

namespace Curve
variable {V : Type}

theorem extendExit_result (cv : Curve V) (times : List Time) (values : List V)
    (outKeys : Option (List Key)) (g : KeyGenerator) :
    cv.extend times values outKeys g = result (cv.extendExit times values outKeys g) := by
  unfold extend extendExit
  rw [LocalSupport2CoefficientManager.insertCoefficients_eq_result]
  generalize cv.manager_.insertCoefficientsExit times values outKeys g = x
  obtain ⟨⟨m1, g1, keys⟩, r⟩ := x
  cases r <;> rfl

end Curve

namespace SE3CompositionCurve
variable {V : Type}

theorem seedCorrection_eq_result [One V] (p : CorrectionPadding V) (newMinTime : Time) :
    seedCorrection p newMinTime = result (seedCorrectionExit p newMinTime) := by
  unfold seedCorrection seedCorrectionExit
  by_cases hemp : p.correctionCurve_.isEmpty = true
  · rw [if_pos hemp, if_pos hemp]
    dsimp only
    rw [Curve.extendExit_result]
    generalize p.correctionCurve_.extendExit (p.correctionTimes ++ [newMinTime])
      (p.correctionValues ++ [1]) none p.generator = x
    obtain ⟨⟨cv, g1, keys⟩, r⟩ := x
    cases r <;> rfl
  · rw [if_neg hemp, if_neg hemp]
    rfl

theorem padMax_eq_result (C1 : CurveClass V) (p : CorrectionPadding V) (newMaxTime : Time) :
    padMax C1 p newMaxTime = result (padMaxExit C1 p newMaxTime) := by
  unfold padMax padMaxExit
  by_cases hlt : p.correctionCurve_.getMaxTime < newMaxTime
  · rw [if_pos hlt, if_pos hlt]
    cases C1.evaluate p.correctionCurve_.manager_ p.correctionCurve_.getMaxTime with
    | error err => rfl
    | ok value =>
      dsimp only
      rw [Curve.extendExit_result]
      generalize p.correctionCurve_.extendExit (p.correctionTimes ++ [newMaxTime])
        (p.correctionValues ++ [value]) none p.generator = x
      obtain ⟨⟨cv, g1, keys⟩, r⟩ := x
      cases r <;> rfl
  · rw [if_neg hlt, if_neg hlt]
    rfl

theorem padMin_eq_result (C1 : CurveClass V) (p : CorrectionPadding V) (newMinTime : Time) :
    padMin C1 p newMinTime = result (padMinExit C1 p newMinTime) := by
  unfold padMin padMinExit
  by_cases hlt : p.correctionCurve_.getMinTime > newMinTime
  · rw [if_pos hlt, if_pos hlt]
    cases C1.evaluate p.correctionCurve_.manager_ p.correctionCurve_.getMinTime with
    | error err => rfl
    | ok value =>
      dsimp only
      rw [Curve.extendExit_result]
      generalize p.correctionCurve_.extendExit (p.correctionTimes ++ [newMinTime])
        (p.correctionValues ++ [value]) none p.generator = x
      obtain ⟨⟨cv, g1, keys⟩, r⟩ := x
      cases r <;> rfl
  · rw [if_neg hlt, if_neg hlt]
    rfl

/-- The call `extend` returns what the state it leaves and its outcome say. -/
theorem extend_eq_result [Mul V] [Inv V] [One V] (C1 : CurveClass V) (c : SE3CompositionCurve V)
    (times : List Time) (values : List V) (outKeys : Option (List Key)) (g : KeyGenerator) :
    c.extend C1 times values outKeys g = result (c.extendExit C1 times values outKeys g) := by
  unfold extend extendExit
  by_cases ht : times.length ≠ 1
  · rw [if_pos ht, if_pos ht]
    rfl
  · rw [if_neg ht, if_neg ht]
    by_cases hv : values.length ≠ 1
    · rw [if_pos hv, if_pos hv]
      rfl
    · rw [if_neg hv, if_neg hv]
      dsimp only
      rw [seedCorrection_eq_result]
      generalize seedCorrectionExit ⟨[], [], c.correctionCurve_, g⟩ (c.newLimits times).2 = x1
      obtain ⟨p1, r1⟩ := x1
      cases r1 with
      | error err => rfl
      | ok u1 =>
        simp only [result]
        rw [padMax_eq_result]
        generalize padMaxExit C1 p1 (c.newLimits times).1 = x2
        obtain ⟨p2, r2⟩ := x2
        cases r2 with
        | error err => rfl
        | ok u2 =>
          simp only [result]
          rw [padMin_eq_result]
          generalize padMinExit C1 p2 (c.newLimits times).2 = x3
          obtain ⟨p3, r3⟩ := x3
          cases r3 with
          | error err => rfl
          | ok u3 =>
            simp only [result]
            cases baseUpdates C1 p3.correctionCurve_ times values with
            | error err => rfl
            | ok newValues =>
              simp only
              rw [Curve.extendExit_result]
              generalize c.baseCurve_.extendExit times newValues outKeys p3.generator = x4
              obtain ⟨⟨b, g1, keys⟩, r4⟩ := x4
              cases r4 <;> rfl

end SE3CompositionCurve

/-! ### Where a failure of `extend` comes from -/

namespace SE3CompositionCurve
variable {V : Type}

theorem seedCorrection_returns [One V] (p : CorrectionPadding V) (newMinTime : Time)
    (hwf : p.correctionCurve_.manager_.WellFormed)
    (hi : p.correctionCurve_.manager_.Issued p.generator)
    (hlen : p.correctionTimes.length = p.correctionValues.length) :
    ∃ p1, seedCorrection p newMinTime = .ok p1 ∧
      p1.correctionTimes.length = p1.correctionValues.length := by
  by_cases hemp : p.correctionCurve_.isEmpty = true
  · obtain ⟨cv, g1, keys, hext⟩ := Curve.extend_returns p.correctionCurve_ hwf p.generator hi
      (p.correctionTimes ++ [newMinTime]) (p.correctionValues ++ [1]) none (by simp [hlen])
    exact ⟨⟨p.correctionTimes ++ [newMinTime], p.correctionValues ++ [1], cv, g1⟩,
      by simp only [seedCorrection, hemp, if_true, hext], by simp [hlen]⟩
  · exact ⟨p, by simp only [seedCorrection, hemp, Bool.false_eq_true, if_false], hlen⟩

/-- The second step of `extend` on a well-formed correction curve returns, or fails with
the failure of `evaluate`. -/
theorem padMax_cases (C1 : CurveClass V) (p : CorrectionPadding V) (newMaxTime : Time)
    (hwf : p.correctionCurve_.manager_.WellFormed)
    (hi : p.correctionCurve_.manager_.Issued p.generator)
    (hlen : p.correctionTimes.length = p.correctionValues.length) :
    (∃ p1, padMax C1 p newMaxTime = .ok p1 ∧
      p1.correctionTimes.length = p1.correctionValues.length) ∨
    (∃ err, padMax C1 p newMaxTime = .error err ∧
      C1.evaluate p.correctionCurve_.manager_ p.correctionCurve_.getMaxTime = .error err) := by
  by_cases hf : p.correctionCurve_.getMaxTime < newMaxTime
  · cases hev : C1.evaluate p.correctionCurve_.manager_ p.correctionCurve_.getMaxTime with
    | error err => exact Or.inr ⟨err, by simp only [padMax, hf, if_true, hev], rfl⟩
    | ok x =>
      obtain ⟨cv, g1, keys, hext⟩ := Curve.extend_returns p.correctionCurve_ hwf p.generator hi
        (p.correctionTimes ++ [newMaxTime]) (p.correctionValues ++ [x]) none (by simp [hlen])
      exact Or.inl ⟨⟨p.correctionTimes ++ [newMaxTime], p.correctionValues ++ [x], cv, g1⟩,
        by simp only [padMax, hf, if_true, hev, hext], by simp [hlen]⟩
  · exact Or.inl ⟨p, by simp only [padMax, hf, if_false], hlen⟩

/-- The third step of `extend` on a well-formed correction curve returns, or fails with
the failure of `evaluate`. -/
theorem padMin_cases (C1 : CurveClass V) (p : CorrectionPadding V) (newMinTime : Time)
    (hwf : p.correctionCurve_.manager_.WellFormed)
    (hi : p.correctionCurve_.manager_.Issued p.generator)
    (hlen : p.correctionTimes.length = p.correctionValues.length) :
    (∃ p1, padMin C1 p newMinTime = .ok p1 ∧
      p1.correctionTimes.length = p1.correctionValues.length) ∨
    (∃ err, padMin C1 p newMinTime = .error err ∧
      C1.evaluate p.correctionCurve_.manager_ p.correctionCurve_.getMinTime = .error err) := by
  by_cases hf : p.correctionCurve_.getMinTime > newMinTime
  · cases hev : C1.evaluate p.correctionCurve_.manager_ p.correctionCurve_.getMinTime with
    | error err => exact Or.inr ⟨err, by simp only [padMin, hf, if_true, hev], rfl⟩
    | ok x =>
      obtain ⟨cv, g1, keys, hext⟩ := Curve.extend_returns p.correctionCurve_ hwf p.generator hi
        (p.correctionTimes ++ [newMinTime]) (p.correctionValues ++ [x]) none (by simp [hlen])
      exact Or.inl ⟨⟨p.correctionTimes ++ [newMinTime], p.correctionValues ++ [x], cv, g1⟩,
        by simp only [padMin, hf, if_true, hev, hext], by simp [hlen]⟩
  · exact Or.inl ⟨p, by simp only [padMin, hf, if_false], hlen⟩

/-- With one time and one value, a failure of `extend` on a curve with well-formed stores
is a failure of an `evaluate` of the correction curve class. -/
theorem extend_error_source [Mul V] [Inv V] [One V] (C1 : CurveClass V)
    (c : SE3CompositionCurve V) (g : KeyGenerator) (hv : c.Valid g) (t : Time) (v : V)
    (outKeys : Option (List Key)) (err : Error)
    (h : c.extend C1 [t] [v] outKeys g = .error err) :
    ∃ m s, C1.evaluate m s = .error err := by
  obtain ⟨p1, hs1, hlen1⟩ := seedCorrection_returns
    (⟨[], [], c.correctionCurve_, g⟩ : CorrectionPadding V) (c.newLimits [t]).2
    hv.correction hv.correctionIssued rfl
  obtain ⟨w1, i1, le1, _, _⟩ := seedCorrection_grow _ p1 _ hv.correction hv.correctionIssued hs1
  simp only [extend, List.length_singleton, ne_eq, not_true_eq_false, if_false, hs1] at h
  rcases padMax_cases C1 p1 (c.newLimits [t]).1 w1 i1 hlen1 with ⟨p2, hs2, hlen2⟩ | ⟨e2, hs2, hev2⟩
  · obtain ⟨w2, i2, le2, _, _⟩ := padMax_grow C1 p1 p2 _ w1 i1 hs2
    simp only [hs2] at h
    rcases padMin_cases C1 p2 (c.newLimits [t]).2 w2 i2 hlen2 with
      ⟨p3, hs3, hlen3⟩ | ⟨e3, hs3, hev3⟩
    · obtain ⟨w3, i3, le3, _, _⟩ := padMin_grow C1 p2 p3 _ w2 i2 hs3
      simp only [hs3, baseUpdates] at h
      cases hev : C1.evaluate p3.correctionCurve_.manager_ t with
      | error e4 =>
        simp only [hev] at h
        exact ⟨_, _, hev.trans (congrArg Except.error (Except.error.inj h))⟩
      | ok x =>
        obtain ⟨b, g4, keys, hxb⟩ := Curve.extend_returns c.baseCurve_ hv.base p3.generator
          (LocalSupport2CoefficientManager.issued_mono _ _ _ hv.baseIssued
            (Nat.le_trans le1 (Nat.le_trans le2 le3))) [t] [x⁻¹ * v] outKeys rfl
        simp only [hev, hxb] at h
        exact Except.noConfusion h
    · simp only [hs3] at h
      exact ⟨_, _, hev3.trans (congrArg Except.error (Except.error.inj h))⟩
  · simp only [hs2] at h
    exact ⟨_, _, hev2.trans (congrArg Except.error (Except.error.inj h))⟩

/-- The example class fails with `OutOfRange` or on an iterator only. -/
theorem holdCurve_error (m : LocalSupport2CoefficientManager V) (s : Time) (err : Error)
    (h : (holdCurve V).evaluate m s = .error err) :
    err = .OutOfRange ∨ err = .InvalidIterator := by
  have hderef : ∀ (it : Nat) (e : Error), (match map.deref m.timeToCoefficient_ it with
      | .error err => (.error err : Except Error V)
      | .ok e => .ok e.2.coefficient) = .error e → e = .InvalidIterator := by
    intro it e he
    unfold map.deref at he
    cases hx : m.timeToCoefficient_[it]? with
    | none =>
      simp only [hx] at he
      exact (Except.error.inj he).symm
    | some x =>
      simp only [hx] at he
      exact Except.noConfusion he
  simp only [holdCurve] at h
  split at h
  · exact Or.inr (hderef _ _ h)
  · split at h
    · exact Or.inl (Except.error.inj h).symm
    · exact Or.inr (hderef _ _ h)

end SE3CompositionCurve

/-! ### The size check -/

namespace SE3CompositionCurve
variable {V : Type}

/-- C24: on every composition curve `extend(times, values)` fails with
`UnsupportedBatchSize` whenever `len(times) != 1` or `len(values) != 1`, and the call then
leaves the base curve, the correction curve, the key generator and `outKeys` as they were.
With exactly one time and one value the size check does not fail: on a reachable curve
the call does not end in `UnsupportedBatchSize`, unless an `evaluate` of the correction
curve class itself fails that way. -/
theorem extend_batch_size [Mul V] [Inv V] [One V] (C1 C2 : CurveClass V)
    (c : SE3CompositionCurve V) (g : KeyGenerator) (times : List Time) (values : List V)
    (outKeys : Option (List Key)) :
    ((times.length ≠ 1 ∨ values.length ≠ 1) →
      c.extend C1 times values outKeys g = .error .UnsupportedBatchSize ∧
      c.extendExit C1 times values outKeys g =
        ((c, g, outKeys), .error .UnsupportedBatchSize)) ∧
    (times.length = 1 → values.length = 1 → Reachable C1 C2 c g →
      (∀ m s, C1.evaluate m s ≠ .error .UnsupportedBatchSize) →
      c.extend C1 times values outKeys g ≠ .error .UnsupportedBatchSize) := by
  constructor
  · intro h
    by_cases ht : times.length ≠ 1
    · constructor
      · unfold extend
        rw [if_pos ht]
      · unfold extendExit
        rw [if_pos ht]
    · have hv : values.length ≠ 1 := h.resolve_left ht
      constructor
      · unfold extend
        rw [if_neg ht, if_pos hv]
      · unfold extendExit
        rw [if_neg ht, if_pos hv]
  · intro ht hv hr hC1 herr
    obtain ⟨t, rfl⟩ := List.length_eq_one.mp ht
    obtain ⟨v, rfl⟩ := List.length_eq_one.mp hv
    obtain ⟨m, s, hms⟩ := extend_error_source C1 c g (reachable_valid C1 C2 c g hr) t v outKeys _
      herr
    exact hC1 m s hms

theorem extend_batch_size_witness :
    (([(5 : Time), 6].length ≠ 1 ∨ [Multiplicative.ofAdd (1 : ℤ)].length ≠ 1) ∧
      curveAt5.extend (holdCurve _) [5, 6] [Multiplicative.ofAdd 1] none ⟨3⟩ =
        .error .UnsupportedBatchSize ∧
      curveAt5.extendExit (holdCurve _) [5, 6] [Multiplicative.ofAdd 1] none ⟨3⟩ =
        ((curveAt5, ⟨3⟩, none), .error .UnsupportedBatchSize)) ∧
    Reachable (holdCurve _) (holdCurve _) curveAt5 ⟨3⟩ ∧
    (∀ m s, (holdCurve (Multiplicative ℤ)).evaluate m s ≠ .error .UnsupportedBatchSize) ∧
    curveAt5.extend (holdCurve _) [8] [Multiplicative.ofAdd 10] none ⟨3⟩ ≠
      .error .UnsupportedBatchSize :=
  ⟨⟨Or.inl (by decide),
      (extend_batch_size (holdCurve _) (holdCurve _) curveAt5 ⟨3⟩ [5, 6] [Multiplicative.ofAdd 1]
        none).1 (Or.inl (by decide))⟩,
    reachable_curveAt5,
    fun m s h => by rcases holdCurve_error m s _ h with h1 | h1 <;> exact Error.noConfusion h1,
    (extend_batch_size (holdCurve _) (holdCurve _) curveAt5 ⟨3⟩ [8] [Multiplicative.ofAdd 10]
      none).2 rfl rfl reachable_curveAt5
      (fun m s h => by rcases holdCurve_error m s _ h with h1 | h1 <;> exact Error.noConfusion h1)⟩

end SE3CompositionCurve

/-! ## The range query on the empty store -/

namespace LocalSupport2CoefficientManager
variable {C : Type}

/-- On a well-formed store that is not empty the iterator `getCoefficientsInRange` steps
back is never `begin()`: the start time is clamped to `getMinTime()` first, so
`upper_bound` is past the first entry, and the call returns. -/
theorem getCoefficientsInRange_returns (m : LocalSupport2CoefficientManager C)
    (hwf : m.WellFormed) (hne : m.timeToCoefficient_ ≠ []) (startTime endTime : Time)
    (outCoefficients : CoefficientMap C) :
    map.upper_bound m.timeToCoefficient_
      (if startTime < m.getMinTime then m.getMinTime else startTime) ≠ 0 ∧
    ∃ out, m.getCoefficientsInRange startTime endTime outCoefficients = .ok out := by
  have hlen : 0 < m.timeToCoefficient_.length := List.length_pos.mpr hne
  obtain ⟨e0, he0⟩ : ∃ e0, m.timeToCoefficient_[0]? = some e0 :=
    ⟨_, List.getElem?_eq_getElem hlen⟩
  have hub : map.upper_bound m.timeToCoefficient_
      (if startTime < m.getMinTime then m.getMinTime else startTime) ≠ 0 := by
    have h0 : 0 < map.upper_bound m.timeToCoefficient_
        (if startTime < m.getMinTime then m.getMinTime else startTime) := by
      rw [map.lt_upper_bound_iff _ hwf.ascending _ 0 e0 he0, ← getMinTime_eq m e0 he0]
      by_cases hlt : startTime < m.getMinTime
      · rw [if_pos hlt]
      · rw [if_neg hlt]
        exact not_lt.mp hlt
    exact Nat.pos_iff_ne_zero.mp h0
  refine ⟨hub, ?_⟩
  by_cases hguard : startTime ≤ endTime ∧ startTime ≤ m.getMaxTime ∧ endTime ≥ m.getMinTime
  · refine ⟨rangeLoop (m.timeToCoefficient_.drop (map.upper_bound m.timeToCoefficient_
      (if startTime < m.getMinTime then m.getMinTime else startTime) - 1))
      (if endTime > m.getMaxTime then m.getMaxTime else endTime) outCoefficients, ?_⟩
    unfold getCoefficientsInRange
    rw [if_pos hguard]
    dsimp only
    rw [if_neg hub]
  · refine ⟨outCoefficients, ?_⟩
    unfold getCoefficientsInRange
    rw [if_neg hguard]

/-- C25, the code misses the empty store: there `getMinTime()` and `getMaxTime()` return
the sentinel 0, so a query with `startTime <= 0 <= endTime` passes the guard,
`upper_bound` is `begin()` and the decrement `it--` steps back past the first position.
On the empty store the call returns the mapping unchanged exactly for the other
queries. -/
theorem getCoefficientsInRange_empty_store :
    (new : LocalSupport2CoefficientManager Nat).size = 0 ∧
    (new : LocalSupport2CoefficientManager Nat).getMinTime = 0 ∧
    (new : LocalSupport2CoefficientManager Nat).getMaxTime = 0 ∧
    map.upper_bound (new : LocalSupport2CoefficientManager Nat).timeToCoefficient_ 0 = 0 ∧
    (new : LocalSupport2CoefficientManager Nat).getCoefficientsInRange 0 0 [] =
      .error .InvalidIterator ∧
    (new : LocalSupport2CoefficientManager Nat).getCoefficientsInRange (-1) 1 [] =
      .error .InvalidIterator ∧
    (new : LocalSupport2CoefficientManager Nat).getCoefficientsInRange 1 2 [] = .ok [] ∧
    ∀ (startTime endTime : Time) (out : CoefficientMap Nat),
      (new : LocalSupport2CoefficientManager Nat).getCoefficientsInRange startTime endTime out =
        if startTime ≤ endTime ∧ startTime ≤ 0 ∧ endTime ≥ 0 then .error .InvalidIterator
        else .ok out := by
  refine ⟨rfl, rfl, rfl, rfl, rfl, rfl, rfl, ?_⟩
  intro startTime endTime out
  have hmin : (new : LocalSupport2CoefficientManager Nat).getMinTime = 0 := rfl
  have hmax : (new : LocalSupport2CoefficientManager Nat).getMaxTime = 0 := rfl
  unfold getCoefficientsInRange
  rw [hmin, hmax]
  by_cases hguard : startTime ≤ endTime ∧ startTime ≤ 0 ∧ endTime ≥ 0
  · rw [if_pos hguard, if_pos hguard]
    have hub : ∀ t : Time,
        map.upper_bound (new : LocalSupport2CoefficientManager Nat).timeToCoefficient_ t = 0 :=
      fun _ => rfl
    dsimp only
    rw [hub, if_pos rfl]
  · rw [if_neg hguard, if_neg hguard]

end LocalSupport2CoefficientManager
end curves
